import Mathlib

/-! University admission procedure: a shallow embedding of `main.go`.

The Go program keeps applicants behind pointers (`*Applicant`) that are shared
between the university's applicant list and the candidate pools of the
departments; admitting an applicant flips the `accepted` flag of the shared
object.  The embedding makes that sharing explicit:

* a pointer to an applicant is an address (`Nat`);
* the applicant objects live in a store `Heap := Nat → Applicant`
  (every address holds an object: the program creates applicant pointers only
  with `&applicant`, line 165, so nil pointers are outside the model);
* the `[]*Department` slice of the university is a list of department values:
  the department objects of a run are pairwise distinct objects (lines 207-219),
  and every access goes through the slice.

Scores come in two forms.  The claims about ranking (C5, C6, C7, C12) and about
reading the grades (C17) are stated over `float64` itself (`FloatApplicant`,
`floatRankedBefore`, `Department.floatSortApplicants`,
`FloatUniversity.sortDepartments`, `scanApplicants`): the theorems take the
carrier and the arithmetic of `float64` as parameters (`FloatOps`) and fix only
the rules by which Go compares `float64` values, NaN included, so they hold
whatever the rounding does; their examples run `float64Ops`, the binary64
arithmetic of IEEE 754 with rounding to nearest, ties to even.  Segmentation and
selection look at a score only through the order of the pools; their applicants
carry exact rational grades (`ℚ`), as claim C4 words it, and the examples of
these claims use grades whose sums and means a `float64` holds exactly.

Go `int` values are `Int`; loop counters and lengths are `Nat`.  A Go run-time
panic is an `Except.error`.
-/

namespace Admission

/-! ## Run-time failures and Go maps -/

/-- Run-time panics of the Go program that the model distinguishes. -/
inductive Panic where
  | indexOutOfRange
  deriving DecidableEq, Repr

/-- Go map read `m[k]`: the value stored last under `k`, or the zero value of
the value type when the key is absent. -/
def mapGet {ν : Type} (m : List (String × ν)) (k : String) (zero : ν) : ν :=
  (m.lookup k).getD zero

/-- Go map write `m[k] = v`: later writes shadow earlier ones. -/
def mapSet {ν : Type} (m : List (String × ν)) (k : String) (v : ν) : List (String × ν) :=
  (k, v) :: m

/-! ## Applicants (lines 16-49) -/

/-- The Go struct `Applicant` (lines 16-21). -/
structure Applicant where
  name : String
  grades : List (String × ℚ)
  departmentOptions : List String
  accepted : Bool
  deriving DecidableEq

instance : Inhabited Applicant := ⟨⟨"", [], [], false⟩⟩

/-- The store of applicant objects; a `*Applicant` is an address into it. -/
abbrev Heap := Nat → Applicant

/-- Constructor `NewApplicant` (lines 23-37); it indexes `examGrades[0..4]` and
panics when fewer than five grades are supplied. -/
def NewApplicant (name : String) (examGrades : List ℚ) (departmentOption : List String) :
    Except Panic Applicant :=
  match examGrades[0]?, examGrades[1]?, examGrades[2]?, examGrades[3]?, examGrades[4]? with
  | some g0, some g1, some g2, some g3, some g4 =>
    let grades := mapSet (mapSet (mapSet (mapSet (mapSet [] "physics" g0) "chemistry" g1)
      "math" g2) "computer science" g3) "special" g4
    .ok { name := name, grades := grades, departmentOptions := departmentOption,
          accepted := false }
  | _, _, _, _, _ => .error .indexOutOfRange

/-- The map read `a.grades[exam]` (zero for a subject that is not in the map). -/
def Applicant.grade (a : Applicant) (exam : String) : ℚ :=
  mapGet a.grades exam 0

/-- The sum accumulated by the loop of lines 40-43. -/
def Applicant.gradeSum (a : Applicant) (exams : List String) : ℚ :=
  exams.foldl (fun grade exam => grade + a.grade exam) 0

/-- Method `calculateMean` (lines 39-49) over exact rationals.  For an empty
exam list the Go code divides `0.0` by `0.0`; the model agrees with the code on
non-empty lists only.  The method on `float64` grades, NaN and rounding
included, is `FloatApplicant.calculateMean`. -/
def Applicant.calculateMean (a : Applicant) (exams : List String) : ℚ :=
  let grade := a.gradeSum exams
  let mean := grade / (exams.length : ℚ)
  if a.grade "special" > mean then a.grade "special" else mean

/-! ## Departments (lines 51-87) -/

/-- The Go struct `Department` (lines 51-57); `applicants` (the candidate pool)
and `accepted` (the admitted list) hold applicant addresses. -/
structure Department where
  name : String
  exams : List String
  limit : Int
  applicants : List Nat
  accepted : List Nat
  deriving DecidableEq

/-- Constructor `NewDepartment` (lines 59-65): both slices start nil (empty). -/
def NewDepartment (name : String) (limit : Int) (exams : List String) : Department :=
  { name := name, exams := exams, limit := limit, applicants := [], accepted := [] }

/-- Method `addApplicant` (lines 67-69). -/
def Department.addApplicant (d : Department) (applicant : Nat) : Department :=
  { d with applicants := d.applicants ++ [applicant] }

/-- The `less` closure of lines 72-77 and 81-86 over exact rational scores, on
the two applicant objects that the compared slice positions point to (the
closure on `float64` scores is `floatRankedBefore`).  Go compares strings byte
by byte; on UTF-8 text that is the order of the code points, which is the order
of `String`. -/
def rankedBefore (exams : List String) (a b : Applicant) : Bool :=
  if a.calculateMean exams ≠ b.calculateMean exams then
    decide (a.calculateMean exams > b.calculateMean exams)
  else
    decide (a.name < b.name)

/-- The `less` closure on addresses: dereference both pointers, then compare. -/
def Department.less (heap : Heap) (exams : List String) (p q : Nat) : Bool :=
  rankedBefore exams (heap p) (heap q)

/-- What Go requires of the `less` function handed to `sort.Slice`: a strict weak
ordering (asymmetric, with a transitive incomparability-or-less relation). -/
structure StrictWeak {α : Type} (less : α → α → Bool) : Prop where
  asymm : ∀ a b, less a b = true → less b a = false
  negTrans : ∀ a b c, less a b = false → less b c = false → less a c = false

/-- The library routine `sort.Slice`, which is not part of the repository.  It
is taken as a parameter together with its documented contract: the result is a
rearrangement of the input, and for a strict weak ordering `less` no later
element is `less` than an earlier one.  Nothing is assumed about the order of
elements that `less` does not separate (the routine is not stable). -/
structure SliceSorter where
  sort : {α : Type} → (α → α → Bool) → List α → List α
  perm : ∀ {α : Type} (less : α → α → Bool) (xs : List α), (sort less xs).Perm xs
  ordered : ∀ {α : Type} (less : α → α → Bool) (xs : List α), StrictWeak less →
    (sort less xs).Pairwise (fun a b => less b a = false)

/-- The requirement of `sort.Slice` on `less`, read on the elements of the
slice that is sorted: `less` is only ever applied to two of them. -/
structure StrictWeakOn {α : Type} (less : α → α → Bool) (xs : List α) : Prop where
  asymm : ∀ a ∈ xs, ∀ b ∈ xs, less a b = true → less b a = false
  negTrans : ∀ a ∈ xs, ∀ b ∈ xs, ∀ c ∈ xs,
    less a b = false → less b c = false → less a c = false

/-- The contract of `sort.Slice` for a `less` that is a strict weak ordering of
the elements of the slice, whatever it does on other values: the routine
applies `less` to elements of the slice only.  A pool without a NaN score meets
this requirement also when the store holds an applicant with a NaN score
somewhere else. -/
def SliceSorter.OrderedOn (S : SliceSorter) : Prop :=
  ∀ {α : Type} (less : α → α → Bool) (xs : List α), StrictWeakOn less xs →
    (S.sort less xs).Pairwise (fun a b => less b a = false)

/-- Method `Department.sortApplicants` (lines 71-78). -/
def Department.sortApplicants (S : SliceSorter) (heap : Heap) (d : Department) : Department :=
  { d with applicants := S.sort (Department.less heap d.exams) d.applicants }

/-- Method `Department.sortAccepted` (lines 80-87). -/
def Department.sortAccepted (S : SliceSorter) (heap : Heap) (d : Department) : Department :=
  { d with accepted := S.sort (Department.less heap d.exams) d.accepted }

/-! ## The university (lines 89-148) -/

/-- The Go struct `University` (lines 89-94) together with the store its
applicant pointers refer to. -/
structure University where
  departments : List Department
  mapDepartments : List (String × Nat)
  applicants : List Nat
  calls : Int
  heap : Heap

/-- The loop of lines 98-100: `mapDepartments[department.name] = index`. -/
def indexDepartments : List Department → Nat → List (String × Nat) → List (String × Nat)
  | [], _, m => m
  | department :: rest, index, m => indexDepartments rest (index + 1) (mapSet m department.name index)

/-- Constructor `NewUniversity` (lines 96-108). -/
def NewUniversity (heap : Heap) (departments : List Department) (applicants : List Nat)
    (calls : Int) : University :=
  { departments := departments
    mapDepartments := indexDepartments departments 0 []
    applicants := applicants
    calls := calls
    heap := heap }

/-- Lines 113-114: look the option up in the map (index `0` for an unknown name)
and add the applicant to the pool of the department at that index; the slice
access panics when the index is out of range. -/
def segmentOption (m : List (String × Nat)) (applicant : Nat) (departments : List Department)
    (option : String) : Except Panic (List Department) :=
  let departmentIndex := mapGet m option 0
  match departments[departmentIndex]? with
  | none => .error .indexOutOfRange
  | some d => .ok (departments.set departmentIndex (d.addApplicant applicant))

/-- The inner loop of lines 112-115 over the preferences of one applicant. -/
def segmentOptions (m : List (String × Nat)) (applicant : Nat) :
    List Department → List String → Except Panic (List Department)
  | departments, [] => .ok departments
  | departments, option :: rest =>
    match segmentOption m applicant departments option with
    | .error e => .error e
    | .ok departments1 => segmentOptions m applicant departments1 rest

/-- The outer loop of lines 111-116 over the applicant pointers. -/
def segmentLoop (m : List (String × Nat)) (heap : Heap) :
    List Department → List Nat → Except Panic (List Department)
  | departments, [] => .ok departments
  | departments, applicant :: rest =>
    match segmentOptions m applicant departments (heap applicant).departmentOptions with
    | .error e => .error e
    | .ok departments1 => segmentLoop m heap departments1 rest

/-- Method `University.segmentsApplicants` (lines 110-117). -/
def University.segmentsApplicants (u : University) : Except Panic University :=
  match segmentLoop u.mapDepartments u.heap u.departments u.applicants with
  | .error e => .error e
  | .ok departments => .ok { u with departments := departments }

/-- Method `University.sortApplicants` (lines 119-123). -/
def University.sortApplicants (S : SliceSorter) (u : University) : University :=
  { u with departments := u.departments.map (Department.sortApplicants S u.heap) }

/-- Method `University.sortDepartments` (lines 125-132): every admitted list is
ranked, then the departments are ordered by name. -/
def University.sortDepartments (S : SliceSorter) (u : University) : University :=
  { u with
    departments :=
      S.sort (fun a b => decide (a.name < b.name))
        (u.departments.map (Department.sortAccepted S u.heap)) }

/-- The scan of lines 137-145 over the pool of one department in round `i`.
The first test is the capacity check with its `break`; the flag is read before
the preference is indexed (`&&` short-circuits), and indexing past the end of
the preference sequence panics. -/
def scanPool (i : Nat) : Heap → Department → List Nat → Except Panic (Heap × Department)
  | heap, d, [] => .ok (heap, d)
  | heap, d, applicant :: rest =>
    if (d.accepted.length : Int) ≥ d.limit then .ok (heap, d)
    else if (heap applicant).accepted then scanPool i heap d rest
    else
      match (heap applicant).departmentOptions[i]? with
      | none => .error .indexOutOfRange
      | some option =>
        if option = d.name then
          scanPool i (Function.update heap applicant { heap applicant with accepted := true })
            { d with accepted := d.accepted ++ [applicant] } rest
        else scanPool i heap d rest

/-- The loop of lines 136-146 over the departments in round `i`. -/
def scanDepartments (i : Nat) : Heap → List Department → Except Panic (Heap × List Department)
  | heap, [] => .ok (heap, [])
  | heap, d :: rest =>
    match scanPool i heap d d.applicants with
    | .error e => .error e
    | .ok (heap1, d1) =>
      match scanDepartments i heap1 rest with
      | .error e => .error e
      | .ok (heap2, rest2) => .ok (heap2, d1 :: rest2)

/-- One iteration of the loop of line 135: round `i` over all departments. -/
def selectRound (i : Nat) (u : University) : Except Panic University :=
  match scanDepartments i u.heap u.departments with
  | .error e => .error e
  | .ok (heap, departments) => .ok { u with heap := heap, departments := departments }

/-- The rounds `0, 1, ..., n-1` of the loop of line 135, in this order. -/
def selectRounds : Nat → University → Except Panic University
  | 0, u => .ok u
  | n + 1, u =>
    match selectRounds n u with
    | .error e => .error e
    | .ok s => selectRound n s

/-- Method `University.selectCandidates` (lines 134-148): `i` runs over
`0 ≤ i < u.calls`, no round at all for `u.calls ≤ 0`. -/
def University.selectCandidates (u : University) : Except Panic University :=
  selectRounds u.calls.toNat u

/-- The state in the middle of `selectCandidates`: rounds `0 .. r-1` are complete,
in round `r` the first `m` departments are complete and the scan of the next
department has gone through the first `n` entries of its pool. -/
def selectUpTo (u : University) (r m n : Nat) : Except Panic University :=
  match selectRounds r u with
  | .error e => .error e
  | .ok s =>
    match scanDepartments r s.heap (s.departments.take m) with
    | .error e => .error e
    | .ok (heap1, done) =>
      match s.departments.drop m with
      | [] => .ok { s with heap := heap1, departments := done }
      | d :: rest =>
        match scanPool r heap1 d (d.applicants.take n) with
        | .error e => .error e
        | .ok (heap2, d2) => .ok { s with heap := heap2, departments := done ++ d2 :: rest }

/-! ## Scores as `float64` values (lines 18, 39-49, 71-87) -/

/-- The type `float64` with the operations that the program applies to scores.
Carrier and arithmetic are parameters, so nothing is assumed about rounding:
`zero` is the literal `0.0` (also the zero value of a map read), `add` and `div`
are the `+` and `/` of `float64`, `ofInt` is the conversion `float64(n)`.  What
is fixed is the way Go compares: a `float64` is NaN (`value` is `none`) or it
stands for a rational number or for one of the two infinities (`-0` and `+0`
both stand for 0), and the comparisons look at these values only. -/
structure FloatOps (F : Type) where
  value : F → Option (WithBot (WithTop ℚ))
  zero : F
  add : F → F → F
  div : F → F → F
  ofInt : Int → F

/-- Go `x > y` on `float64`: false as soon as one operand is NaN. -/
def FloatOps.gt {F : Type} (A : FloatOps F) (x y : F) : Bool :=
  match A.value x, A.value y with
  | some u, some v => decide (v < u)
  | _, _ => false

/-- Go `x != y` on `float64`: true as soon as one operand is NaN. -/
def FloatOps.ne {F : Type} (A : FloatOps F) (x y : F) : Bool :=
  match A.value x, A.value y with
  | some u, some v => decide (u ≠ v)
  | _, _ => true

/-- Whether a `float64` is NaN. -/
def FloatOps.isNaN {F : Type} (A : FloatOps F) (x : F) : Bool :=
  (A.value x).isNone

/-- The Go struct `Applicant` (lines 16-21) with `float64` grades. -/
structure FloatApplicant (F : Type) where
  name : String
  grades : List (String × F)
  departmentOptions : List String
  accepted : Bool
  deriving DecidableEq

/-- Constructor `NewApplicant` (lines 23-37) with `float64` grades; it indexes
`examGrades[0..4]` and panics when fewer than five grades are supplied. -/
def NewFloatApplicant {F : Type} (name : String) (examGrades : List F)
    (departmentOption : List String) : Except Panic (FloatApplicant F) :=
  match examGrades[0]?, examGrades[1]?, examGrades[2]?, examGrades[3]?, examGrades[4]? with
  | some g0, some g1, some g2, some g3, some g4 =>
    let grades := mapSet (mapSet (mapSet (mapSet (mapSet [] "physics" g0) "chemistry" g1)
      "math" g2) "computer science" g3) "special" g4
    .ok { name := name, grades := grades, departmentOptions := departmentOption,
          accepted := false }
  | _, _, _, _, _ => .error .indexOutOfRange

/-- The map read `a.grades[exam]` (`0.0` for a subject that is not in the map). -/
def FloatApplicant.grade {F : Type} (A : FloatOps F) (a : FloatApplicant F) (exam : String) : F :=
  mapGet a.grades exam A.zero

/-- Method `calculateMean` (lines 39-49) in `float64`: the sum starts at `0.0`
and takes the grades up in list order, the division is by `float64(len(exams))`,
and the special grade is returned when `>` finds it above the mean. -/
def FloatApplicant.calculateMean {F : Type} (A : FloatOps F) (a : FloatApplicant F)
    (exams : List String) : F :=
  let grade := exams.foldl (fun grade exam => A.add grade (a.grade A exam)) A.zero
  let mean := A.div grade (A.ofInt exams.length)
  if A.gt (a.grade A "special") mean then a.grade A "special" else mean

/-- The `less` closure of lines 72-77 and 81-86 in `float64`, on the two
applicant objects that the compared slice positions point to. -/
def floatRankedBefore {F : Type} (A : FloatOps F) (exams : List String)
    (a b : FloatApplicant F) : Bool :=
  if A.ne (a.calculateMean A exams) (b.calculateMean A exams) then
    A.gt (a.calculateMean A exams) (b.calculateMean A exams)
  else
    decide (a.name < b.name)

/-- The `less` closure on addresses: dereference both pointers, then compare. -/
def Department.floatLess {F : Type} (A : FloatOps F) (heap : Nat → FloatApplicant F)
    (exams : List String) (p q : Nat) : Bool :=
  floatRankedBefore A exams (heap p) (heap q)

/-- Method `Department.sortApplicants` (lines 71-78) with `float64` scores. -/
def Department.floatSortApplicants {F : Type} (S : SliceSorter) (A : FloatOps F)
    (heap : Nat → FloatApplicant F) (d : Department) : Department :=
  { d with applicants := S.sort (Department.floatLess A heap d.exams) d.applicants }

/-- Method `Department.sortAccepted` (lines 80-87) with `float64` scores. -/
def Department.floatSortAccepted {F : Type} (S : SliceSorter) (A : FloatOps F)
    (heap : Nat → FloatApplicant F) (d : Department) : Department :=
  { d with accepted := S.sort (Department.floatLess A heap d.exams) d.accepted }

/-- The Go struct `University` (lines 89-94) together with the store of its
applicant objects, with `float64` grades. -/
structure FloatUniversity (F : Type) where
  departments : List Department
  mapDepartments : List (String × Nat)
  applicants : List Nat
  calls : Int
  heap : Nat → FloatApplicant F

/-- Method `University.sortDepartments` (lines 125-132) with `float64` scores:
every admitted list is ranked, then the departments are ordered by name. -/
def FloatUniversity.sortDepartments {F : Type} (S : SliceSorter) (A : FloatOps F)
    (u : FloatUniversity F) : FloatUniversity F :=
  { u with
    departments :=
      S.sort (fun a b => decide (a.name < b.name))
        (u.departments.map (Department.floatSortAccepted S A u.heap)) }

/-! ## IEEE 754 binary64 as an instance of `float64` -/

/-- The values of `float64` (IEEE 754 binary64) up to the sign of zero: NaN, the
two infinities and the finite values, each of them a rational number.  The two
zeros are one value here; they compare equal, and the operations below tell
them apart only in a division by `-0`, which `calculateMean` never performs (it
divides by a length). -/
inductive Binary64 where
  | nan
  | negInf
  | finite (q : ℚ)
  | posInf
  deriving DecidableEq

/-- The power `2 ^ k` for an integer exponent. -/
def twoPow (k : Int) : ℚ :=
  if 0 ≤ k then ((2 ^ k.toNat : Nat) : ℚ) else 1 / ((2 ^ (-k).toNat : Nat) : ℚ)

/-- The number of halvings that bring `n` below 2 (at most `fuel` of them),
added to `count`. -/
def halvings : Nat → Nat → Nat → Nat
  | 0, _, count => count
  | fuel + 1, n, count => if n < 2 then count else halvings fuel (n / 2) (count + 1)

/-- The exponent `k` with `2 ^ k ≤ n < 2 ^ (k + 1)` of a positive natural
number. -/
def floorLog2 (n : Nat) : Nat :=
  halvings n n 0

/-- The exponent `e` with `2 ^ e ≤ a < 2 ^ (e + 1)` of a positive rational. -/
def binaryExponent (a : ℚ) : Int :=
  let k : Int := (floorLog2 a.num.toNat : Int) - (floorLog2 a.den : Int)
  if twoPow k ≤ a then k else k - 1

/-- The natural number nearest to a non-negative rational, the even one of two
that are equally near. -/
def roundHalfEven (m : ℚ) : Nat :=
  let f : Nat := m.num.toNat / m.den
  let rest : ℚ := m - (f : ℚ)
  if rest < 1 / 2 then f
  else if 1 / 2 < rest then f + 1
  else if f % 2 = 0 then f else f + 1

/-- Rounding of a rational number to `float64`: to the nearest value with a
53-bit significand (exponent at least `-1074`, so that small numbers become
subnormal or zero), ties to the even significand, and to an infinity when the
rounded magnitude reaches `2 ^ 1024`. -/
def Binary64.round (q : ℚ) : Binary64 :=
  if q = 0 then .finite 0
  else
    let a : ℚ := |q|
    let unit : Int := max (binaryExponent a - 52) (-1074)
    let magnitude : ℚ := (roundHalfEven (a / twoPow unit) : ℚ) * twoPow unit
    if twoPow 1024 ≤ magnitude then (if 0 < q then .posInf else .negInf)
    else .finite (if 0 < q then magnitude else -magnitude)

/-- The `float64` sum: the exact sum, rounded; NaN and the infinities by the
rules of IEEE 754. -/
def Binary64.add : Binary64 → Binary64 → Binary64
  | .nan, _ => .nan
  | _, .nan => .nan
  | .posInf, .negInf => .nan
  | .negInf, .posInf => .nan
  | .posInf, _ => .posInf
  | _, .posInf => .posInf
  | .negInf, _ => .negInf
  | _, .negInf => .negInf
  | .finite a, .finite b => Binary64.round (a + b)

/-- The `float64` quotient: the exact quotient, rounded; NaN, the infinities and
division by zero by the rules of IEEE 754. -/
def Binary64.div : Binary64 → Binary64 → Binary64
  | .nan, _ => .nan
  | _, .nan => .nan
  | .finite a, .finite b =>
    if b = 0 then (if a = 0 then .nan else if 0 < a then .posInf else .negInf)
    else Binary64.round (a / b)
  | .finite _, _ => .finite 0
  | .posInf, .finite b => if 0 ≤ b then .posInf else .negInf
  | .negInf, .finite b => if 0 ≤ b then .negInf else .posInf
  | _, _ => .nan

/-- The value of a `Binary64` for comparisons. -/
def Binary64.value : Binary64 → Option (WithBot (WithTop ℚ))
  | .nan => none
  | .negInf => some ⊥
  | .finite q => some ((q : WithTop ℚ) : WithBot (WithTop ℚ))
  | .posInf => some ((⊤ : WithTop ℚ) : WithBot (WithTop ℚ))

/-- The arithmetic of `float64` as an instance of `FloatOps`: the conversion
`float64(n)`, `+` and `/` round to the nearest value, ties to even. -/
def float64Ops : FloatOps Binary64 where
  value := Binary64.value
  zero := .finite 0
  add := Binary64.add
  div := Binary64.div
  ofInt := fun n => Binary64.round (n : ℚ)

/-! ## Reading the applicant records (lines 150-168) -/

/-- The fields of `strings.Split(line, " ")` on the characters of a line: a new
field starts behind every blank, so two blanks in a row give an empty field and
the empty line gives one empty field. -/
def splitOnBlank : List Char → List (List Char)
  | [] => [[]]
  | c :: cs =>
    if c = ' ' then [] :: splitOnBlank cs
    else
      match splitOnBlank cs with
      | [] => [[c]]
      | field :: fields => (c :: field) :: fields

/-- The call `strings.Split(scanner.Text(), " ")` of line 155. -/
def splitFields (line : String) : List String :=
  (splitOnBlank line.data).map String.mk

/-- The call `strings.ReplaceAll(token, ",", ".")` of line 159. -/
def replaceComma (token : String) : String :=
  String.mk (token.data.map (fun c => if c = ',' then '.' else c))

/-- The two errors of `strconv.ParseFloat`: `ErrSyntax` for a token that is not
a number, `ErrRange` for a numeral beyond the range of `float64`. -/
inductive ParseError where
  | errSyntax
  | errRange
  deriving DecidableEq

/-- The loop of lines 158-162 over the field indices `2 .. 6`.  The library
routine `strconv.ParseFloat` is the parameter `parseFloat`; like the routine it
returns a `float64` together with an error or no error.  Line 160 keeps the
`float64` and drops the error (`gradeFloat, _ :=`), so the grade is whatever
value came back, with or without an error.  Indexing a field that is not there
panics. -/
def scanGrades {F : Type} (parseFloat : String → F × Option ParseError) (tuple : List String) :
    List Nat → List F → Except Panic (List F)
  | [], examGrades => .ok examGrades
  | i :: rest, examGrades =>
    match tuple[i]? with
    | none => .error .indexOutOfRange
    | some token =>
      let grade := replaceComma token
      let gradeFloat := (parseFloat grade).1
      scanGrades parseFloat tuple rest (examGrades ++ [gradeFloat])

/-- The body of the loop of lines 154-166 for one line of the file. -/
def scanLine {F : Type} (parseFloat : String → F × Option ParseError) (line : String) :
    Except Panic (FloatApplicant F) :=
  let tuple := splitFields line
  match tuple[0]?, tuple[1]? with
  | some first, some last =>
    let name := first ++ " " ++ last
    match scanGrades parseFloat tuple [2, 3, 4, 5, 6] [] with
    | .error e => .error e
    | .ok examGrades => NewFloatApplicant name examGrades (tuple.drop 7)
  | _, _ => .error .indexOutOfRange

/-- Function `scanApplicants` (lines 150-168) on the lines that the scanner
yields; the result lists the applicant objects in the order of their pointers. -/
def scanApplicants {F : Type} (parseFloat : String → F × Option ParseError) :
    List String → Except Panic (List (FloatApplicant F))
  | [] => .ok []
  | line :: rest =>
    match scanLine parseFloat line with
    | .error e => .error e
    | .ok applicant =>
      match scanApplicants parseFloat rest with
      | .error e => .error e
      | .ok applicants => .ok (applicant :: applicants)

/-! ## A concrete number parser -/

/-- The value of a decimal digit. -/
def digitValue (c : Char) : Option Nat :=
  if '0' ≤ c ∧ c ≤ '9' then some (c.toNat - '0'.toNat) else none

/-- The number written by a string of decimal digits (0 by the empty string),
`none` for a string with another character. -/
def digitsValue (cs : List Char) : Option Nat :=
  cs.foldl (fun acc c =>
    match acc, digitValue c with
    | some n, some v => some (10 * n + v)
    | _, _ => none) (some 0)

/-- An optional sign in front of a numeral: whether it is `-`, and the rest. -/
def splitSign : List Char → Bool × List Char
  | '-' :: rest => (true, rest)
  | '+' :: rest => (false, rest)
  | cs => (false, cs)

/-- The power `10 ^ k` for an integer exponent. -/
def tenPow (k : Int) : ℚ :=
  if 0 ≤ k then ((10 ^ k.toNat : Nat) : ℚ) else 1 / ((10 ^ (-k).toNat : Nat) : ℚ)

/-- The exponent part of a decimal numeral, behind its `e`: an optional sign
and at least one digit. -/
def exponentValue (cs : List Char) : Option Int :=
  match splitSign cs with
  | (_, []) => none
  | (negative, digits) =>
    (digitsValue digits).map (fun n => if negative then -(n : Int) else (n : Int))

/-- The rational number written by a decimal floating-point numeral: an
optional sign, digits with at most one point among them (at least one digit),
and optionally `e` or `E` with an exponent; `none` for every other token. -/
def decimalValue (token : List Char) : Option ℚ :=
  match splitSign token with
  | (negative, unsigned) =>
    match unsigned.span (fun c => c ≠ 'e' ∧ c ≠ 'E') with
    | (mantissa, rest) =>
      match mantissa.span (fun c => c ≠ '.') with
      | (whole, point) =>
        let fraction := point.drop 1
        if whole.length + fraction.length = 0 then none
        else
          match digitsValue (whole ++ fraction),
              (if rest = [] then some 0 else exponentValue (rest.drop 1)) with
          | some digits, some exponent =>
            let magnitude : ℚ := (digits : ℚ) * tenPow (exponent - (fraction.length : Int))
            some (if negative then -magnitude else magnitude)
          | _, _ => none

/-- A stand-in for `strconv.ParseFloat(token, 64)`.  The words `nan`, `inf` and
`infinity` (in any case, the last two with an optional sign) give NaN or the
infinity; a decimal numeral gives its value rounded to `float64`, together with
`ErrRange` when that is an infinity; every other token gives the value 0
together with `ErrSyntax`.  Hexadecimal numerals and underscores that separate
digits are beyond this stand-in: it reports `ErrSyntax` for them. -/
def parseDecimalFloat (token : String) : Binary64 × Option ParseError :=
  let word := String.mk (token.data.map Char.toLower)
  if word = "nan" then (.nan, none)
  else if word = "inf" ∨ word = "+inf" ∨ word = "infinity" ∨ word = "+infinity" then
    (.posInf, none)
  else if word = "-inf" ∨ word = "-infinity" then (.negInf, none)
  else
    match decimalValue token.data with
    | none => (.finite 0, some .errSyntax)
    | some q =>
      match Binary64.round q with
      | .posInf => (.posInf, some .errRange)
      | .negInf => (.negInf, some .errRange)
      | value => (value, none)

/-! ## A concrete sorting routine -/

/-- Insertion of `x` into a list ordered by `less` (behind the elements that are
not `less`-after it). -/
def insertLess {α : Type} (less : α → α → Bool) (x : α) : List α → List α
  | [] => [x]
  | y :: ys => if less x y then x :: y :: ys else y :: insertLess less x ys

/-- Insertion sort, an executable instance of the `sort.Slice` contract. -/
def insertionSortLess {α : Type} (less : α → α → Bool) : List α → List α
  | [] => []
  | x :: xs => insertLess less x (insertionSortLess less xs)

theorem insertLess_perm {α : Type} (less : α → α → Bool) (x : α) (xs : List α) :
    (insertLess less x xs).Perm (x :: xs) := by
  induction xs with
  | nil => exact List.Perm.refl _
  | cons y ys ih =>
    unfold insertLess
    split_ifs
    · exact List.Perm.refl _
    · exact ((List.Perm.cons y ih).trans (List.Perm.swap x y ys))

theorem insertionSortLess_perm {α : Type} (less : α → α → Bool) (xs : List α) :
    (insertionSortLess less xs).Perm xs := by
  induction xs with
  | nil => exact List.Perm.refl _
  | cons x xs ih =>
    exact (insertLess_perm less x _).trans (List.Perm.cons x ih)

theorem insertLess_ordered {α : Type} (less : α → α → Bool) (hw : StrictWeak less) (x : α)
    (xs : List α) (hs : xs.Pairwise (fun a b => less b a = false)) :
    (insertLess less x xs).Pairwise (fun a b => less b a = false) := by
  induction xs with
  | nil => simp [insertLess]
  | cons y ys ih =>
    rw [List.pairwise_cons] at hs
    unfold insertLess
    split_ifs with h
    · refine List.Pairwise.cons ?_ (List.Pairwise.cons hs.1 hs.2)
      intro z hz
      rcases List.mem_cons.mp hz with rfl | hz
      · exact hw.asymm _ _ h
      · exact hw.negTrans z y x (hs.1 z hz) (hw.asymm _ _ h)
    · refine List.Pairwise.cons ?_ (ih hs.2)
      intro z hz
      rcases List.mem_cons.mp ((insertLess_perm less x ys).subset hz) with rfl | hz
      · simpa using h
      · exact hs.1 z hz

theorem insertionSortLess_ordered {α : Type} (less : α → α → Bool) (hw : StrictWeak less)
    (xs : List α) : (insertionSortLess less xs).Pairwise (fun a b => less b a = false) := by
  induction xs with
  | nil => exact List.Pairwise.nil
  | cons x xs ih => exact insertLess_ordered less hw x _ ih

/-- Insertion sort as a sorting routine that meets the `sort.Slice` contract. -/
def insertionSorter : SliceSorter where
  sort := fun less xs => insertionSortLess less xs
  perm := fun less xs => insertionSortLess_perm less xs
  ordered := fun less xs hw => insertionSortLess_ordered less hw xs

/-- One pass of the inner loop of insertion sort: `x` stands to the right of the
ordered part (given last element first) and is swapped to the left as long as
it is `less` than its left neighbour. -/
def insertBack {α : Type} (less : α → α → Bool) (x : α) : List α → List α
  | [] => [x]
  | y :: ys => if less x y then y :: insertBack less x ys else x :: y :: ys

/-- Insertion sort from left to right, the routine that `sort.Slice` (Go 1.19
and later) applies to a slice of at most 12 elements: elements that `less` does
not separate keep their order. -/
def stableInsertionSort {α : Type} (less : α → α → Bool) (xs : List α) : List α :=
  (xs.foldl (fun done x => insertBack less x done) []).reverse

theorem insertBack_perm {α : Type} (less : α → α → Bool) (x : α) (l : List α) :
    (insertBack less x l).Perm (x :: l) := by
  induction l with
  | nil => exact List.Perm.refl _
  | cons y ys ih =>
    unfold insertBack
    split_ifs
    · exact ((List.Perm.cons y ih).trans (List.Perm.swap x y ys))
    · exact List.Perm.refl _

theorem foldl_insertBack_perm {α : Type} (less : α → α → Bool) (xs done : List α) :
    (xs.foldl (fun done x => insertBack less x done) done).Perm (xs ++ done) := by
  induction xs generalizing done with
  | nil => exact List.Perm.refl _
  | cons x xs ih =>
    rw [List.foldl_cons]
    refine (ih _).trans ?_
    refine (List.Perm.append_left xs (insertBack_perm less x done)).trans ?_
    exact (List.perm_middle).trans (List.Perm.refl _)

theorem stableInsertionSort_perm {α : Type} (less : α → α → Bool) (xs : List α) :
    (stableInsertionSort less xs).Perm xs := by
  unfold stableInsertionSort
  refine (List.reverse_perm _).trans ?_
  simpa using foldl_insertBack_perm less xs []

theorem insertBack_ordered {α : Type} (less : α → α → Bool) (all : List α)
    (hw : StrictWeakOn less all) (x : α) (hx : x ∈ all) (l : List α)
    (hl : ∀ y ∈ l, y ∈ all) (hs : l.Pairwise (fun a b => less a b = false)) :
    (insertBack less x l).Pairwise (fun a b => less a b = false) := by
  induction l with
  | nil => simp [insertBack]
  | cons y ys ih =>
    rw [List.pairwise_cons] at hs
    have hy : y ∈ all := hl y (List.mem_cons_self _ _)
    have hys : ∀ z ∈ ys, z ∈ all := fun z hz => hl z (List.mem_cons_of_mem _ hz)
    unfold insertBack
    split_ifs with h
    · refine List.Pairwise.cons ?_ (ih hys hs.2)
      intro z hz
      rcases List.mem_cons.mp ((insertBack_perm less x ys).subset hz) with rfl | hz
      · exact hw.asymm _ hx _ hy h
      · exact hs.1 z hz
    · have h0 : less x y = false := by simpa using h
      refine List.Pairwise.cons ?_ (List.Pairwise.cons hs.1 hs.2)
      intro z hz
      rcases List.mem_cons.mp hz with rfl | hz
      · exact h0
      · exact hw.negTrans x hx y hy z (hys z hz) h0 (hs.1 z hz)

theorem foldl_insertBack_ordered {α : Type} (less : α → α → Bool) (all : List α)
    (hw : StrictWeakOn less all) (xs done : List α) (hxs : ∀ y ∈ xs, y ∈ all)
    (hd : ∀ y ∈ done, y ∈ all) (hs : done.Pairwise (fun a b => less a b = false)) :
    (xs.foldl (fun done x => insertBack less x done) done).Pairwise
      (fun a b => less a b = false) := by
  induction xs generalizing done with
  | nil => exact hs
  | cons x xs ih =>
    rw [List.foldl_cons]
    have hx : x ∈ all := hxs x (List.mem_cons_self _ _)
    refine ih _ (fun y hy => hxs y (List.mem_cons_of_mem _ hy)) ?_
      (insertBack_ordered less all hw x hx done hd hs)
    intro y hy
    rcases List.mem_cons.mp ((insertBack_perm less x done).subset hy) with rfl | hy
    · exact hx
    · exact hd y hy

theorem stableInsertionSort_orderedOn {α : Type} (less : α → α → Bool) (xs : List α)
    (hw : StrictWeakOn less xs) :
    (stableInsertionSort less xs).Pairwise (fun a b => less b a = false) := by
  unfold stableInsertionSort
  rw [List.pairwise_reverse]
  exact foldl_insertBack_ordered less xs hw xs [] (fun y hy => hy) (by simp) List.Pairwise.nil

theorem strictWeak_on {α : Type} {less : α → α → Bool} (hw : StrictWeak less) (xs : List α) :
    StrictWeakOn less xs :=
  ⟨fun a _ b _ h => hw.asymm a b h, fun a _ b _ c _ h1 h2 => hw.negTrans a b c h1 h2⟩

/-- Stable insertion sort as a sorting routine that meets the `sort.Slice`
contract. -/
def stableInsertionSorter : SliceSorter where
  sort := fun less xs => stableInsertionSort less xs
  perm := fun less xs => stableInsertionSort_perm less xs
  ordered := fun less xs hw => stableInsertionSort_orderedOn less xs (strictWeak_on hw xs)

/-! ## The pipeline and observations of a run -/

/-- Sequencing of two stages of the pipeline: a panic of the first stage ends
the run. -/
def andThen {α β : Type} (r : Except Panic α) (f : α → Except Panic β) : Except Panic β :=
  match r with
  | .error e => .error e
  | .ok a => f a

/-- The pipeline of `main` up to ranking (lines 222-223). -/
def runRanking (S : SliceSorter) (u : University) : Except Panic University :=
  andThen u.segmentsApplicants (fun u1 => .ok (u1.sortApplicants S))

/-- The pipeline of `main` up to selection (lines 222-224). -/
def runAdmission (S : SliceSorter) (u : University) : Except Panic University :=
  andThen u.segmentsApplicants (fun u1 => (u1.sortApplicants S).selectCandidates)

/-- The departments of a run as `main` creates them (lines 207-211): one call
of `NewDepartment` per entry (name, limit, exams) of the catalog. -/
def catalogDepartments (catalog : List (String × Int × List String)) : List Department :=
  catalog.map (fun c => NewDepartment c.1 c.2.1 c.2.2)

/-- The whole pipeline of `main` (lines 222-225). -/
def runMain (S : SliceSorter) (u : University) : Except Panic University :=
  andThen (runAdmission S u) (fun s => .ok (s.sortDepartments S))

/-- Whether a run came to its end without a panic. -/
def completes {α : Type} (r : Except Panic α) : Bool :=
  match r with
  | .error _ => false
  | .ok _ => true

/-- The panic that ended a run, if any. -/
def panicOf {α : Type} (r : Except Panic α) : Option Panic :=
  match r with
  | .error e => some e
  | .ok _ => none

/-- The admitted lists of a run that completed, department by department (the
empty list for a run that panicked). -/
def admittedLists (r : Except Panic University) : List (List Nat) :=
  match r with
  | .error _ => []
  | .ok s => s.departments.map (fun d => d.accepted)

/-- The candidate pools of a run that completed, department by department. -/
def poolLists (r : Except Panic University) : List (List Nat) :=
  match r with
  | .error _ => []
  | .ok s => s.departments.map (fun d => d.applicants)

/-- The `accepted` flags of the applicants at the addresses `ps` in the final
state of a run (the empty list for a run that panicked). -/
def acceptedFlags (r : Except Panic University) (ps : List Nat) : List Bool :=
  match r with
  | .error _ => []
  | .ok s => ps.map (fun p => (s.heap p).accepted)

/-! ## Specification predicates -/

/-- The ranking of two pool entries as the specification words it: a strictly
higher composite score, or the same score and a name that is not greater. -/
def RanksNoLater (heap : Heap) (exams : List String) (p q : Nat) : Prop :=
  (heap q).calculateMean exams < (heap p).calculateMean exams ∨
    ((heap p).calculateMean exams = (heap q).calculateMean exams ∧
      (heap p).name ≤ (heap q).name)

/-- The store after the applicants at the addresses `new` have been marked
admitted. -/
def admitAll (heap : Heap) (new : List Nat) : Heap :=
  fun q => if q ∈ new then { heap q with accepted := true } else heap q

/-- The only change between two stores is that some `accepted` flags went from
false to true. -/
def HeapLe (heap heap' : Heap) : Prop :=
  ∀ p, heap' p = heap p ∨
    ((heap p).accepted = false ∧ heap' p = { heap p with accepted := true })

/-- Every department's admitted list is within its capacity limit. -/
def WithinLimit (departments : List Department) : Prop :=
  ∀ d ∈ departments, (d.accepted.length : Int) ≤ d.limit

/-- The number of occurrences of the address `p` in all admitted lists together. -/
def admittedCount (departments : List Department) (p : Nat) : Nat :=
  (departments.map (fun d => d.accepted.count p)).sum

/-- The `accepted` flag of the applicant at `p` as a number, 1 for admitted. -/
def flagCount (heap : Heap) (p : Nat) : Nat :=
  if (heap p).accepted then 1 else 0

/-- What one round `i` does to a department, seen from the store `heap` at the
start of the round: the admitted list grows by a list `new` of pool entries that
were unadmitted and whose preference number `i` is the department's name. -/
def AdmitsInRound (i : Nat) (heap : Heap) (d d' : Department) : Prop :=
  ∃ new : List Nat,
    d' = { d with accepted := d.accepted ++ new } ∧
    new.Sublist d.applicants ∧
    ∀ p ∈ new, (heap p).accepted = false ∧ (heap p).departmentOptions[i]? = some d.name

/-- The department has no free seat: the test of line 138. -/
def Full (d : Department) : Prop :=
  (d.accepted.length : Int) ≥ d.limit

/-- Every entry of the department's pool lists the department among its
preferences. -/
def ListsOwnDepartment (heap : Heap) (d : Department) : Prop :=
  ∀ p ∈ d.applicants, d.name ∈ (heap p).departmentOptions

/-- An unadmitted pool entry that names the department at a preference index
below `r` finds the department full. -/
def PassedOver (r : Nat) (heap : Heap) (d : Department) : Prop :=
  ∀ p ∈ d.applicants, (heap p).accepted = false →
    ∀ j, j < r → (heap p).departmentOptions[j]? = some d.name → Full d

/-- The admitted list of the department has no entry twice, holds pool entries
only, and its applicants carry the `accepted` flag. -/
def AdmittedSound (heap : Heap) (d : Department) : Prop :=
  d.accepted.Nodup ∧ (∀ p ∈ d.accepted, p ∈ d.applicants)
    ∧ (∀ p ∈ d.accepted, (heap p).accepted = true)

/-- Every pool entry of the department has at least `n` preferences. -/
def LongEnough (n : Nat) (heap : Heap) (d : Department) : Prop :=
  ∀ p ∈ d.applicants, n ≤ (heap p).departmentOptions.length

/-- The fields of a department that selection is not to touch: name, exams,
limit and candidate pool. -/
def Department.fixedPart (d : Department) : String × List String × Int × List Nat :=
  (d.name, d.exams, d.limit, d.applicants)

/-- The `less` closure of line 130, on two departments. -/
def departmentLess (a b : Department) : Bool :=
  decide (a.name < b.name)

/-- The pool that segmentation is expected to build for the department called
`name` from the applicant addresses `ps`: every applicant once per occurrence
of `name` among its preferences, applicants in list order. -/
def segmentedPool (heap : Heap) (name : String) : List Nat → List Nat
  | [] => []
  | p :: ps =>
    List.replicate ((heap p).departmentOptions.count name) p ++ segmentedPool heap name ps

/-- The map `m` sends the name of every department to its index in the slice. -/
def IndexedBy (m : List (String × Nat)) (names : List String) : Prop :=
  ∀ (k : Nat) (n : String), names[k]? = some n → m.lookup n = some k

/-- The applicant at `p` can be admitted in round `i` by the department called
`name`: it is unadmitted and its preference number `i` is `name` (the test of
line 141). -/
def Eligible (i : Nat) (heap : Heap) (name : String) (p : Nat) : Bool :=
  !(heap p).accepted && decide ((heap p).departmentOptions[i]? = some name)

/-- The entries of a list in the order of their first occurrence. -/
def firstOccurrences : List Nat → List Nat
  | [] => []
  | p :: ps => p :: (firstOccurrences ps).filter (fun q => decide (q ≠ p))

/-- The number of free seats of a department. -/
def seatsLeft (d : Department) : Nat :=
  (d.limit - (d.accepted.length : Int)).toNat

/-- The applicants that a scan of `pool` in round `i` appends to the admitted
list of `d`, from the store at the start of the scan: the eligible pool entries
in pool order, each once, as far as there are free seats. -/
def admitsFrom (i : Nat) (heap : Heap) (d : Department) (pool : List Nat) : List Nat :=
  (firstOccurrences (pool.filter (Eligible i heap d.name))).take (seatsLeft d)

/-- The applicants that round `i` appends to the admitted list of `d`. -/
def roundAdmits (i : Nat) (heap : Heap) (d : Department) : List Nat :=
  admitsFrom i heap d d.applicants

/-- The department after round `i`. -/
def departmentAfterRound (i : Nat) (heap : Heap) (d : Department) : Department :=
  { d with accepted := d.accepted ++ roundAdmits i heap d }

/-- The applicants that round `i` admits over all departments of the list. -/
def roundAdmitsAll (i : Nat) (heap : Heap) : List Department → List Nat
  | [] => []
  | d :: rest => roundAdmits i heap d ++ roundAdmitsAll i heap rest

/-- The ranking of two pool entries as the specification words it, read with
the comparisons of `float64`: a strictly higher composite score (`>`), or the
same score (not `!=`) and a name that is not greater. -/
def FloatRanksNoLater {F : Type} (A : FloatOps F) (heap : Nat → FloatApplicant F)
    (exams : List String) (p q : Nat) : Prop :=
  A.gt ((heap p).calculateMean A exams) ((heap q).calculateMean A exams) = true ∨
    (A.ne ((heap p).calculateMean A exams) ((heap q).calculateMean A exams) = false ∧
      (heap p).name ≤ (heap q).name)

/-! ## Example inputs -/

/-- An applicant with physics 60, math 70 and special 85 (the other grades 0). -/
def overrideApplicant : Applicant :=
  { name := "Special Case"
    grades := [("special", 85), ("computer science", 0), ("math", 70), ("chemistry", 0),
      ("physics", 60)]
    departmentOptions := ["Physics"]
    accepted := false }

/-- Two applicants with the same grades, `Bob Lee` at address 0 and `Anna Lee`
at address 1. -/
def tieFloatHeap : Nat → FloatApplicant Binary64 := fun p =>
  if p = 0 then
    { name := "Bob Lee"
      grades := [("special", .finite 0), ("computer science", .finite 75), ("math", .finite 80),
        ("chemistry", .finite 60), ("physics", .finite 70)]
      departmentOptions := ["Mathematics"]
      accepted := false }
  else
    { name := "Anna Lee"
      grades := [("special", .finite 0), ("computer science", .finite 75), ("math", .finite 80),
        ("chemistry", .finite 60), ("physics", .finite 70)]
      departmentOptions := ["Mathematics"]
      accepted := false }

/-- The two applicants of `tieFloatHeap` with a math grade that is NaN (the
value that `ParseFloat` returns for the token `NaN`). -/
def nanFloatHeap : Nat → FloatApplicant Binary64 := fun p =>
  { tieFloatHeap p with
    grades := mapSet (tieFloatHeap p).grades "math" .nan }

/-- Two applicants whose exact means agree and whose `float64` means differ:
`Amy Exact` at address 0 has physics 83.8 and math 83.8, `Zed Float` at address
1 has physics 83.7 and math 83.9, each grade the `float64` nearest to the
decimal.  In `float64` the mean `(83.7 + 83.9) / 2` is `83.80000000000001` and
`(83.8 + 83.8) / 2` is `83.8`. -/
def roundingHeap : Nat → FloatApplicant Binary64 := fun p =>
  if p = 0 then
    { name := "Amy Exact"
      grades := [("special", .finite 0), ("computer science", .finite 0),
        ("math", Binary64.round (838 / 10)), ("chemistry", .finite 0),
        ("physics", Binary64.round (838 / 10))]
      departmentOptions := ["Physics"]
      accepted := false }
  else
    { name := "Zed Float"
      grades := [("special", .finite 0), ("computer science", .finite 0),
        ("math", Binary64.round (839 / 10)), ("chemistry", .finite 0),
        ("physics", Binary64.round (837 / 10))]
      departmentOptions := ["Physics"]
      accepted := false }

/-- A state before `sortDepartments`: Mathematics (listed first) has admitted
`Bob Lee` and then `Anna Lee`, Chemistry has admitted nobody. -/
def tieFloatUniversity (exams : List String) (heap : Nat → FloatApplicant Binary64) :
    FloatUniversity Binary64 :=
  { departments :=
      [{ name := "Mathematics", exams := exams, limit := 2, applicants := [0, 1],
         accepted := [0, 1] },
       { name := "Chemistry", exams := ["chemistry"], limit := 2, applicants := [],
         accepted := [] }]
    mapDepartments := [("Chemistry", 1), ("Mathematics", 0)]
    applicants := [0, 1]
    calls := 1
    heap := heap }

/-- A small run: Physics and Mathematics with one seat each and three rounds;
address 0 holds Alice (Physics, Mathematics, Physics), address 1 holds Bob
(Physics, Physics, Mathematics), who has the higher Physics score. -/
def demoHeap : Heap := fun p =>
  if p = 0 then
    { name := "Alice Able"
      grades := [("special", 0), ("computer science", 70), ("math", 90), ("chemistry", 60),
        ("physics", 90)]
      departmentOptions := ["Physics", "Mathematics", "Physics"]
      accepted := false }
  else
    { name := "Bob Baker"
      grades := [("special", 0), ("computer science", 50), ("math", 95), ("chemistry", 40),
        ("physics", 95)]
      departmentOptions := ["Physics", "Physics", "Mathematics"]
      accepted := false }

/-- The catalog of the small run `demoUniversity`. -/
def demoCatalog : List (String × Int × List String) :=
  [("Physics", 1, ["physics", "math"]), ("Mathematics", 1, ["math"])]

/-- The university of the small run, as `NewUniversity` builds it. -/
def demoUniversity : University :=
  NewUniversity demoHeap
    [NewDepartment "Physics" 1 ["physics", "math"], NewDepartment "Mathematics" 1 ["math"]]
    [0, 1] 3

/-- The small run after segmentation and ranking: Bob ranks before Alice in both
pools (the Physics pool lists each of them twice). -/
def demoRanked : University :=
  { demoUniversity with
    departments :=
      [{ NewDepartment "Physics" 1 ["physics", "math"] with applicants := [1, 1, 0, 0] },
       { NewDepartment "Mathematics" 1 ["math"] with applicants := [1, 0] }] }

/-- One applicant whose only preference names no department. -/
def strayHeap : Heap := fun _ =>
  { name := "Cora Cole"
    grades := [("special", 0), ("computer science", 80), ("math", 80), ("chemistry", 80),
      ("physics", 80)]
    departmentOptions := ["Astrology"]
    accepted := false }

/-- Physics and Mathematics with one seat each, three rounds, and the applicant
of `strayHeap` at address 0. -/
def strayUniversity : University :=
  NewUniversity strayHeap
    [NewDepartment "Physics" 1 ["physics", "math"], NewDepartment "Mathematics" 1 ["math"]]
    [0] 3

/-- The state of `strayUniversity` after segmentation and ranking: the stray
applicant sits in the pool of Physics. -/
def strayRanked : University :=
  { strayUniversity with
    departments :=
      [{ NewDepartment "Physics" 1 ["physics", "math"] with applicants := [0] },
       NewDepartment "Mathematics" 1 ["math"]] }

/-- Applicants with fewer preferences than rounds: address 0 lists Physics and
Mathematics, address 1 (the higher Physics score) lists Physics only. -/
def shortHeap : Heap := fun p =>
  if p = 0 then
    { name := "Ann Archer"
      grades := [("special", 0), ("computer science", 0), ("math", 90), ("chemistry", 0),
        ("physics", 90)]
      departmentOptions := ["Physics", "Mathematics"]
      accepted := false }
  else
    { name := "Ben Brook"
      grades := [("special", 0), ("computer science", 0), ("math", 95), ("chemistry", 0),
        ("physics", 95)]
      departmentOptions := ["Physics"]
      accepted := false }

/-- The university over `shortHeap` as `NewUniversity` builds it: Physics and
Mathematics with one seat each, three rounds. -/
def shortUniversity : University :=
  NewUniversity shortHeap
    [NewDepartment "Physics" 1 ["physics", "math"], NewDepartment "Mathematics" 1 ["math"]]
    [0, 1] 3

/-- The state of `shortUniversity` after segmentation and ranking. -/
def shortRanked : University :=
  { shortUniversity with
    departments :=
      [{ NewDepartment "Physics" 1 ["physics", "math"] with applicants := [1, 0] },
       { NewDepartment "Mathematics" 1 ["math"] with applicants := [0] }] }

/-- The example of the specification: applicant A at address 0 lists Physics
and Math and has composite score 90 for Physics, applicant B at address 1 lists
Physics only and has composite score 95. -/
def specHeap : Heap := fun p =>
  if p = 0 then
    { name := "Applicant A"
      grades := [("special", 0), ("computer science", 0), ("math", 90), ("chemistry", 0),
        ("physics", 90)]
      departmentOptions := ["Physics", "Math"]
      accepted := false }
  else
    { name := "Applicant B"
      grades := [("special", 0), ("computer science", 0), ("math", 95), ("chemistry", 0),
        ("physics", 95)]
      departmentOptions := ["Physics"]
      accepted := false }

/-- The university of the example: Physics and Math with one seat each, three
rounds. -/
def specUniversity : University :=
  NewUniversity specHeap
    [NewDepartment "Physics" 1 ["physics", "math"], NewDepartment "Math" 1 ["math"]]
    [0, 1] 3

/-- The example after segmentation: both applicants in the pool of Physics in
input order, applicant A in the pool of Math. -/
def specSegmented : University :=
  { specUniversity with
    departments :=
      [{ NewDepartment "Physics" 1 ["physics", "math"] with applicants := [0, 1] },
       { NewDepartment "Math" 1 ["math"] with applicants := [0] }] }

/-- Three applicants for Physics, Mathematics and Chemistry: Amy (address 0)
has the best Physics score but lists Physics second, Bob (address 1) lists
Physics first, Cid (address 2) has the best Mathematics score. -/
def meritHeap : Heap := fun p =>
  if p = 0 then
    { name := "Amy Adams"
      grades := [("special", 0), ("computer science", 0), ("math", 80), ("chemistry", 50),
        ("physics", 90)]
      departmentOptions := ["Mathematics", "Physics", "Chemistry"]
      accepted := false }
  else if p = 1 then
    { name := "Bob Brown"
      grades := [("special", 0), ("computer science", 0), ("math", 60), ("chemistry", 40),
        ("physics", 70)]
      departmentOptions := ["Physics", "Mathematics", "Chemistry"]
      accepted := false }
  else
    { name := "Cid Clark"
      grades := [("special", 0), ("computer science", 0), ("math", 95), ("chemistry", 30),
        ("physics", 60)]
      departmentOptions := ["Mathematics", "Chemistry", "Physics"]
      accepted := false }

/-- The catalog of the run over `meritHeap`: one seat per department. -/
def meritCatalog : List (String × Int × List String) :=
  [("Physics", 1, ["physics", "math"]), ("Mathematics", 1, ["math"]),
    ("Chemistry", 1, ["chemistry"])]

/-- The university over `meritHeap`, three rounds. -/
def meritUniversity : University :=
  NewUniversity meritHeap (catalogDepartments meritCatalog) [0, 1, 2] 3

/-- The state of `meritUniversity` after segmentation. -/
def meritSegmented : University :=
  { meritUniversity with
    departments :=
      [{ NewDepartment "Physics" 1 ["physics", "math"] with applicants := [0, 1, 2] },
       { NewDepartment "Mathematics" 1 ["math"] with applicants := [0, 1, 2] },
       { NewDepartment "Chemistry" 1 ["chemistry"] with applicants := [0, 1, 2] }] }

/-- The catalog of `meritCatalog` with no seat in Chemistry. -/
def tightCatalog : List (String × Int × List String) :=
  [("Physics", 1, ["physics", "math"]), ("Mathematics", 1, ["math"]),
    ("Chemistry", 0, ["chemistry"])]

/-- The university over `meritHeap` with the catalog `tightCatalog`. -/
def tightUniversity : University :=
  NewUniversity meritHeap (catalogDepartments tightCatalog) [0, 1, 2] 3

/-! ## Lemmas -/

theorem foldl_grade_eq (a : Applicant) (exams : List String) (acc : ℚ) :
    exams.foldl (fun grade exam => grade + a.grade exam) acc = acc + (exams.map a.grade).sum := by
  induction exams generalizing acc with
  | nil => simp
  | cons e es ih => simp [List.foldl_cons, ih, add_assoc]

theorem gradeSum_eq_sum (a : Applicant) (exams : List String) :
    a.gradeSum exams = (exams.map a.grade).sum := by
  simp [Applicant.gradeSum, foldl_grade_eq]

theorem calculateMean_eq (a : Applicant) (exams : List String) :
    a.calculateMean exams = max ((exams.map a.grade).sum / (exams.length : ℚ)) (a.grade "special") := by
  simp only [Applicant.calculateMean, gradeSum_eq_sum]
  split_ifs with h
  · exact (max_eq_right (le_of_lt h)).symm
  · exact (max_eq_left (not_lt.mp h)).symm

theorem rankedBefore_iff (exams : List String) (a b : Applicant) :
    rankedBefore exams a b = true ↔
      b.calculateMean exams < a.calculateMean exams ∨
        (a.calculateMean exams = b.calculateMean exams ∧ a.name < b.name) := by
  unfold rankedBefore
  split_ifs with h
  · simp only [decide_eq_true_eq, gt_iff_lt]
    constructor
    · intro h1; exact Or.inl h1
    · rintro (h1 | ⟨h1, _⟩)
      · exact h1
      · exact absurd h1 h
  · simp only [decide_eq_true_eq]
    push_neg at h
    constructor
    · intro h1; exact Or.inr ⟨h, h1⟩
    · rintro (h1 | ⟨_, h1⟩)
      · rw [h] at h1; exact absurd h1 (lt_irrefl _)
      · exact h1

theorem rankedBefore_false_iff (exams : List String) (a b : Applicant) :
    rankedBefore exams a b = false ↔
      a.calculateMean exams < b.calculateMean exams ∨
        (a.calculateMean exams = b.calculateMean exams ∧ b.name ≤ a.name) := by
  rw [← Bool.not_eq_true, rankedBefore_iff]
  constructor
  · intro h
    push_neg at h
    rcases lt_or_eq_of_le h.1 with h1 | h1
    · exact Or.inl h1
    · exact Or.inr ⟨h1, not_lt.mp (h.2 h1)⟩
  · rintro (h1 | ⟨h1, h2⟩)
    · push_neg; exact ⟨le_of_lt h1, fun h3 => absurd h1 (by rw [h3]; exact lt_irrefl _)⟩
    · push_neg; exact ⟨le_of_eq h1, fun _ => not_lt.mpr h2⟩

theorem rankedBefore_strictWeak (exams : List String) : StrictWeak (rankedBefore exams) := by
  constructor
  · intro a b h
    rw [rankedBefore_iff] at h
    rw [rankedBefore_false_iff]
    rcases h with h | ⟨h1, h2⟩
    · exact Or.inl h
    · exact Or.inr ⟨h1.symm, le_of_lt h2⟩
  · intro a b c h1 h2
    rw [rankedBefore_false_iff] at *
    rcases h1 with h1 | ⟨h1, h1n⟩ <;> rcases h2 with h2 | ⟨h2, h2n⟩
    · exact Or.inl (lt_trans h1 h2)
    · exact Or.inl (h2 ▸ h1)
    · exact Or.inl (h1 ▸ h2)
    · exact Or.inr ⟨h1.trans h2, le_trans h2n h1n⟩

theorem less_strictWeak (heap : Heap) (exams : List String) :
    StrictWeak (Department.less heap exams) := by
  constructor
  · intro p q h; exact (rankedBefore_strictWeak exams).asymm _ _ h
  · intro p q r h1 h2; exact (rankedBefore_strictWeak exams).negTrans _ _ _ h1 h2

theorem less_false_iff (heap : Heap) (exams : List String) (p q : Nat) :
    Department.less heap exams q p = false ↔ RanksNoLater heap exams p q := by
  unfold Department.less RanksNoLater
  rw [rankedBefore_false_iff]
  constructor
  · rintro (h | ⟨h1, h2⟩)
    · exact Or.inl h
    · exact Or.inr ⟨h1.symm, h2⟩
  · rintro (h | ⟨h1, h2⟩)
    · exact Or.inl h
    · exact Or.inr ⟨h1.symm, h2⟩

/-- Two orderings of the same pool that both satisfy the `sort.Slice` contract
coincide when different pool entries carry different names. -/
theorem ranked_unique (heap : Heap) (exams : List String) (l1 l2 : List Nat)
    (hnames : ∀ p ∈ l1, ∀ q ∈ l1, (heap p).name = (heap q).name → p = q)
    (hperm : l1.Perm l2)
    (h1 : l1.Pairwise (fun a b => Department.less heap exams b a = false))
    (h2 : l2.Pairwise (fun a b => Department.less heap exams b a = false)) : l1 = l2 := by
  refine List.Perm.eq_of_sorted ?_ h1 h2 hperm
  intro a b ha hb hab hba
  rw [less_false_iff] at hab hba
  apply hnames a ha b (hperm.symm.subset hb)
  rcases hab with h | ⟨_, h⟩
  · rcases hba with h3 | ⟨h3, _⟩
    · exact absurd h (lt_asymm h3)
    · rw [h3] at h; exact absurd h (lt_irrefl _)
  · rcases hba with h3 | ⟨_, h3⟩
    · rename_i h4; rw [h4] at h3; exact absurd h3 (lt_irrefl _)
    · exact le_antisymm h h3

theorem sort_unique (S T : SliceSorter) (heap : Heap) (exams : List String) (l1 l2 : List Nat)
    (hnames : ∀ p ∈ l1, ∀ q ∈ l1, (heap p).name = (heap q).name → p = q)
    (hperm : l1.Perm l2) :
    S.sort (Department.less heap exams) l1 = T.sort (Department.less heap exams) l2 := by
  have hp1 := S.perm (Department.less heap exams) l1
  have hp2 := T.perm (Department.less heap exams) l2
  refine ranked_unique heap exams _ _ ?_ (hp1.trans (hperm.trans hp2.symm))
    (S.ordered _ _ (less_strictWeak heap exams)) (T.ordered _ _ (less_strictWeak heap exams))
  intro p hp q hq
  exact hnames p (hp1.subset hp) q (hp1.subset hq)

theorem admitAll_nil (heap : Heap) : admitAll heap [] = heap := by
  funext q; simp [admitAll]

theorem admitAll_cons (heap : Heap) (p : Nat) (new : List Nat) :
    admitAll (Function.update heap p { heap p with accepted := true }) new
      = admitAll heap (p :: new) := by
  funext q
  unfold admitAll
  by_cases hq : q = p
  · subst hq
    by_cases hn : q ∈ new <;> simp [hn]
  · by_cases hn : q ∈ new <;> simp [hn, hq, Function.update_noteq hq]

theorem scanPool_ok (i : Nat) (pool : List Nat) :
    ∀ (heap : Heap) (d : Department) (heap' : Heap) (d' : Department),
      scanPool i heap d pool = .ok (heap', d') →
      ∃ new : List Nat,
        d' = { d with accepted := d.accepted ++ new } ∧
        heap' = admitAll heap new ∧
        new.Sublist pool ∧
        new.Nodup ∧
        (∀ p ∈ new, (heap p).accepted = false ∧ (heap p).departmentOptions[i]? = some d.name) ∧
        ((d.accepted.length : Int) ≤ d.limit →
          ((d.accepted.length + new.length : Nat) : Int) ≤ d.limit) := by
  induction pool with
  | nil =>
    intro heap d heap' d' h
    simp only [scanPool, Except.ok.injEq, Prod.mk.injEq] at h
    refine ⟨[], ?_, ?_, List.Sublist.refl _, List.nodup_nil, by simp, by simp⟩
    · simp [← h.2]
    · rw [admitAll_nil]; exact h.1.symm
  | cons p rest ih =>
    intro heap d heap' d' h
    unfold scanPool at h
    split_ifs at h with hfull hacc
    · simp only [Except.ok.injEq, Prod.mk.injEq] at h
      refine ⟨[], ?_, ?_, List.nil_sublist _, List.nodup_nil, by simp, by simp⟩
      · simp [← h.2]
      · rw [admitAll_nil]; exact h.1.symm
    · obtain ⟨new, h1, h2, h3, h4, h5, h6⟩ := ih heap d heap' d' h
      exact ⟨new, h1, h2, h3.cons p, h4, h5, h6⟩
    · cases hopt : (heap p).departmentOptions[i]? with
      | none => simp [hopt] at h
      | some option =>
        simp only [hopt] at h
        split_ifs at h with hname
        · obtain ⟨new, h1, h2, h3, h4, h5, h6⟩ := ih _ _ heap' d' h
          have hp : p ∉ new := by
            intro hmem
            have := (h5 p hmem).1
            simp at this
          refine ⟨p :: new, ?_, ?_, h3.cons₂ p, List.nodup_cons.mpr ⟨hp, h4⟩, ?_, ?_⟩
          · rw [h1]; simp
          · rw [h2, admitAll_cons]
          · intro q hq
            rcases List.mem_cons.mp hq with rfl | hq
            · exact ⟨by simpa using hacc, by rw [hopt, hname]⟩
            · have hne : q ≠ p := fun e => hp (e ▸ hq)
              have := h5 q hq
              simpa [Function.update_noteq hne] using this
          · intro _
            have hlt : (d.accepted.length : Int) < d.limit := by omega
            have := h6 (by simp only [List.length_append, List.length_singleton]; omega)
            simp only [List.length_append, List.length_singleton, List.length_cons] at this ⊢
            omega
        · obtain ⟨new, h1, h2, h3, h4, h5, h6⟩ := ih heap d heap' d' h
          exact ⟨new, h1, h2, h3.cons p, h4, h5, h6⟩

theorem scanPool_withinLimit (i : Nat) (pool : List Nat) (heap : Heap) (d : Department)
    (heap' : Heap) (d' : Department) (h : scanPool i heap d pool = .ok (heap', d'))
    (hd : (d.accepted.length : Int) ≤ d.limit) : (d'.accepted.length : Int) ≤ d'.limit := by
  obtain ⟨new, h1, _, _, _, _, h6⟩ := scanPool_ok i pool heap d heap' d' h
  have := h6 hd
  rw [h1]
  simpa using this

theorem scanDepartments_withinLimit (i : Nat) (ds : List Department) :
    ∀ (heap : Heap) (heap' : Heap) (ds' : List Department),
      scanDepartments i heap ds = .ok (heap', ds') → WithinLimit ds → WithinLimit ds' := by
  induction ds with
  | nil =>
    intro heap heap' ds' h _
    simp only [scanDepartments, Except.ok.injEq, Prod.mk.injEq] at h
    rw [← h.2]
    intro d hd
    cases hd
  | cons d rest ih =>
    intro heap heap' ds' h hw
    unfold scanDepartments at h
    cases h1 : scanPool i heap d d.applicants with
    | error e => simp [h1] at h
    | ok r1 =>
      obtain ⟨heap1, d1⟩ := r1
      simp only [h1] at h
      cases h2 : scanDepartments i heap1 rest with
      | error e => simp [h2] at h
      | ok r2 =>
        obtain ⟨heap2, rest2⟩ := r2
        simp only [h2, Except.ok.injEq, Prod.mk.injEq] at h
        rw [← h.2]
        intro x hx
        rcases List.mem_cons.mp hx with rfl | hx
        · exact scanPool_withinLimit i _ heap d heap1 x h1 (hw d (List.mem_cons_self _ _))
        · exact ih heap1 heap2 rest2 h2 (fun y hy => hw y (List.mem_cons_of_mem _ hy)) x hx

theorem selectRound_withinLimit (i : Nat) (u s : University) (h : selectRound i u = .ok s)
    (hw : WithinLimit u.departments) : WithinLimit s.departments := by
  unfold selectRound at h
  cases h1 : scanDepartments i u.heap u.departments with
  | error e => simp [h1] at h
  | ok r1 =>
    obtain ⟨heap1, ds1⟩ := r1
    simp only [h1, Except.ok.injEq] at h
    rw [← h]
    exact scanDepartments_withinLimit i _ _ _ _ h1 hw

theorem selectRounds_withinLimit (n : Nat) :
    ∀ (u s : University), selectRounds n u = .ok s → WithinLimit u.departments →
      WithinLimit s.departments := by
  induction n with
  | zero =>
    intro u s h hw
    simp only [selectRounds, Except.ok.injEq] at h
    rw [← h]; exact hw
  | succ n ih =>
    intro u s h hw
    unfold selectRounds at h
    cases h1 : selectRounds n u with
    | error e => simp [h1] at h
    | ok s1 =>
      simp only [h1] at h
      exact selectRound_withinLimit n s1 s h (ih u s1 h1 hw)

theorem selectUpTo_withinLimit (u s : University) (r m n : Nat)
    (h : selectUpTo u r m n = .ok s) (hw : WithinLimit u.departments) :
    WithinLimit s.departments := by
  unfold selectUpTo at h
  cases h1 : selectRounds r u with
  | error e => simp [h1] at h
  | ok s1 =>
    simp only [h1] at h
    have hw1 := selectRounds_withinLimit r u s1 h1 hw
    cases h2 : scanDepartments r s1.heap (s1.departments.take m) with
    | error e => simp [h2] at h
    | ok r2 =>
      obtain ⟨heap1, done⟩ := r2
      simp only [h2] at h
      have hdone : WithinLimit done :=
        scanDepartments_withinLimit r _ _ _ _ h2
          (fun d hd => hw1 d (List.mem_of_mem_take hd))
      cases h3 : s1.departments.drop m with
      | nil =>
        simp only [h3, Except.ok.injEq] at h
        rw [← h]; exact hdone
      | cons d rest =>
        simp only [h3] at h
        have hmem : ∀ x ∈ d :: rest, x ∈ s1.departments := by
          intro x hx
          rw [← h3] at hx
          exact List.mem_of_mem_drop hx
        cases h4 : scanPool r heap1 d (d.applicants.take n) with
        | error e => simp [h4] at h
        | ok r4 =>
          obtain ⟨heap2, d2⟩ := r4
          simp only [h4, Except.ok.injEq] at h
          rw [← h]
          intro x hx
          simp only [List.mem_append, List.mem_cons] at hx
          rcases hx with hx | rfl | hx
          · exact hdone x hx
          · exact scanPool_withinLimit r _ heap1 d heap2 x h4
              (hw1 d (hmem d (List.mem_cons_self _ _)))
          · exact hw1 x (hmem x (List.mem_cons_of_mem _ hx))

theorem selectUpTo_zero (u : University) (r : Nat) :
    selectUpTo u r 0 0 = selectRounds r u := by
  unfold selectUpTo
  cases h : selectRounds r u with
  | error e => rfl
  | ok s =>
    obtain ⟨ds, m, ps, calls, heap⟩ := s
    cases ds with
    | nil => simp [scanDepartments]
    | cons d rest => simp [scanDepartments, scanPool]

theorem selectUpTo_of_length_le (u s : University) (r m n : Nat)
    (hs : selectRounds r u = .ok s) (hm : s.departments.length ≤ m) :
    selectUpTo u r m n = selectRounds (r + 1) u := by
  have e1 : selectRounds (r + 1) u = selectRound r s := by
    simp only [selectRounds, hs]
  rw [e1]
  unfold selectUpTo
  simp only [hs, List.take_of_length_le hm, List.drop_of_length_le hm]
  unfold selectRound
  cases h : scanDepartments r s.heap s.departments with
  | error e => rfl
  | ok res => rfl

theorem withinLimit_of_empty (ds : List Department) (hlimit : ∀ d ∈ ds, 0 ≤ d.limit)
    (hempty : ∀ d ∈ ds, d.accepted = []) : WithinLimit ds := by
  intro d hd
  rw [hempty d hd]
  simpa using hlimit d hd

theorem admittedCount_cons (d : Department) (ds : List Department) (p : Nat) :
    admittedCount (d :: ds) p = d.accepted.count p + admittedCount ds p := by
  simp [admittedCount]

theorem flagCount_admitAll (heap : Heap) (new : List Nat) (hnew : new.Nodup)
    (hflag : ∀ q ∈ new, (heap q).accepted = false) (p : Nat) :
    flagCount (admitAll heap new) p = flagCount heap p + new.count p := by
  unfold flagCount admitAll
  by_cases hp : p ∈ new
  · simp [hp, hflag p hp, List.count_eq_one_of_mem hnew hp]
  · simp [hp, List.count_eq_zero_of_not_mem hp]

theorem scanDepartments_count (i : Nat) (ds : List Department) :
    ∀ (heap : Heap) (c : Nat → Nat) (heap' : Heap) (ds' : List Department),
      scanDepartments i heap ds = .ok (heap', ds') →
      (∀ p, c p + admittedCount ds p = flagCount heap p) →
      ∀ p, c p + admittedCount ds' p = flagCount heap' p := by
  induction ds with
  | nil =>
    intro heap c heap' ds' h h0
    simp only [scanDepartments, Except.ok.injEq, Prod.mk.injEq] at h
    rw [← h.1, ← h.2]; exact h0
  | cons d rest ih =>
    intro heap c heap' ds' h h0 p
    unfold scanDepartments at h
    cases h1 : scanPool i heap d d.applicants with
    | error e => simp [h1] at h
    | ok r1 =>
      obtain ⟨heap1, d1⟩ := r1
      simp only [h1] at h
      cases h2 : scanDepartments i heap1 rest with
      | error e => simp [h2] at h
      | ok r2 =>
        obtain ⟨heap2, rest2⟩ := r2
        simp only [h2, Except.ok.injEq, Prod.mk.injEq] at h
        rw [← h.1, ← h.2]
        obtain ⟨new, e1, e2, _, hnd, hfl, _⟩ := scanPool_ok i _ heap d heap1 d1 h1
        have hfl2 : ∀ q ∈ new, (heap q).accepted = false := fun q hq => (hfl q hq).1
        have key := ih heap1 (fun q => c q + d1.accepted.count q) heap2 rest2 h2 (by
          intro q
          have h0q := h0 q
          rw [admittedCount_cons] at h0q
          rw [e2, flagCount_admitAll heap new hnd hfl2 q, e1]
          simp only [List.count_append]
          omega) p
        rw [admittedCount_cons]
        omega

theorem selectRound_count (i : Nat) (u s : University) (h : selectRound i u = .ok s)
    (h0 : ∀ p, admittedCount u.departments p = flagCount u.heap p) :
    ∀ p, admittedCount s.departments p = flagCount s.heap p := by
  unfold selectRound at h
  cases h1 : scanDepartments i u.heap u.departments with
  | error e => simp [h1] at h
  | ok r1 =>
    obtain ⟨heap1, ds1⟩ := r1
    simp only [h1, Except.ok.injEq] at h
    rw [← h]
    intro p
    have := scanDepartments_count i _ u.heap (fun _ => 0) heap1 ds1 h1
      (by intro q; simpa using h0 q) p
    simpa using this

theorem selectRounds_count (n : Nat) :
    ∀ (u s : University), selectRounds n u = .ok s →
      (∀ p, admittedCount u.departments p = flagCount u.heap p) →
      ∀ p, admittedCount s.departments p = flagCount s.heap p := by
  induction n with
  | zero =>
    intro u s h h0
    simp only [selectRounds, Except.ok.injEq] at h
    rw [← h]; exact h0
  | succ n ih =>
    intro u s h h0
    unfold selectRounds at h
    cases h1 : selectRounds n u with
    | error e => simp [h1] at h
    | ok s1 =>
      simp only [h1] at h
      exact selectRound_count n s1 s h (ih u s1 h1 h0)

theorem admittedCount_of_empty (ds : List Department) (hempty : ∀ d ∈ ds, d.accepted = [])
    (p : Nat) : admittedCount ds p = 0 := by
  induction ds with
  | nil => rfl
  | cons d rest ih =>
    rw [admittedCount_cons, hempty d (List.mem_cons_self _ _),
      ih (fun x hx => hempty x (List.mem_cons_of_mem _ hx))]
    rfl

theorem count_le_admittedCount (ds : List Department) (d : Department) (hd : d ∈ ds) (p : Nat) :
    d.accepted.count p ≤ admittedCount ds p := by
  induction ds with
  | nil => cases hd
  | cons x rest ih =>
    rw [admittedCount_cons]
    rcases List.mem_cons.mp hd with rfl | hd
    · omega
    · have := ih hd; omega

theorem same_index_of_admittedCount_le_one (ds : List Department) (p : Nat) :
    ∀ (k1 k2 : Nat) (d1 d2 : Department), admittedCount ds p ≤ 1 →
      ds[k1]? = some d1 → ds[k2]? = some d2 → p ∈ d1.accepted → p ∈ d2.accepted → k1 = k2 := by
  induction ds with
  | nil => intro k1 k2 d1 d2 _ h1; simp at h1
  | cons x rest ih =>
    intro k1 k2 d1 d2 hc h1 h2 m1 m2
    rw [admittedCount_cons] at hc
    have c1 := List.count_pos_iff.mpr m1
    have c2 := List.count_pos_iff.mpr m2
    cases k1 with
    | zero =>
      cases k2 with
      | zero => rfl
      | succ j2 =>
        simp only [List.getElem?_cons_zero, Option.some.injEq] at h1
        simp only [List.getElem?_cons_succ] at h2
        have := count_le_admittedCount rest d2 (List.getElem?_mem h2) p
        subst h1
        omega
    | succ j1 =>
      cases k2 with
      | zero =>
        simp only [List.getElem?_cons_zero, Option.some.injEq] at h2
        simp only [List.getElem?_cons_succ] at h1
        have := count_le_admittedCount rest d1 (List.getElem?_mem h1) p
        subst h2
        omega
      | succ j2 =>
        simp only [List.getElem?_cons_succ] at h1 h2
        have := ih j1 j2 d1 d2 (by omega) h1 h2 m1 m2
        omega


theorem exists_mem_of_admittedCount_pos (ds : List Department) (p : Nat)
    (h : 0 < admittedCount ds p) : ∃ d ∈ ds, p ∈ d.accepted := by
  induction ds with
  | nil => simp [admittedCount] at h
  | cons x rest ih =>
    rw [admittedCount_cons] at h
    by_cases hx : p ∈ x.accepted
    · exact ⟨x, List.mem_cons_self _ _, hx⟩
    · rw [List.count_eq_zero_of_not_mem hx] at h
      obtain ⟨d, hd, hp⟩ := ih (by omega)
      exact ⟨d, List.mem_cons_of_mem _ hd, hp⟩

theorem map_set_same {α β : Type} (f : α → β) (l : List α) (k : Nat) (a b : α)
    (h : l[k]? = some a) (hf : f b = f a) : (l.set k b).map f = l.map f := by
  apply List.ext_getElem?
  intro n
  simp only [List.getElem?_map, List.getElem?_set]
  split_ifs with h1 h2
  · subst h1; simp [h, hf]
  · subst h1
    have : l[k]? = none := by
      rw [List.getElem?_eq_none_iff]; omega
    rw [this] at h; cases h
  · rfl

theorem segmentOption_map {β : Type} (f : Department → β) (hf : ∀ d p, f (d.addApplicant p) = f d)
    (m : List (String × Nat)) (p : Nat) (ds ds' : List Department) (o : String)
    (h : segmentOption m p ds o = .ok ds') : ds'.map f = ds.map f := by
  unfold segmentOption at h
  cases hk : ds[mapGet m o 0]? with
  | none => simp [hk] at h
  | some d =>
    simp only [hk, Except.ok.injEq] at h
    rw [← h]
    exact map_set_same f ds _ d _ hk (hf d p)

theorem segmentOptions_map {β : Type} (f : Department → β) (hf : ∀ d p, f (d.addApplicant p) = f d)
    (m : List (String × Nat)) (p : Nat) (os : List String) :
    ∀ (ds ds' : List Department), segmentOptions m p ds os = .ok ds' →
      ds'.map f = ds.map f := by
  induction os with
  | nil =>
    intro ds ds' h
    simp only [segmentOptions, Except.ok.injEq] at h
    rw [h]
  | cons o rest ih =>
    intro ds ds' h
    unfold segmentOptions at h
    cases h1 : segmentOption m p ds o with
    | error e => simp [h1] at h
    | ok ds1 =>
      simp only [h1] at h
      rw [ih ds1 ds' h, segmentOption_map f hf m p ds ds1 o h1]

theorem segmentLoop_map {β : Type} (f : Department → β) (hf : ∀ d p, f (d.addApplicant p) = f d)
    (m : List (String × Nat)) (heap : Heap) (ps : List Nat) :
    ∀ (ds ds' : List Department), segmentLoop m heap ds ps = .ok ds' →
      ds'.map f = ds.map f := by
  induction ps with
  | nil =>
    intro ds ds' h
    simp only [segmentLoop, Except.ok.injEq] at h
    rw [h]
  | cons p rest ih =>
    intro ds ds' h
    unfold segmentLoop at h
    cases h1 : segmentOptions m p ds (heap p).departmentOptions with
    | error e => simp [h1] at h
    | ok ds1 =>
      simp only [h1] at h
      rw [ih ds1 ds' h, segmentOptions_map f hf m p _ ds ds1 h1]

theorem segmentsApplicants_map {β : Type} (f : Department → β) (hf : ∀ d p, f (d.addApplicant p) = f d)
    (u u1 : University) (h : u.segmentsApplicants = .ok u1) :
    u1.departments.map f = u.departments.map f ∧ u1.heap = u.heap ∧ u1.calls = u.calls
      ∧ u1.applicants = u.applicants ∧ u1.mapDepartments = u.mapDepartments := by
  unfold University.segmentsApplicants at h
  cases h1 : segmentLoop u.mapDepartments u.heap u.departments u.applicants with
  | error e => simp [h1] at h
  | ok ds1 =>
    simp only [h1, Except.ok.injEq] at h
    rw [← h]
    exact ⟨segmentLoop_map f hf _ _ _ _ _ h1, rfl, rfl, rfl, rfl⟩

theorem accepted_of_map_eq (ds ds' : List Department)
    (h : ds'.map (fun d => d.accepted) = ds.map (fun d => d.accepted))
    (hempty : ∀ d ∈ ds, d.accepted = []) : ∀ d ∈ ds', d.accepted = [] := by
  intro d hd
  have : d.accepted ∈ ds'.map (fun d => d.accepted) := List.mem_map_of_mem _ hd
  rw [h] at this
  obtain ⟨x, hx, e⟩ := List.mem_map.mp this
  rw [← e]; exact hempty x hx

theorem sortApplicants_accepted_empty (S : SliceSorter) (u : University)
    (hempty : ∀ d ∈ u.departments, d.accepted = []) :
    ∀ d ∈ (u.sortApplicants S).departments, d.accepted = [] := by
  intro d hd
  simp only [University.sortApplicants, List.mem_map] at hd
  obtain ⟨x, hx, e⟩ := hd
  rw [← e]
  exact hempty x hx

theorem runAdmission_count (S : SliceSorter) (u s : University)
    (hflags : ∀ p, (u.heap p).accepted = false)
    (hempty : ∀ d ∈ u.departments, d.accepted = [])
    (hrun : runAdmission S u = .ok s) :
    ∀ p, admittedCount s.departments p = flagCount s.heap p := by
  unfold runAdmission andThen at hrun
  cases h1 : u.segmentsApplicants with
  | error e => simp [h1] at hrun
  | ok u1 =>
    simp only [h1] at hrun
    obtain ⟨ha, hh, _⟩ := segmentsApplicants_map (fun d => d.accepted) (fun _ _ => rfl) u u1 h1
    have he1 := accepted_of_map_eq _ _ ha hempty
    have he2 := sortApplicants_accepted_empty S u1 he1
    refine selectRounds_count _ _ s hrun ?_
    intro p
    rw [admittedCount_of_empty _ he2]
    show 0 = flagCount u1.heap p
    rw [hh]
    simp [flagCount, hflags p]

theorem HeapLe.refl (heap : Heap) : HeapLe heap heap := fun _ => Or.inl rfl

theorem HeapLe.trans {h1 h2 h3 : Heap} (a : HeapLe h1 h2) (b : HeapLe h2 h3) : HeapLe h1 h3 := by
  intro p
  rcases a p with e1 | ⟨f1, e1⟩ <;> rcases b p with e2 | ⟨f2, e2⟩
  · exact Or.inl (e2.trans e1)
  · rw [e1] at e2 f2; exact Or.inr ⟨f2, e2⟩
  · rw [e1] at e2; exact Or.inr ⟨f1, e2⟩
  · rw [e1] at f2; simp at f2

theorem HeapLe.eq_of_unadmitted {h1 h2 : Heap} (a : HeapLe h1 h2) (p : Nat)
    (hp : (h2 p).accepted = false) : h2 p = h1 p := by
  rcases a p with e | ⟨_, e⟩
  · exact e
  · rw [e] at hp; simp at hp

theorem HeapLe.flag_mono {h1 h2 : Heap} (a : HeapLe h1 h2) (p : Nat)
    (hp : (h1 p).accepted = true) : (h2 p).accepted = true := by
  rcases a p with e | ⟨f, _⟩
  · rw [e]; exact hp
  · rw [f] at hp; cases hp

theorem heapLe_admitAll (heap : Heap) (new : List Nat)
    (hflag : ∀ q ∈ new, (heap q).accepted = false) : HeapLe heap (admitAll heap new) := by
  intro p
  unfold admitAll
  by_cases hp : p ∈ new
  · right; simp [hp, hflag p hp]
  · left; simp [hp]

theorem admitsInRound_of_heapLe {i : Nat} {h1 h2 : Heap} {d d' : Department}
    (a : AdmitsInRound i h2 d d') (hle : HeapLe h1 h2) : AdmitsInRound i h1 d d' := by
  obtain ⟨new, e, hs, hp⟩ := a
  refine ⟨new, e, hs, ?_⟩
  intro p hmem
  have := hp p hmem
  rw [hle.eq_of_unadmitted p this.1] at this
  exact this

theorem scanDepartments_grows (i : Nat) (ds : List Department) :
    ∀ (heap : Heap) (heap' : Heap) (ds' : List Department),
      scanDepartments i heap ds = .ok (heap', ds') →
      HeapLe heap heap' ∧ List.Forall₂ (AdmitsInRound i heap) ds ds' := by
  induction ds with
  | nil =>
    intro heap heap' ds' h
    simp only [scanDepartments, Except.ok.injEq, Prod.mk.injEq] at h
    rw [← h.1, ← h.2]
    exact ⟨HeapLe.refl _, List.Forall₂.nil⟩
  | cons d rest ih =>
    intro heap heap' ds' h
    unfold scanDepartments at h
    cases h1 : scanPool i heap d d.applicants with
    | error e => simp [h1] at h
    | ok r1 =>
      obtain ⟨heap1, d1⟩ := r1
      simp only [h1] at h
      cases h2 : scanDepartments i heap1 rest with
      | error e => simp [h2] at h
      | ok r2 =>
        obtain ⟨heap2, rest2⟩ := r2
        simp only [h2, Except.ok.injEq, Prod.mk.injEq] at h
        rw [← h.1, ← h.2]
        obtain ⟨new, e1, e2, hsub, _, hfl, _⟩ := scanPool_ok i _ heap d heap1 d1 h1
        have hle1 : HeapLe heap heap1 := by
          rw [e2]; exact heapLe_admitAll heap new (fun q hq => (hfl q hq).1)
        obtain ⟨hle2, hf⟩ := ih heap1 heap2 rest2 h2
        refine ⟨hle1.trans hle2, List.Forall₂.cons ⟨new, e1, hsub, hfl⟩ ?_⟩
        exact hf.imp (fun {a b} hab => admitsInRound_of_heapLe hab hle1)

theorem scanDepartments_flagged (i : Nat) (ds : List Department) :
    ∀ (heap : Heap) (heap' : Heap) (ds' : List Department),
      scanDepartments i heap ds = .ok (heap', ds') →
      (∀ d ∈ ds, ∀ p ∈ d.accepted, (heap p).accepted = true) →
      ∀ d ∈ ds', ∀ p ∈ d.accepted, (heap' p).accepted = true := by
  induction ds with
  | nil =>
    intro heap heap' ds' h _
    simp only [scanDepartments, Except.ok.injEq, Prod.mk.injEq] at h
    rw [← h.2]
    intro d hd
    cases hd
  | cons d rest ih =>
    intro heap heap' ds' h hinv
    unfold scanDepartments at h
    cases h1 : scanPool i heap d d.applicants with
    | error e => simp [h1] at h
    | ok r1 =>
      obtain ⟨heap1, d1⟩ := r1
      simp only [h1] at h
      cases h2 : scanDepartments i heap1 rest with
      | error e => simp [h2] at h
      | ok r2 =>
        obtain ⟨heap2, rest2⟩ := r2
        simp only [h2, Except.ok.injEq, Prod.mk.injEq] at h
        rw [← h.1, ← h.2]
        obtain ⟨new, e1, e2, _, _, hfl, _⟩ := scanPool_ok i _ heap d heap1 d1 h1
        have hle1 : HeapLe heap heap1 := by
          rw [e2]; exact heapLe_admitAll heap new (fun q hq => (hfl q hq).1)
        have hle2 := (scanDepartments_grows i rest heap1 heap2 rest2 h2).1
        intro x hx p hp
        rcases List.mem_cons.mp hx with rfl | hx
        · apply hle2.flag_mono
          rw [e1] at hp
          rcases List.mem_append.mp hp with hp | hp
          · exact hle1.flag_mono p (hinv d (List.mem_cons_self _ _) p hp)
          · rw [e2]; simp [admitAll, hp]
        · exact ih heap1 heap2 rest2 h2
            (fun y hy q hq => hle1.flag_mono q (hinv y (List.mem_cons_of_mem _ hy) q hq)) x hx p hp

theorem selectRound_flagged (i : Nat) (u s : University) (h : selectRound i u = .ok s)
    (hinv : ∀ d ∈ u.departments, ∀ p ∈ d.accepted, (u.heap p).accepted = true) :
    ∀ d ∈ s.departments, ∀ p ∈ d.accepted, (s.heap p).accepted = true := by
  unfold selectRound at h
  cases h1 : scanDepartments i u.heap u.departments with
  | error e => simp [h1] at h
  | ok r1 =>
    obtain ⟨heap1, ds1⟩ := r1
    simp only [h1, Except.ok.injEq] at h
    rw [← h]
    exact scanDepartments_flagged i _ _ _ _ h1 hinv

theorem selectRounds_flagged (n : Nat) :
    ∀ (u s : University), selectRounds n u = .ok s →
      (∀ d ∈ u.departments, ∀ p ∈ d.accepted, (u.heap p).accepted = true) →
      ∀ d ∈ s.departments, ∀ p ∈ d.accepted, (s.heap p).accepted = true := by
  induction n with
  | zero =>
    intro u s h hinv
    simp only [selectRounds, Except.ok.injEq] at h
    rw [← h]; exact hinv
  | succ n ih =>
    intro u s h hinv
    unfold selectRounds at h
    cases h1 : selectRounds n u with
    | error e => simp [h1] at h
    | ok s1 =>
      simp only [h1] at h
      exact selectRound_flagged n s1 s h (ih u s1 h1 hinv)

theorem forall₂_getElem? {α β : Type} {R : α → β → Prop} {l1 : List α} {l2 : List β}
    (h : List.Forall₂ R l1 l2) :
    ∀ (k : Nat) (a : α), l1[k]? = some a → ∃ b, l2[k]? = some b ∧ R a b := by
  induction h with
  | nil => intro k a hk; simp at hk
  | cons hab _ ih =>
    intro k a hk
    cases k with
    | zero =>
      simp only [List.getElem?_cons_zero, Option.some.injEq] at hk
      subst hk
      exact ⟨_, by simp, hab⟩
    | succ j =>
      simp only [List.getElem?_cons_succ] at hk ⊢
      exact ih j a hk

theorem ok_of_admittedLists {r : Except Panic University} {l : List (List Nat)}
    (h : admittedLists r = l) (hl : l ≠ []) :
    ∃ s, r = .ok s ∧ s.departments.map (fun d => d.accepted) = l := by
  cases r with
  | error e => exact absurd h.symm hl
  | ok s => exact ⟨s, rfl, h⟩

theorem lookup_indexDepartments_of_not_mem (ds : List Department) :
    ∀ (start : Nat) (m : List (String × Nat)) (name : String),
      name ∉ ds.map (fun d => d.name) →
      (indexDepartments ds start m).lookup name = m.lookup name := by
  induction ds with
  | nil => intro start m name _; rfl
  | cons x rest ih =>
    intro start m name hn
    simp only [List.map_cons, List.mem_cons, not_or] at hn
    unfold indexDepartments
    rw [ih (start + 1) _ name hn.2]
    unfold mapSet
    rw [List.lookup_cons]
    have : (name == x.name) = false := by simpa using hn.1
    rw [this]

theorem lookup_indexDepartments (ds : List Department) :
    ∀ (start : Nat) (m : List (String × Nat)) (k : Nat) (d : Department),
      (ds.map (fun d => d.name)).Nodup → ds[k]? = some d →
      (indexDepartments ds start m).lookup d.name = some (start + k) := by
  induction ds with
  | nil => intro start m k d _ hk; simp at hk
  | cons x rest ih =>
    intro start m k d hnd hk
    simp only [List.map_cons, List.nodup_cons] at hnd
    unfold indexDepartments
    cases k with
    | zero =>
      simp only [List.getElem?_cons_zero, Option.some.injEq] at hk
      subst hk
      rw [lookup_indexDepartments_of_not_mem rest _ _ _ hnd.1]
      simp [mapSet, List.lookup_cons]
    | succ j =>
      simp only [List.getElem?_cons_succ] at hk
      rw [ih (start + 1) _ j d hnd.2 hk]
      congr 1
      omega

theorem indexedBy_indexDepartments (ds : List Department)
    (hnd : (ds.map (fun d => d.name)).Nodup) :
    IndexedBy (indexDepartments ds 0 []) (ds.map (fun d => d.name)) := by
  intro k n hk
  rw [List.getElem?_map] at hk
  cases hd : ds[k]? with
  | none => simp [hd] at hk
  | some d =>
    simp only [hd, Option.map_some', Option.some.injEq] at hk
    rw [← hk]
    simpa using lookup_indexDepartments ds 0 [] k d hnd hd

theorem segmentOption_known (m : List (String × Nat)) (p : Nat) (ds : List Department)
    (o : String) (hm : IndexedBy m (ds.map (fun d => d.name)))
    (hnd : (ds.map (fun d => d.name)).Nodup) (ho : o ∈ ds.map (fun d => d.name)) :
    segmentOption m p ds o
      = .ok (ds.map (fun d => if d.name = o then d.addApplicant p else d)) := by
  obtain ⟨k, hk⟩ := List.mem_iff_getElem?.mp ho
  have hlook := hm k o hk
  rw [List.getElem?_map] at hk
  cases hd : ds[k]? with
  | none => simp [hd] at hk
  | some d =>
    simp only [hd, Option.map_some', Option.some.injEq] at hk
    unfold segmentOption
    simp only [mapGet, hlook, Option.getD_some, hd]
    congr 1
    apply List.ext_getElem?
    intro j
    rw [List.getElem?_set, List.getElem?_map]
    have hlt : k < ds.length := by
      rcases Nat.lt_or_ge k ds.length with h | h
      · exact h
      · rw [List.getElem?_eq_none_iff.mpr h] at hd; cases hd
    by_cases hjk : k = j
    · subst hjk
      simp [hd, hk, hlt]
    · rw [if_neg hjk]
      cases hx : ds[j]? with
      | none => rfl
      | some x =>
        have hne : x.name ≠ o := by
          intro e
          have hlt2 : j < (ds.map (fun d => d.name)).length := by
            rw [List.length_map]
            rcases Nat.lt_or_ge j ds.length with h | h
            · exact h
            · rw [List.getElem?_eq_none_iff.mpr h] at hx; cases hx
          have := List.getElem?_inj hlt2 hnd
            (by rw [List.getElem?_map, List.getElem?_map, hx, hd]; simp [e, hk] :
              (ds.map (fun d => d.name))[j]? = (ds.map (fun d => d.name))[k]?)
          exact hjk this.symm
        simp [hne]

theorem map_name_addIf (ds : List Department) (o : String) (p : Nat) :
    (ds.map (fun d => if d.name = o then d.addApplicant p else d)).map (fun d => d.name)
      = ds.map (fun d => d.name) := by
  rw [List.map_map]
  apply List.map_congr_left
  intro d _
  simp only [Function.comp]
  split_ifs <;> rfl

theorem map_name_append (ds : List Department) (f : Department → List Nat) :
    (ds.map (fun d => { d with applicants := d.applicants ++ f d })).map (fun d => d.name)
      = ds.map (fun d => d.name) := by
  rw [List.map_map]
  rfl

theorem segmentOptions_known (m : List (String × Nat)) (p : Nat) (os : List String) :
    ∀ (ds : List Department), IndexedBy m (ds.map (fun d => d.name)) →
      (ds.map (fun d => d.name)).Nodup →
      (∀ o ∈ os, o ∈ ds.map (fun d => d.name)) →
      segmentOptions m p ds os
        = .ok (ds.map (fun d =>
            { d with applicants := d.applicants ++ List.replicate (os.count d.name) p })) := by
  induction os with
  | nil =>
    intro ds _ _ _
    simp only [segmentOptions, List.count_nil, List.replicate_zero, List.append_nil]
    congr 1
    exact (List.map_id _).symm
  | cons o rest ih =>
    intro ds hm hnd hos
    unfold segmentOptions
    rw [segmentOption_known m p ds o hm hnd (hos o (List.mem_cons_self _ _))]
    simp only
    have hnames := map_name_addIf ds o p
    rw [ih _ (by rw [hnames]; exact hm) (by rw [hnames]; exact hnd)
      (by rw [hnames]; exact fun x hx => hos x (List.mem_cons_of_mem _ hx))]
    congr 1
    rw [List.map_map]
    apply List.map_congr_left
    intro d _
    simp only [Function.comp]
    by_cases hd : d.name = o
    · simp only [hd, if_true, Department.addApplicant, List.count_cons_self,
        List.replicate_succ, List.append_assoc, List.singleton_append]
    · have hne : (o == d.name) = false := by simpa using fun e => hd e.symm
      simp only [hd, if_false, List.count_cons, hne]
      simp

theorem segmentLoop_known (m : List (String × Nat)) (heap : Heap) (ps : List Nat) :
    ∀ (ds : List Department), IndexedBy m (ds.map (fun d => d.name)) →
      (ds.map (fun d => d.name)).Nodup →
      (∀ p ∈ ps, ∀ o ∈ (heap p).departmentOptions, o ∈ ds.map (fun d => d.name)) →
      segmentLoop m heap ds ps
        = .ok (ds.map (fun d =>
            { d with applicants := d.applicants ++ segmentedPool heap d.name ps })) := by
  induction ps with
  | nil =>
    intro ds _ _ _
    simp only [segmentLoop, segmentedPool, List.append_nil]
    congr 1
    exact (List.map_id _).symm
  | cons p rest ih =>
    intro ds hm hnd hos
    unfold segmentLoop
    rw [segmentOptions_known m p _ ds hm hnd (hos p (List.mem_cons_self _ _))]
    simp only
    have hnames := map_name_append ds
      (fun d => List.replicate ((heap p).departmentOptions.count d.name) p)
    rw [ih _ (by rw [hnames]; exact hm) (by rw [hnames]; exact hnd)
      (by rw [hnames]; exact fun q hq => hos q (List.mem_cons_of_mem _ hq))]
    congr 1
    rw [List.map_map]
    apply List.map_congr_left
    intro d _
    simp only [Function.comp, segmentedPool, List.append_assoc]

theorem count_segmentedPool (heap : Heap) (name : String) (q : Nat) (ps : List Nat)
    (hnd : ps.Nodup) :
    (segmentedPool heap name ps).count q
      = if q ∈ ps then (heap q).departmentOptions.count name else 0 := by
  induction ps with
  | nil => simp [segmentedPool]
  | cons p rest ih =>
    rw [List.nodup_cons] at hnd
    simp only [segmentedPool, List.count_append, List.count_replicate, ih hnd.2, List.mem_cons]
    by_cases hq : q = p
    · subst hq
      simp [hnd.1]
    · have : (p == q) = false := by simpa using fun e => hq e.symm
      simp [this, hq]


theorem mem_segmentedPool (heap : Heap) (name : String) (q : Nat) (ps : List Nat) :
    q ∈ segmentedPool heap name ps ↔ q ∈ ps ∧ name ∈ (heap q).departmentOptions := by
  induction ps with
  | nil => simp [segmentedPool]
  | cons p rest ih =>
    simp only [segmentedPool, List.mem_append, ih, List.mem_cons, List.mem_replicate]
    constructor
    · rintro (⟨h1, rfl⟩ | ⟨h1, h2⟩)
      · exact ⟨Or.inl rfl, List.count_pos_iff.mp (Nat.pos_of_ne_zero h1)⟩
      · exact ⟨Or.inr h1, h2⟩
    · rintro ⟨rfl | h1, h2⟩
      · exact Or.inl ⟨Nat.pos_iff_ne_zero.mp (List.count_pos_iff.mpr h2), rfl⟩
      · exact Or.inr ⟨h1, h2⟩

theorem lookup_indexDepartments_lt (ds : List Department) :
    ∀ (start : Nat) (m : List (String × Nat)) (o : String) (v : Nat),
      (indexDepartments ds start m).lookup o = some v →
      v < start + ds.length ∨ m.lookup o = some v := by
  induction ds with
  | nil => intro start m o v h; exact Or.inr h
  | cons x rest ih =>
    intro start m o v h
    unfold indexDepartments at h
    rcases ih (start + 1) _ o v h with h1 | h1
    · left; simp only [List.length_cons]; omega
    · unfold mapSet at h1
      rw [List.lookup_cons] at h1
      cases hb : (o == x.name) with
      | true =>
        simp only [hb, Option.some.injEq] at h1
        left; simp only [List.length_cons]; omega
      | false =>
        simp only [hb] at h1
        exact Or.inr h1

theorem mapGet_indexDepartments_lt (ds : List Department) (hne : ds ≠ []) (o : String) :
    mapGet (indexDepartments ds 0 []) o 0 < ds.length := by
  have hpos : 0 < ds.length := List.length_pos.mpr hne
  unfold mapGet
  cases h : (indexDepartments ds 0 []).lookup o with
  | none => simpa using hpos
  | some v =>
    rcases lookup_indexDepartments_lt ds 0 [] o v h with h1 | h1
    · simpa using h1
    · simp at h1

theorem segmentOption_total (m : List (String × Nat)) (p : Nat) (ds : List Department)
    (o : String) (hm : mapGet m o 0 < ds.length) :
    ∃ ds', segmentOption m p ds o = .ok ds' ∧ ds'.length = ds.length := by
  unfold segmentOption
  cases hd : ds[mapGet m o 0]? with
  | none => rw [List.getElem?_eq_none_iff] at hd; omega
  | some d =>
    refine ⟨ds.set (mapGet m o 0) (d.addApplicant p), ?_, by simp⟩
    simp only [hd]

theorem segmentOptions_total (m : List (String × Nat)) (p : Nat) (n : Nat)
    (hm : ∀ o, mapGet m o 0 < n) (os : List String) :
    ∀ (ds : List Department), ds.length = n →
      ∃ ds', segmentOptions m p ds os = .ok ds' ∧ ds'.length = n := by
  induction os with
  | nil => intro ds hl; exact ⟨ds, rfl, hl⟩
  | cons o rest ih =>
    intro ds hl
    obtain ⟨ds1, h1, hl1⟩ := segmentOption_total m p ds o (by rw [hl]; exact hm o)
    obtain ⟨ds2, h2, hl2⟩ := ih ds1 (hl1.trans hl)
    refine ⟨ds2, ?_, hl2⟩
    unfold segmentOptions
    rw [h1]
    exact h2

theorem segmentLoop_total (m : List (String × Nat)) (heap : Heap) (n : Nat)
    (hm : ∀ o, mapGet m o 0 < n) (ps : List Nat) :
    ∀ (ds : List Department), ds.length = n →
      ∃ ds', segmentLoop m heap ds ps = .ok ds' ∧ ds'.length = n := by
  induction ps with
  | nil => intro ds hl; exact ⟨ds, rfl, hl⟩
  | cons p rest ih =>
    intro ds hl
    obtain ⟨ds1, h1, hl1⟩ := segmentOptions_total m p n hm (heap p).departmentOptions ds hl
    obtain ⟨ds2, h2, hl2⟩ := ih ds1 hl1
    refine ⟨ds2, ?_, hl2⟩
    unfold segmentLoop
    rw [h1]
    exact h2

theorem segmentsApplicants_total (heap : Heap) (ds : List Department) (ps : List Nat)
    (calls : Int) (hne : ds ≠ []) :
    ∃ u', (NewUniversity heap ds ps calls).segmentsApplicants = .ok u' := by
  obtain ⟨ds', h, _⟩ := segmentLoop_total (indexDepartments ds 0 []) heap ds.length
    (mapGet_indexDepartments_lt ds hne) ps ds rfl
  refine ⟨{ NewUniversity heap ds ps calls with departments := ds' }, ?_⟩
  simp only [University.segmentsApplicants, NewUniversity, h]

theorem HeapLe.options_eq {h1 h2 : Heap} (a : HeapLe h1 h2) (p : Nat) :
    (h2 p).departmentOptions = (h1 p).departmentOptions := by
  rcases a p with e | ⟨_, e⟩ <;> rw [e]

theorem scanPool_heapLe (i : Nat) (pool : List Nat) (heap : Heap) (d : Department)
    (heap' : Heap) (d' : Department) (h : scanPool i heap d pool = .ok (heap', d')) :
    HeapLe heap heap' := by
  obtain ⟨new, _, e2, _, _, hfl, _⟩ := scanPool_ok i pool heap d heap' d' h
  rw [e2]
  exact heapLe_admitAll heap new (fun q hq => (hfl q hq).1)

theorem scanPool_completes (i : Nat) (pool : List Nat) :
    ∀ (heap : Heap) (d : Department),
      (¬ Full d → ∀ a ∈ pool, (heap a).accepted = false →
        i < (heap a).departmentOptions.length) →
      ∃ res, scanPool i heap d pool = .ok res := by
  induction pool with
  | nil => intro heap d _; exact ⟨(heap, d), rfl⟩
  | cons p rest ih =>
    intro heap d hq
    unfold scanPool
    split_ifs with hfull hacc
    · exact ⟨(heap, d), rfl⟩
    · exact ih heap d (fun hn a ha => hq hn a (List.mem_cons_of_mem _ ha))
    · have hlen := hq hfull p (List.mem_cons_self _ _) (by simpa using hacc)
      rw [List.getElem?_eq_getElem hlen]
      simp only
      split_ifs with hname
      · apply ih
        intro _ a ha hflag
        have hne : a ≠ p := by
          intro e
          rw [e] at hflag
          simp at hflag
        rw [Function.update_noteq hne] at hflag ⊢
        exact hq hfull a (List.mem_cons_of_mem _ ha) hflag
      · exact ih heap d (fun hn a ha => hq hn a (List.mem_cons_of_mem _ ha))

theorem scanPool_fills (i : Nat) (pool : List Nat) :
    ∀ (heap : Heap) (d : Department) (heap' : Heap) (d' : Department),
      scanPool i heap d pool = .ok (heap', d') →
      ∀ a ∈ pool, (heap' a).accepted = false →
        (heap a).departmentOptions[i]? = some d.name → Full d' := by
  induction pool with
  | nil => intro heap d heap' d' _ a ha; cases ha
  | cons p rest ih =>
    intro heap d heap' d' h a ha hflag hopt
    have hle := scanPool_heapLe i _ heap d heap' d' h
    unfold scanPool at h
    split_ifs at h with hfull hacc
    · simp only [Except.ok.injEq, Prod.mk.injEq] at h
      rw [← h.2]; exact hfull
    · rcases List.mem_cons.mp ha with rfl | ha
      · have := hle.flag_mono a hacc
        rw [hflag] at this; cases this
      · exact ih heap d heap' d' h a ha hflag hopt
    · cases hopt2 : (heap p).departmentOptions[i]? with
      | none => simp [hopt2] at h
      | some option =>
        simp only [hopt2] at h
        split_ifs at h with hname
        · have hle1 := scanPool_heapLe i _ _ _ heap' d' h
          rcases List.mem_cons.mp ha with rfl | ha
          · have := hle1.flag_mono a (by simp)
            rw [hflag] at this; cases this
          · have hne : a ≠ p := by
              intro e
              have := hle1.flag_mono p (by simp)
              rw [← e, hflag] at this; cases this
            exact ih _ _ heap' d' h a ha hflag (by
              rw [Function.update_noteq hne]; exact hopt)
        · rcases List.mem_cons.mp ha with rfl | ha
          · rw [hopt2] at hopt
            simp only [Option.some.injEq] at hopt
            exact absurd hopt hname
          · exact ih heap d heap' d' h a ha hflag hopt

theorem passedOver_of_heapLe {r : Nat} {h1 h2 : Heap} {d : Department}
    (a : PassedOver r h1 d) (hle : HeapLe h1 h2) : PassedOver r h2 d := by
  intro p hp hflag j hj hopt
  have e := hle.eq_of_unadmitted p hflag
  rw [e] at hflag hopt
  exact a p hp hflag j hj hopt

theorem listsOwnDepartment_of_heapLe {h1 h2 : Heap} {d : Department}
    (a : ListsOwnDepartment h1 d) (hle : HeapLe h1 h2) : ListsOwnDepartment h2 d := by
  intro p hp
  rw [hle.options_eq p]
  exact a p hp

theorem scanPool_department (i : Nat) (heap : Heap) (d : Department)
    (hpass : PassedOver i heap d) (hlist : ListsOwnDepartment heap d) :
    ∃ heap1 d1, scanPool i heap d d.applicants = .ok (heap1, d1)
      ∧ PassedOver (i + 1) heap1 d1 ∧ ListsOwnDepartment heap1 d1 := by
  obtain ⟨⟨heap1, d1⟩, hres⟩ := scanPool_completes i d.applicants heap d (by
    intro hfull a ha hflag
    obtain ⟨j, hj⟩ := List.mem_iff_getElem?.mp (hlist a ha)
    by_cases hji : j < i
    · exact absurd (hpass a ha hflag j hji hj) hfull
    · have hjl : j < (heap a).departmentOptions.length := by
        rcases Nat.lt_or_ge j (heap a).departmentOptions.length with h | h
        · exact h
        · rw [List.getElem?_eq_none_iff.mpr h] at hj; cases hj
      omega)
  refine ⟨heap1, d1, hres, ?_, ?_⟩
  · obtain ⟨new, e1, _, _, _, _, _⟩ := scanPool_ok i _ heap d heap1 d1 hres
    have hle := scanPool_heapLe i _ heap d heap1 d1 hres
    intro p hp hflag j hj hopt
    have hp0 : p ∈ d.applicants := by rw [e1] at hp; exact hp
    have hname : d1.name = d.name := by rw [e1]
    have e := hle.eq_of_unadmitted p hflag
    rw [hname, e] at hopt
    by_cases hji : j < i
    · have hf := hpass p hp0 (by rw [← e]; exact hflag) j hji hopt
      unfold Full at hf ⊢
      rw [e1]
      simp only [List.length_append, Nat.cast_add]
      omega
    · have hje : j = i := by omega
      rw [hje] at hopt
      exact scanPool_fills i _ heap d heap1 d1 hres p hp0 hflag hopt
  · obtain ⟨new, e1, _, _, _, _, _⟩ := scanPool_ok i _ heap d heap1 d1 hres
    have hle := scanPool_heapLe i _ heap d heap1 d1 hres
    intro p hp
    rw [hle.options_eq p, e1]
    rw [e1] at hp
    exact hlist p hp

theorem scanDepartments_passedOver (i : Nat) (ds : List Department) :
    ∀ (heap : Heap),
      (∀ d ∈ ds, PassedOver i heap d ∧ ListsOwnDepartment heap d) →
      ∃ heap' ds', scanDepartments i heap ds = .ok (heap', ds')
        ∧ ∀ d ∈ ds', PassedOver (i + 1) heap' d ∧ ListsOwnDepartment heap' d := by
  induction ds with
  | nil =>
    intro heap _
    exact ⟨heap, [], rfl, fun d hd => by cases hd⟩
  | cons d rest ih =>
    intro heap hall
    obtain ⟨heap1, d1, h1, hp1, hl1⟩ :=
      scanPool_department i heap d (hall d (List.mem_cons_self _ _)).1
        (hall d (List.mem_cons_self _ _)).2
    have hle1 := scanPool_heapLe i _ heap d heap1 d1 h1
    obtain ⟨heap2, rest2, h2, hall2⟩ := ih heap1 (fun x hx =>
      ⟨passedOver_of_heapLe (hall x (List.mem_cons_of_mem _ hx)).1 hle1,
        listsOwnDepartment_of_heapLe (hall x (List.mem_cons_of_mem _ hx)).2 hle1⟩)
    have hle2 := (scanDepartments_grows i rest heap1 heap2 rest2 h2).1
    refine ⟨heap2, d1 :: rest2, ?_, ?_⟩
    · unfold scanDepartments
      simp only [h1, h2]
    · intro x hx
      rcases List.mem_cons.mp hx with rfl | hx
      · exact ⟨passedOver_of_heapLe hp1 hle2, listsOwnDepartment_of_heapLe hl1 hle2⟩
      · exact hall2 x hx

theorem selectRounds_passedOver (u : University)
    (hlisted : ∀ d ∈ u.departments, ListsOwnDepartment u.heap d) (n : Nat) :
    ∃ s, selectRounds n u = .ok s
      ∧ ∀ d ∈ s.departments, PassedOver n s.heap d ∧ ListsOwnDepartment s.heap d := by
  induction n with
  | zero =>
    refine ⟨u, rfl, fun d hd => ⟨?_, hlisted d hd⟩⟩
    intro p _ _ j hj
    omega
  | succ n ih =>
    obtain ⟨s, hs, hall⟩ := ih
    obtain ⟨heap', ds', h, hall'⟩ := scanDepartments_passedOver n s.departments s.heap hall
    refine ⟨{ s with heap := heap', departments := ds' }, ?_, hall'⟩
    unfold selectRounds
    simp only [hs, selectRound, h]

theorem fixedPart_of_admitsInRound {i : Nat} {heap : Heap} {d d' : Department}
    (h : AdmitsInRound i heap d d') : d'.fixedPart = d.fixedPart := by
  obtain ⟨new, e, _, _⟩ := h
  rw [e]
  rfl

theorem map_eq_of_forall₂ {α β : Type} {R : α → α → Prop} (f : α → β)
    (hR : ∀ a b, R a b → f b = f a) {l1 l2 : List α} (h : List.Forall₂ R l1 l2) :
    l2.map f = l1.map f := by
  induction h with
  | nil => rfl
  | cons hab _ ih => simp [hR _ _ hab, ih]

theorem scanDepartments_fixedPart (i : Nat) (ds : List Department) (heap heap' : Heap)
    (ds' : List Department) (h : scanDepartments i heap ds = .ok (heap', ds')) :
    ds'.map Department.fixedPart = ds.map Department.fixedPart :=
  map_eq_of_forall₂ Department.fixedPart (fun _ _ hab => fixedPart_of_admitsInRound hab)
    (scanDepartments_grows i ds heap heap' ds' h).2

theorem selectRound_frame (i : Nat) (u s : University) (h : selectRound i u = .ok s) :
    s.departments.map Department.fixedPart = u.departments.map Department.fixedPart
      ∧ HeapLe u.heap s.heap ∧ s.mapDepartments = u.mapDepartments
      ∧ s.applicants = u.applicants ∧ s.calls = u.calls := by
  unfold selectRound at h
  cases h1 : scanDepartments i u.heap u.departments with
  | error e => simp [h1] at h
  | ok r1 =>
    obtain ⟨heap1, ds1⟩ := r1
    simp only [h1, Except.ok.injEq] at h
    rw [← h]
    exact ⟨scanDepartments_fixedPart i _ _ _ _ h1,
      (scanDepartments_grows i _ _ _ _ h1).1, rfl, rfl, rfl⟩

theorem selectRounds_frame (n : Nat) :
    ∀ (u s : University), selectRounds n u = .ok s →
      s.departments.map Department.fixedPart = u.departments.map Department.fixedPart
        ∧ HeapLe u.heap s.heap ∧ s.mapDepartments = u.mapDepartments
        ∧ s.applicants = u.applicants ∧ s.calls = u.calls := by
  induction n with
  | zero =>
    intro u s h
    simp only [selectRounds, Except.ok.injEq] at h
    rw [← h]
    exact ⟨rfl, HeapLe.refl _, rfl, rfl, rfl⟩
  | succ n ih =>
    intro u s h
    unfold selectRounds at h
    cases h1 : selectRounds n u with
    | error e => simp [h1] at h
    | ok s1 =>
      simp only [h1] at h
      obtain ⟨a1, a2, a3, a4, a5⟩ := ih u s1 h1
      obtain ⟨b1, b2, b3, b4, b5⟩ := selectRound_frame n s1 s h
      exact ⟨b1.trans a1, a2.trans b2, b3.trans a3, b4.trans a4, b5.trans a5⟩

theorem HeapLe.fixed {h1 h2 : Heap} (a : HeapLe h1 h2) (p : Nat) :
    (h2 p).name = (h1 p).name ∧ (h2 p).grades = (h1 p).grades
      ∧ (h2 p).departmentOptions = (h1 p).departmentOptions := by
  rcases a p with e | ⟨_, e⟩ <;> rw [e] <;> exact ⟨rfl, rfl, rfl⟩

theorem departmentLess_strictWeak : StrictWeak departmentLess := by
  constructor
  · intro a b h
    simp only [departmentLess, decide_eq_true_eq, decide_eq_false_iff_not, not_lt] at h ⊢
    exact le_of_lt h
  · intro a b c h1 h2
    simp only [departmentLess, decide_eq_false_iff_not, not_lt] at h1 h2 ⊢
    exact le_trans h2 h1

theorem scanDepartments_preserves (P : Heap → Department → Prop)
    (hmono : ∀ (h h' : Heap) (d : Department), HeapLe h h' → P h d → P h' d)
    (hscan : ∀ (i : Nat) (h : Heap) (d : Department) (pool : List Nat) (h' : Heap)
      (d' : Department), (∀ p ∈ pool, p ∈ d.applicants) →
      scanPool i h d pool = .ok (h', d') → P h d → P h' d')
    (i : Nat) (ds : List Department) :
    ∀ (heap heap' : Heap) (ds' : List Department),
      scanDepartments i heap ds = .ok (heap', ds') → (∀ d ∈ ds, P heap d) →
      ∀ d ∈ ds', P heap' d := by
  induction ds with
  | nil =>
    intro heap heap' ds' h _
    simp only [scanDepartments, Except.ok.injEq, Prod.mk.injEq] at h
    rw [← h.2]
    intro d hd
    cases hd
  | cons d rest ih =>
    intro heap heap' ds' h hall
    unfold scanDepartments at h
    cases h1 : scanPool i heap d d.applicants with
    | error e => simp [h1] at h
    | ok r1 =>
      obtain ⟨heap1, d1⟩ := r1
      simp only [h1] at h
      cases h2 : scanDepartments i heap1 rest with
      | error e => simp [h2] at h
      | ok r2 =>
        obtain ⟨heap2, rest2⟩ := r2
        simp only [h2, Except.ok.injEq, Prod.mk.injEq] at h
        rw [← h.1, ← h.2]
        have hle1 := scanPool_heapLe i _ heap d heap1 d1 h1
        have hle2 := (scanDepartments_grows i rest heap1 heap2 rest2 h2).1
        intro x hx
        rcases List.mem_cons.mp hx with rfl | hx
        · exact hmono heap1 heap2 x hle2
            (hscan i heap d d.applicants heap1 x (fun _ hp => hp) h1
              (hall d (List.mem_cons_self _ _)))
        · exact ih heap1 heap2 rest2 h2
            (fun y hy => hmono heap heap1 y hle1 (hall y (List.mem_cons_of_mem _ hy))) x hx

theorem selectRounds_preserves (P : Heap → Department → Prop)
    (hmono : ∀ (h h' : Heap) (d : Department), HeapLe h h' → P h d → P h' d)
    (hscan : ∀ (i : Nat) (h : Heap) (d : Department) (pool : List Nat) (h' : Heap)
      (d' : Department), (∀ p ∈ pool, p ∈ d.applicants) →
      scanPool i h d pool = .ok (h', d') → P h d → P h' d')
    (n : Nat) :
    ∀ (u s : University), selectRounds n u = .ok s →
      (∀ d ∈ u.departments, P u.heap d) → ∀ d ∈ s.departments, P s.heap d := by
  induction n with
  | zero =>
    intro u s h hall
    simp only [selectRounds, Except.ok.injEq] at h
    rw [← h]; exact hall
  | succ n ih =>
    intro u s h hall
    unfold selectRounds at h
    cases h1 : selectRounds n u with
    | error e => simp [h1] at h
    | ok s1 =>
      simp only [h1] at h
      have hall1 := ih u s1 h1 hall
      unfold selectRound at h
      cases h2 : scanDepartments n s1.heap s1.departments with
      | error e => simp [h2] at h
      | ok r2 =>
        obtain ⟨heap2, ds2⟩ := r2
        simp only [h2, Except.ok.injEq] at h
        rw [← h]
        exact scanDepartments_preserves P hmono hscan n _ _ _ _ h2 hall1

theorem selectUpTo_preserves (P : Heap → Department → Prop)
    (hmono : ∀ (h h' : Heap) (d : Department), HeapLe h h' → P h d → P h' d)
    (hscan : ∀ (i : Nat) (h : Heap) (d : Department) (pool : List Nat) (h' : Heap)
      (d' : Department), (∀ p ∈ pool, p ∈ d.applicants) →
      scanPool i h d pool = .ok (h', d') → P h d → P h' d')
    (u s : University) (r m n : Nat) (h : selectUpTo u r m n = .ok s)
    (hall : ∀ d ∈ u.departments, P u.heap d) : ∀ d ∈ s.departments, P s.heap d := by
  unfold selectUpTo at h
  cases h1 : selectRounds r u with
  | error e => simp [h1] at h
  | ok s1 =>
    simp only [h1] at h
    have hall1 := selectRounds_preserves P hmono hscan r u s1 h1 hall
    cases h2 : scanDepartments r s1.heap (s1.departments.take m) with
    | error e => simp [h2] at h
    | ok r2 =>
      obtain ⟨heap1, done⟩ := r2
      simp only [h2] at h
      have hle1 := (scanDepartments_grows r _ _ _ _ h2).1
      have hdone := scanDepartments_preserves P hmono hscan r _ _ _ _ h2
        (fun d hd => hall1 d (List.mem_of_mem_take hd))
      cases h3 : s1.departments.drop m with
      | nil =>
        simp only [h3, Except.ok.injEq] at h
        rw [← h]; exact hdone
      | cons d rest =>
        simp only [h3] at h
        have hmem : ∀ x ∈ d :: rest, x ∈ s1.departments := by
          intro x hx
          rw [← h3] at hx
          exact List.mem_of_mem_drop hx
        cases h4 : scanPool r heap1 d (d.applicants.take n) with
        | error e => simp [h4] at h
        | ok r4 =>
          obtain ⟨heap2, d2⟩ := r4
          simp only [h4, Except.ok.injEq] at h
          rw [← h]
          have hle2 := scanPool_heapLe r _ heap1 d heap2 d2 h4
          intro x hx
          simp only [List.mem_append, List.mem_cons] at hx
          rcases hx with hx | rfl | hx
          · exact hmono heap1 heap2 x hle2 (hdone x hx)
          · exact hscan r heap1 d (d.applicants.take n) heap2 x
              (fun _ hp => List.mem_of_mem_take hp) h4
              (hmono s1.heap heap1 d hle1 (hall1 d (hmem d (List.mem_cons_self _ _))))
          · exact hmono s1.heap heap2 x (hle1.trans hle2)
              (hall1 x (hmem x (List.mem_cons_of_mem _ hx)))

theorem admittedSound_mono (h h' : Heap) (d : Department) (hle : HeapLe h h')
    (hs : AdmittedSound h d) : AdmittedSound h' d :=
  ⟨hs.1, hs.2.1, fun p hp => hle.flag_mono p (hs.2.2 p hp)⟩

theorem admittedSound_scanPool (i : Nat) (h : Heap) (d : Department) (pool : List Nat)
    (h' : Heap) (d' : Department) (hpool : ∀ p ∈ pool, p ∈ d.applicants)
    (hres : scanPool i h d pool = .ok (h', d')) (hs : AdmittedSound h d) :
    AdmittedSound h' d' := by
  obtain ⟨new, e1, e2, hsub, hnd, hfl, _⟩ := scanPool_ok i pool h d h' d' hres
  have hle : HeapLe h h' := scanPool_heapLe i pool h d h' d' hres
  rw [e1]
  refine ⟨?_, ?_, ?_⟩
  · show (d.accepted ++ new).Nodup
    rw [List.nodup_append]
    refine ⟨hs.1, hnd, ?_⟩
    intro p hp1 hp2
    have t := hs.2.2 p hp1
    rw [(hfl p hp2).1] at t
    cases t
  · intro p hp
    rcases List.mem_append.mp hp with hp | hp
    · exact hs.2.1 p hp
    · exact hpool p (hsub.subset hp)
  · intro p hp
    rcases List.mem_append.mp hp with hp | hp
    · exact hle.flag_mono p (hs.2.2 p hp)
    · rw [e2]; simp [admitAll, hp]

theorem admittedSound_of_empty (heap : Heap) (d : Department) (h : d.accepted = []) :
    AdmittedSound heap d := by
  unfold AdmittedSound
  rw [h]
  simp

theorem longEnough_mono (n : Nat) (h h' : Heap) (d : Department) (hle : HeapLe h h')
    (hl : LongEnough n h d) : LongEnough n h' d := by
  intro p hp
  rw [hle.options_eq p]
  exact hl p hp

theorem longEnough_scanPool (n i : Nat) (h : Heap) (d : Department) (pool : List Nat)
    (h' : Heap) (d' : Department) (_hpool : ∀ p ∈ pool, p ∈ d.applicants)
    (hres : scanPool i h d pool = .ok (h', d')) (hl : LongEnough n h d) :
    LongEnough n h' d' := by
  obtain ⟨new, e1, _, _, _, _, _⟩ := scanPool_ok i pool h d h' d' hres
  have hle : HeapLe h h' := scanPool_heapLe i pool h d h' d' hres
  intro p hp
  rw [hle.options_eq p]
  rw [e1] at hp
  exact hl p hp

theorem scanDepartments_completes_long (n i : Nat) (hi : i < n) (ds : List Department) :
    ∀ (heap : Heap), (∀ d ∈ ds, LongEnough n heap d) →
      ∃ res, scanDepartments i heap ds = .ok res := by
  induction ds with
  | nil => intro heap _; exact ⟨(heap, []), rfl⟩
  | cons d rest ih =>
    intro heap hall
    obtain ⟨⟨heap1, d1⟩, h1⟩ := scanPool_completes i d.applicants heap d (by
      intro _ a ha _
      have := hall d (List.mem_cons_self _ _) a ha
      omega)
    have hle1 := scanPool_heapLe i _ heap d heap1 d1 h1
    obtain ⟨⟨heap2, rest2⟩, h2⟩ := ih heap1 (fun x hx =>
      longEnough_mono n heap heap1 x hle1 (hall x (List.mem_cons_of_mem _ hx)))
    refine ⟨(heap2, d1 :: rest2), ?_⟩
    unfold scanDepartments
    simp only [h1, h2]

theorem selectRounds_completes_long (n : Nat) (u : University)
    (hall : ∀ d ∈ u.departments, LongEnough n u.heap d) (k : Nat) (hk : k ≤ n) :
    ∃ s, selectRounds k u = .ok s := by
  induction k with
  | zero => exact ⟨u, rfl⟩
  | succ k ih =>
    obtain ⟨s, hs⟩ := ih (by omega)
    have hall1 := selectRounds_preserves (LongEnough n) (longEnough_mono n)
      (longEnough_scanPool n) k u s hs hall
    obtain ⟨⟨heap', ds'⟩, h⟩ :=
      scanDepartments_completes_long n k (by omega) s.departments s.heap hall1
    refine ⟨{ s with heap := heap', departments := ds' }, ?_⟩
    unfold selectRounds
    simp only [hs, selectRound, h]

theorem segmentOption_mem (m : List (String × Nat)) (p : Nat) (ds ds' : List Department)
    (o : String) (h : segmentOption m p ds o = .ok ds') :
    ∀ d' ∈ ds', ∀ q ∈ d'.applicants, q = p ∨ ∃ d ∈ ds, q ∈ d.applicants := by
  unfold segmentOption at h
  cases hk : ds[mapGet m o 0]? with
  | none => simp [hk] at h
  | some d =>
    simp only [hk, Except.ok.injEq] at h
    rw [← h]
    intro d' hd' q hq
    rcases List.mem_or_eq_of_mem_set hd' with hmem | rfl
    · exact Or.inr ⟨d', hmem, hq⟩
    · simp only [Department.addApplicant, List.mem_append, List.mem_singleton] at hq
      rcases hq with hq | hq
      · exact Or.inr ⟨d, List.getElem?_mem hk, hq⟩
      · exact Or.inl hq

theorem segmentOptions_mem (m : List (String × Nat)) (p : Nat) (os : List String) :
    ∀ (ds ds' : List Department), segmentOptions m p ds os = .ok ds' →
      ∀ d' ∈ ds', ∀ q ∈ d'.applicants, q = p ∨ ∃ d ∈ ds, q ∈ d.applicants := by
  induction os with
  | nil =>
    intro ds ds' h d' hd' q hq
    simp only [segmentOptions, Except.ok.injEq] at h
    rw [← h] at hd'
    exact Or.inr ⟨d', hd', hq⟩
  | cons o rest ih =>
    intro ds ds' h d' hd' q hq
    unfold segmentOptions at h
    cases h1 : segmentOption m p ds o with
    | error e => simp [h1] at h
    | ok ds1 =>
      simp only [h1] at h
      rcases ih ds1 ds' h d' hd' q hq with e | ⟨d1, hd1, hq1⟩
      · exact Or.inl e
      · exact segmentOption_mem m p ds ds1 o h1 d1 hd1 q hq1

theorem segmentLoop_mem (m : List (String × Nat)) (heap : Heap) (ps : List Nat) :
    ∀ (ds ds' : List Department), segmentLoop m heap ds ps = .ok ds' →
      ∀ d' ∈ ds', ∀ q ∈ d'.applicants, q ∈ ps ∨ ∃ d ∈ ds, q ∈ d.applicants := by
  induction ps with
  | nil =>
    intro ds ds' h d' hd' q hq
    simp only [segmentLoop, Except.ok.injEq] at h
    rw [← h] at hd'
    exact Or.inr ⟨d', hd', hq⟩
  | cons p rest ih =>
    intro ds ds' h d' hd' q hq
    unfold segmentLoop at h
    cases h1 : segmentOptions m p ds (heap p).departmentOptions with
    | error e => simp [h1] at h
    | ok ds1 =>
      simp only [h1] at h
      rcases ih ds1 ds' h d' hd' q hq with e | ⟨d1, hd1, hq1⟩
      · exact Or.inl (List.mem_cons_of_mem _ e)
      · rcases segmentOptions_mem m p _ ds ds1 h1 d1 hd1 q hq1 with e | e
        · exact Or.inl (e ▸ List.mem_cons_self _ _)
        · exact Or.inr e

theorem catalogDepartments_empty (catalog : List (String × Int × List String)) :
    ∀ d ∈ catalogDepartments catalog, d.applicants = [] ∧ d.accepted = [] := by
  intro d hd
  obtain ⟨c, _, e⟩ := List.mem_map.mp hd
  rw [← e]
  exact ⟨rfl, rfl⟩

theorem segmentsApplicants_pools_from_list (heap : Heap) (ds : List Department)
    (ps : List Nat) (calls : Int) (u1 : University)
    (hpools : ∀ d ∈ ds, d.applicants = [])
    (h : (NewUniversity heap ds ps calls).segmentsApplicants = .ok u1) :
    ∀ d ∈ u1.departments, ∀ q ∈ d.applicants, q ∈ ps := by
  unfold University.segmentsApplicants at h
  cases h1 : segmentLoop (NewUniversity heap ds ps calls).mapDepartments
      (NewUniversity heap ds ps calls).heap (NewUniversity heap ds ps calls).departments
      (NewUniversity heap ds ps calls).applicants with
  | error e => simp [h1] at h
  | ok ds1 =>
    simp only [h1, Except.ok.injEq] at h
    rw [← h]
    intro d hd q hq
    rcases segmentLoop_mem _ _ _ _ _ h1 d hd q hq with e | ⟨d0, hd0, hq0⟩
    · exact e
    · rw [hpools d0 hd0] at hq0
      cases hq0

theorem selectRounds_exams (n : Nat) (u s : University) (h : selectRounds n u = .ok s) :
    s.departments.map (fun d => d.exams) = u.departments.map (fun d => d.exams) := by
  have h1 := (selectRounds_frame n u s h).1
  have := congrArg (List.map (fun x : String × List String × Int × List Nat => x.2.1)) h1
  simpa [List.map_map, Function.comp, Department.fixedPart] using this

theorem mem_firstOccurrences (l : List Nat) (q : Nat) : q ∈ firstOccurrences l ↔ q ∈ l := by
  induction l with
  | nil => simp [firstOccurrences]
  | cons p ps ih =>
    simp only [firstOccurrences, List.mem_cons, List.mem_filter, ih, decide_eq_true_eq]
    constructor
    · rintro (h | ⟨h, _⟩)
      · exact Or.inl h
      · exact Or.inr h
    · intro h
      by_cases e : q = p
      · exact Or.inl e
      · rcases h with h | h
        · exact Or.inl h
        · exact Or.inr ⟨h, e⟩

theorem firstOccurrences_filter (f : Nat → Bool) (l : List Nat) :
    firstOccurrences (l.filter f) = (firstOccurrences l).filter f := by
  induction l with
  | nil => rfl
  | cons p ps ih =>
    by_cases hp : f p = true
    · simp only [List.filter_cons, hp, if_true, firstOccurrences, ih, List.filter_filter]
      congr 1
      apply List.filter_congr
      intro x _
      exact Bool.and_comm _ _
    · simp only [List.filter_cons, hp, firstOccurrences, List.filter_filter]
      simp only [Bool.false_eq_true, if_false]
      rw [ih]
      apply List.filter_congr
      intro x _
      by_cases hx : x = p
      · subst hx
        simp [hp]
      · simp [hx]

theorem seatsLeft_eq_zero (d : Department) (h : (d.accepted.length : Int) ≥ d.limit) :
    seatsLeft d = 0 := by
  unfold seatsLeft
  omega

theorem seatsLeft_append (d : Department) (p : Nat)
    (h : ¬ (d.accepted.length : Int) ≥ d.limit) :
    seatsLeft d = seatsLeft { d with accepted := d.accepted ++ [p] } + 1 := by
  unfold seatsLeft
  simp only [List.length_append, List.length_singleton, Nat.cast_add, Nat.cast_one]
  omega

theorem eligible_update (i : Nat) (heap : Heap) (name : String) (p q : Nat) :
    Eligible i (Function.update heap p { heap p with accepted := true }) name q
      = (Eligible i heap name q && decide (q ≠ p)) := by
  unfold Eligible
  by_cases hq : q = p
  · subst hq
    simp
  · simp [Function.update_noteq hq, hq]

theorem scanPool_exact (i : Nat) (pool : List Nat) :
    ∀ (heap : Heap) (d : Department) (heap' : Heap) (d' : Department),
      scanPool i heap d pool = .ok (heap', d') →
      d' = { d with accepted := d.accepted ++ admitsFrom i heap d pool }
        ∧ heap' = admitAll heap (admitsFrom i heap d pool) := by
  induction pool with
  | nil =>
    intro heap d heap' d' h
    simp only [scanPool, Except.ok.injEq, Prod.mk.injEq] at h
    have : admitsFrom i heap d [] = [] := by simp [admitsFrom, firstOccurrences]
    rw [this, admitAll_nil, List.append_nil]
    exact ⟨h.2.symm, h.1.symm⟩
  | cons p rest ih =>
    intro heap d heap' d' h
    unfold scanPool at h
    split_ifs at h with hfull hacc
    · simp only [Except.ok.injEq, Prod.mk.injEq] at h
      have : admitsFrom i heap d (p :: rest) = [] := by
        simp [admitsFrom, seatsLeft_eq_zero d hfull]
      rw [this, admitAll_nil, List.append_nil]
      exact ⟨h.2.symm, h.1.symm⟩
    · have hne : Eligible i heap d.name p = false := by simp [Eligible, hacc]
      have : admitsFrom i heap d (p :: rest) = admitsFrom i heap d rest := by
        simp [admitsFrom, List.filter_cons, hne]
      rw [this]
      exact ih heap d heap' d' h
    · cases hopt : (heap p).departmentOptions[i]? with
      | none => simp [hopt] at h
      | some option =>
        simp only [hopt] at h
        split_ifs at h with hname
        · obtain ⟨e1, e2⟩ := ih _ _ heap' d' h
          have hel : Eligible i heap d.name p = true := by
            simp [Eligible, hacc, hopt, hname]
          have hrest : admitsFrom i (Function.update heap p { heap p with accepted := true })
              { d with accepted := d.accepted ++ [p] } rest
              = ((firstOccurrences (rest.filter (Eligible i heap d.name))).filter
                  (fun q => decide (q ≠ p))).take
                  (seatsLeft { d with accepted := d.accepted ++ [p] }) := by
            unfold admitsFrom
            congr 1
            rw [← firstOccurrences_filter, List.filter_filter]
            congr 1
            apply List.filter_congr
            intro q _
            rw [eligible_update]
            exact Bool.and_comm _ _
          have hall : admitsFrom i heap d (p :: rest)
              = p :: admitsFrom i (Function.update heap p { heap p with accepted := true })
                  { d with accepted := d.accepted ++ [p] } rest := by
            rw [hrest]
            unfold admitsFrom
            rw [List.filter_cons, hel, if_pos rfl, seatsLeft_append d p hfull]
            rfl
          rw [hall]
          constructor
          · rw [e1]
            simp
          · rw [e2, admitAll_cons]
        · have hne : Eligible i heap d.name p = false := by
            simp [Eligible, hopt, hname]
          have : admitsFrom i heap d (p :: rest) = admitsFrom i heap d rest := by
            simp [admitsFrom, List.filter_cons, hne]
          rw [this]
          exact ih heap d heap' d' h

theorem eligible_of_mem_admitsFrom (i : Nat) (heap : Heap) (d : Department) (pool : List Nat)
    (q : Nat) (hq : q ∈ admitsFrom i heap d pool) :
    q ∈ pool ∧ Eligible i heap d.name q = true := by
  have h1 := List.mem_of_mem_take hq
  rw [mem_firstOccurrences] at h1
  exact List.mem_filter.mp h1

theorem admitAll_append (heap : Heap) (a b : List Nat) :
    admitAll (admitAll heap a) b = admitAll heap (a ++ b) := by
  funext q
  unfold admitAll
  by_cases ha : q ∈ a <;> by_cases hb : q ∈ b <;> simp [ha, hb]

theorem admitAll_congr (heap : Heap) (a b : List Nat) (h : ∀ q, q ∈ a ↔ q ∈ b) :
    admitAll heap a = admitAll heap b := by
  funext q
  unfold admitAll
  by_cases ha : q ∈ a
  · simp [ha, (h q).mp ha]
  · have hb : q ∉ b := fun hb => ha ((h q).mpr hb)
    simp [ha, hb]

theorem eligible_admitAll_other (i : Nat) (heap : Heap) (name other : String)
    (admitted : List Nat) (hne : name ≠ other)
    (hadm : ∀ x ∈ admitted, Eligible i heap other x = true) (q : Nat) :
    Eligible i (admitAll heap admitted) name q = Eligible i heap name q := by
  unfold Eligible admitAll
  by_cases hq : q ∈ admitted
  · have h := hadm q hq
    unfold Eligible at h
    simp only [Bool.and_eq_true, Bool.not_eq_true', decide_eq_true_eq] at h
    have h2 : ¬ (heap q).departmentOptions[i]? = some name := by
      rw [h.2]
      intro e
      exact hne (Option.some.inj e).symm
    simp [hq, h2]
  · simp [hq]

theorem roundAdmits_congr (i : Nat) (heap heap' : Heap) (d : Department)
    (h : ∀ q, Eligible i heap' d.name q = Eligible i heap d.name q) :
    roundAdmits i heap' d = roundAdmits i heap d := by
  unfold roundAdmits admitsFrom
  congr 2
  apply List.filter_congr
  intro q _
  exact h q

theorem roundAdmitsAll_congr (i : Nat) (heap heap' : Heap) (ds : List Department)
    (h : ∀ d ∈ ds, ∀ q, Eligible i heap' d.name q = Eligible i heap d.name q) :
    roundAdmitsAll i heap' ds = roundAdmitsAll i heap ds
      ∧ ds.map (departmentAfterRound i heap') = ds.map (departmentAfterRound i heap) := by
  induction ds with
  | nil => exact ⟨rfl, rfl⟩
  | cons d rest ih =>
    obtain ⟨h1, h2⟩ := ih (fun x hx => h x (List.mem_cons_of_mem _ hx))
    have hd := roundAdmits_congr i heap heap' d (h d (List.mem_cons_self _ _))
    constructor
    · simp only [roundAdmitsAll, h1, hd]
    · simp only [List.map_cons, h2, departmentAfterRound, hd]

theorem scanDepartments_exact (i : Nat) (ds : List Department) :
    ∀ (heap heap' : Heap) (ds' : List Department),
      (ds.map (fun d => d.name)).Nodup →
      scanDepartments i heap ds = .ok (heap', ds') →
      ds' = ds.map (departmentAfterRound i heap)
        ∧ heap' = admitAll heap (roundAdmitsAll i heap ds) := by
  induction ds with
  | nil =>
    intro heap heap' ds' _ h
    simp only [scanDepartments, Except.ok.injEq, Prod.mk.injEq] at h
    refine ⟨h.2.symm, ?_⟩
    rw [roundAdmitsAll, admitAll_nil]
    exact h.1.symm
  | cons d rest ih =>
    intro heap heap' ds' hnd h
    simp only [List.map_cons, List.nodup_cons] at hnd
    unfold scanDepartments at h
    cases h1 : scanPool i heap d d.applicants with
    | error e => simp [h1] at h
    | ok r1 =>
      obtain ⟨heap1, d1⟩ := r1
      simp only [h1] at h
      cases h2 : scanDepartments i heap1 rest with
      | error e => simp [h2] at h
      | ok r2 =>
        obtain ⟨heap2, rest2⟩ := r2
        simp only [h2, Except.ok.injEq, Prod.mk.injEq] at h
        obtain ⟨e1, e2⟩ := scanPool_exact i _ heap d heap1 d1 h1
        obtain ⟨e3, e4⟩ := ih heap1 heap2 rest2 hnd.2 h2
        have hel : ∀ x ∈ rest, ∀ q,
            Eligible i heap1 x.name q = Eligible i heap x.name q := by
          intro x hx q
          rw [e2]
          apply eligible_admitAll_other i heap x.name d.name
          · intro e
            exact hnd.1 (e ▸ List.mem_map_of_mem (fun d => d.name) hx)
          · intro y hy
            exact (eligible_of_mem_admitsFrom i heap d d.applicants y hy).2
        obtain ⟨c1, c2⟩ := roundAdmitsAll_congr i heap heap1 rest hel
        rw [← h.1, ← h.2]
        constructor
        · rw [e3, c2, e1]
          rfl
        · rw [e4, c1, e2, admitAll_append]
          rfl

theorem selectRound_exact (i : Nat) (u s : University)
    (hnd : (u.departments.map (fun d => d.name)).Nodup) (h : selectRound i u = .ok s) :
    s.departments = u.departments.map (departmentAfterRound i u.heap)
      ∧ s.heap = admitAll u.heap (roundAdmitsAll i u.heap u.departments) := by
  unfold selectRound at h
  cases h1 : scanDepartments i u.heap u.departments with
  | error e => simp [h1] at h
  | ok r1 =>
    obtain ⟨heap1, ds1⟩ := r1
    simp only [h1, Except.ok.injEq] at h
    rw [← h]
    exact scanDepartments_exact i _ _ _ _ hnd h1

theorem firstOccurrences_append (xs ys : List Nat) :
    firstOccurrences (xs ++ ys)
      = firstOccurrences xs ++ (firstOccurrences ys).filter (fun q => decide (q ∉ xs)) := by
  induction xs with
  | nil =>
    simp only [List.nil_append, firstOccurrences, List.not_mem_nil, not_false_eq_true,
      decide_True, List.filter_true]
  | cons p rest ih =>
    show p :: (firstOccurrences (rest ++ ys)).filter (fun q => decide (q ≠ p)) = _
    rw [ih, List.filter_append, List.filter_filter]
    show _ = p :: ((firstOccurrences rest).filter (fun q => decide (q ≠ p))
      ++ (firstOccurrences ys).filter (fun q => decide (q ∉ p :: rest)))
    congr 2
    apply List.filter_congr
    intro q _
    by_cases h1 : q = p <;> by_cases h2 : q ∈ rest <;> simp [h1, h2]

theorem mem_take_firstOccurrences_of_before (xs ys : List Nat) (a b k : Nat)
    (ha : a ∉ xs) (hb : b ∈ xs)
    (hin : a ∈ (firstOccurrences (xs ++ a :: ys)).take k) :
    b ∈ (firstOccurrences (xs ++ a :: ys)).take k := by
  rw [firstOccurrences_append] at hin ⊢
  have hb' : b ∈ firstOccurrences xs := (mem_firstOccurrences xs b).mpr hb
  have ha' : a ∉ firstOccurrences xs := fun h => ha ((mem_firstOccurrences xs a).mp h)
  rcases Nat.lt_or_ge (firstOccurrences xs).length k with hlt | hge
  · rw [List.take_append_eq_append_take]
    apply List.mem_append_left
    rw [List.take_of_length_le (by omega)]
    exact hb'
  · rw [List.take_append_of_le_length hge] at hin
    exact absurd (List.mem_of_mem_take hin) ha'

theorem filter_split (f : Nat → Bool) (l1 l2 : List Nat) (a : Nat) (ha : f a = true) :
    (l1 ++ a :: l2).filter f = l1.filter f ++ a :: l2.filter f := by
  simp [List.filter_append, List.filter_cons, ha]

theorem selectRounds_names (n : Nat) (u s : University) (h : selectRounds n u = .ok s) :
    s.departments.map (fun d => d.name) = u.departments.map (fun d => d.name) := by
  have h1 := (selectRounds_frame n u s h).1
  have := congrArg (List.map (fun x : String × List String × Int × List Nat => x.1)) h1
  simpa [List.map_map, Function.comp, Department.fixedPart] using this

theorem sortApplicants_eq_of_distinct_names (S T : SliceSorter) (u : University)
    (h : ∀ d ∈ u.departments, ∀ p ∈ d.applicants, ∀ q ∈ d.applicants,
      (u.heap p).name = (u.heap q).name → p = q) :
    u.sortApplicants S = u.sortApplicants T := by
  unfold University.sortApplicants
  congr 1
  apply List.map_congr_left
  intro d hd
  unfold Department.sortApplicants
  congr 1
  exact sort_unique S T u.heap d.exams d.applicants d.applicants (h d hd) (List.Perm.refl _)

theorem specUniversity_segmented : specUniversity.segmentsApplicants = .ok specSegmented := by
  rfl

theorem specSegmented_sorted (S : SliceSorter) :
    specSegmented.sortApplicants S = specSegmented.sortApplicants insertionSorter :=
  sortApplicants_eq_of_distinct_names S insertionSorter specSegmented (by decide)

theorem specUniversity_run (S : SliceSorter) :
    runRanking S specUniversity = runRanking insertionSorter specUniversity
      ∧ runAdmission S specUniversity = runAdmission insertionSorter specUniversity := by
  simp only [runRanking, runAdmission, andThen, specUniversity_segmented, specSegmented_sorted S]
  exact ⟨trivial, trivial⟩


theorem departmentAfterRound_of_full (i : Nat) (heap : Heap) (d : Department)
    (h : (d.accepted.length : Int) ≥ d.limit) : departmentAfterRound i heap d = d := by
  unfold departmentAfterRound roundAdmits admitsFrom
  rw [seatsLeft_eq_zero d h]
  simp

theorem selectRounds_succ_ok (n : Nat) (u s : University)
    (h : selectRounds (n + 1) u = .ok s) :
    ∃ s1, selectRounds n u = .ok s1 ∧ selectRound n s1 = .ok s := by
  unfold selectRounds at h
  cases h1 : selectRounds n u with
  | error e => simp [h1] at h
  | ok s1 =>
    simp only [h1] at h
    exact ⟨s1, rfl, h⟩

theorem single_seat_goes_to_first_eligible (u : University) (k : Nat) (d : Department)
    (b : Nat) (hnames : (u.departments.map (fun d => d.name)).Nodup)
    (hk : u.departments[k]? = some d) (hlimit : d.limit = 1) (hempty : d.accepted = [])
    (hfirst : (d.applicants.filter (Eligible 0 u.heap d.name)).head? = some b) (n : Nat) :
    ∀ s, selectRounds (n + 1) u = .ok s →
      s.departments[k]? = some { d with accepted := [b] } := by
  induction n with
  | zero =>
    intro s h
    obtain ⟨s1, h1, h2⟩ := selectRounds_succ_ok 0 u s h
    simp only [selectRounds, Except.ok.injEq] at h1
    subst h1
    obtain ⟨e1, _⟩ := selectRound_exact 0 u s hnames h2
    rw [e1, List.getElem?_map, hk]
    simp only [Option.map_some', Option.some.injEq]
    unfold departmentAfterRound roundAdmits admitsFrom seatsLeft
    rw [hempty, hlimit]
    cases hf : d.applicants.filter (Eligible 0 u.heap d.name) with
    | nil => rw [hf] at hfirst; simp at hfirst
    | cons x rest =>
      rw [hf] at hfirst
      simp only [List.head?_cons, Option.some.injEq] at hfirst
      subst hfirst
      simp [firstOccurrences]
  | succ n ih =>
    intro s h
    obtain ⟨s1, h1, h2⟩ := selectRounds_succ_ok (n + 1) u s h
    have hk1 := ih s1 h1
    have hnd : (s1.departments.map (fun d => d.name)).Nodup := by
      rw [selectRounds_names (n + 1) u s1 h1]; exact hnames
    obtain ⟨e1, _⟩ := selectRound_exact (n + 1) s1 s hnd h2
    rw [e1, List.getElem?_map, hk1]
    simp only [Option.map_some', Option.some.injEq]
    apply departmentAfterRound_of_full
    simp [hlimit]

theorem meritUniversity_segmented : meritUniversity.segmentsApplicants = .ok meritSegmented := by
  rfl

theorem meritUniversity_run (S : SliceSorter) :
    runRanking S meritUniversity = runRanking insertionSorter meritUniversity
      ∧ runAdmission S meritUniversity = runAdmission insertionSorter meritUniversity := by
  have h := sortApplicants_eq_of_distinct_names S insertionSorter meritSegmented (by decide)
  simp only [runRanking, runAdmission, andThen, meritUniversity_segmented, h]
  exact ⟨trivial, trivial⟩

theorem catalogDepartments_names (catalog : List (String × Int × List String)) :
    (catalogDepartments catalog).map (fun d => d.name) = catalog.map (fun c => c.1) := by
  unfold catalogDepartments
  rw [List.map_map]
  rfl

theorem ranked_pools (S : SliceSorter) (heap : Heap)
    (catalog : List (String × Int × List String)) (ps : List Nat) (calls : Int)
    (hnames : (catalog.map (fun c => c.1)).Nodup)
    (hknown : ∀ p ∈ ps, ∀ o ∈ (heap p).departmentOptions, o ∈ catalog.map (fun c => c.1)) :
    ∃ u1, (NewUniversity heap (catalogDepartments catalog) ps calls).segmentsApplicants = .ok u1
      ∧ u1.heap = heap ∧ u1.calls = calls
      ∧ (u1.sortApplicants S).departments.map (fun d => d.name) = catalog.map (fun c => c.1)
      ∧ ∀ d ∈ (u1.sortApplicants S).departments,
          d.accepted = [] ∧ (∃ c ∈ catalog, d.limit = c.2.1 ∧ d.name = c.1)
            ∧ ∀ p, p ∈ d.applicants ↔ p ∈ ps ∧ d.name ∈ (heap p).departmentOptions := by
  have hnd : ((catalogDepartments catalog).map (fun d => d.name)).Nodup := by
    rw [catalogDepartments_names]; exact hnames
  have hloop := segmentLoop_known (indexDepartments (catalogDepartments catalog) 0 []) heap ps
    (catalogDepartments catalog) (indexedBy_indexDepartments _ hnd) hnd
    (by rw [catalogDepartments_names]; exact hknown)
  refine ⟨{ NewUniversity heap (catalogDepartments catalog) ps calls with
    departments := (catalogDepartments catalog).map (fun d =>
      { d with applicants := d.applicants ++ segmentedPool heap d.name ps }) }, ?_, rfl, rfl,
    ?_, ?_⟩
  · simp only [University.segmentsApplicants, NewUniversity, hloop]
  · simp only [University.sortApplicants, List.map_map]
    rw [← catalogDepartments_names]
    apply List.map_congr_left
    intro d _
    rfl
  · intro d hd
    simp only [University.sortApplicants, List.map_map, List.mem_map] at hd
    obtain ⟨d0, hd0, e⟩ := hd
    obtain ⟨c, hc, ec⟩ := List.mem_map.mp (show d0 ∈ catalogDepartments catalog from hd0)
    have hpool0 := (catalogDepartments_empty catalog d0 hd0).1
    have hacc0 := (catalogDepartments_empty catalog d0 hd0).2
    rw [← e]
    refine ⟨hacc0, ⟨c, hc, ?_, ?_⟩, ?_⟩
    · rw [← ec]; rfl
    · rw [← ec]; rfl
    · intro p
      simp only [Function.comp, Department.sortApplicants]
      rw [(S.perm _ _).mem_iff, hpool0, List.nil_append]
      exact mem_segmentedPool heap d0.name p ps

theorem exists_of_map_fixedPart_eq (ds ds' : List Department)
    (h : ds'.map Department.fixedPart = ds.map Department.fixedPart) :
    (∀ d' ∈ ds', ∃ d ∈ ds, d'.fixedPart = d.fixedPart)
      ∧ (∀ d ∈ ds, ∃ d' ∈ ds', d'.fixedPart = d.fixedPart) := by
  constructor
  · intro d' hd'
    have : d'.fixedPart ∈ ds'.map Department.fixedPart := List.mem_map_of_mem _ hd'
    rw [h] at this
    obtain ⟨d, hd, e⟩ := List.mem_map.mp this
    exact ⟨d, hd, e.symm⟩
  · intro d hd
    have : d.fixedPart ∈ ds.map Department.fixedPart := List.mem_map_of_mem _ hd
    rw [← h] at this
    obtain ⟨d', hd', e⟩ := List.mem_map.mp this
    exact ⟨d', hd', e⟩

theorem mem_roundAdmitsAll (i : Nat) (heap : Heap) (ds : List Department) (q : Nat) :
    q ∈ roundAdmitsAll i heap ds ↔ ∃ d ∈ ds, q ∈ roundAdmits i heap d := by
  induction ds with
  | nil => simp [roundAdmitsAll]
  | cons d rest ih =>
    simp only [roundAdmitsAll, List.mem_append, ih, List.mem_cons, exists_eq_or_imp]

theorem selectRounds_order_independent (u : University) (ds' : List Department)
    (hnames : (u.departments.map (fun d => d.name)).Nodup)
    (hperm : ds'.Perm u.departments) (n : Nat) :
    ∀ (s s' : University), selectRounds n u = .ok s →
      selectRounds n { u with departments := ds' } = .ok s' →
      s'.heap = s.heap
        ∧ ∃ G : Department → Department,
            s.departments = u.departments.map G ∧ s'.departments = ds'.map G := by
  induction n with
  | zero =>
    intro s s' h h'
    simp only [selectRounds, Except.ok.injEq] at h h'
    rw [← h, ← h']
    exact ⟨rfl, id, (List.map_id _).symm, (List.map_id _).symm⟩
  | succ n ih =>
    intro s s' h h'
    obtain ⟨s1, h1, h2⟩ := selectRounds_succ_ok n u s h
    obtain ⟨s1', h1', h2'⟩ := selectRounds_succ_ok n _ s' h'
    obtain ⟨eh, G, eG, eG'⟩ := ih s1 s1' h1 h1'
    have hnd : (s1.departments.map (fun d => d.name)).Nodup := by
      rw [selectRounds_names n u s1 h1]; exact hnames
    have hnd' : (s1'.departments.map (fun d => d.name)).Nodup := by
      rw [selectRounds_names n _ s1' h1']
      exact ((hperm.map (fun d => d.name)).nodup_iff).mpr hnames
    obtain ⟨a1, a2⟩ := selectRound_exact n s1 s hnd h2
    obtain ⟨b1, b2⟩ := selectRound_exact n s1' s' hnd' h2'
    have hp1 : s1'.departments.Perm s1.departments := by
      rw [eG, eG']; exact hperm.map G
    refine ⟨?_, (departmentAfterRound n s1.heap) ∘ G, ?_, ?_⟩
    · rw [a2, b2, eh]
      apply admitAll_congr
      intro q
      rw [mem_roundAdmitsAll, mem_roundAdmitsAll]
      constructor
      · rintro ⟨d, hd, hq⟩; exact ⟨d, hp1.subset hd, hq⟩
      · rintro ⟨d, hd, hq⟩; exact ⟨d, hp1.symm.subset hd, hq⟩
    · rw [a1, eG, List.map_map]
    · rw [b1, eG', eh, List.map_map]

theorem stableInsertionSorter_orderedOn : stableInsertionSorter.OrderedOn :=
  fun less xs hw => stableInsertionSort_orderedOn less xs hw

theorem gt_eq_true_iff {F : Type} (A : FloatOps F) (x y : F) :
    A.gt x y = true ↔ ∃ u v, A.value x = some u ∧ A.value y = some v ∧ v < u := by
  unfold FloatOps.gt
  cases hx : A.value x <;> cases hy : A.value y <;> simp

theorem ne_eq_false_iff {F : Type} (A : FloatOps F) (x y : F) :
    A.ne x y = false ↔ ∃ u, A.value x = some u ∧ A.value y = some u := by
  unfold FloatOps.ne
  cases hx : A.value x <;> cases hy : A.value y <;> simp
  exact eq_comm

theorem floatRankedBefore_iff {F : Type} (A : FloatOps F) (exams : List String)
    (a b : FloatApplicant F) :
    floatRankedBefore A exams a b = true ↔
      ∃ u v, A.value (a.calculateMean A exams) = some u
        ∧ A.value (b.calculateMean A exams) = some v
        ∧ (v < u ∨ (u = v ∧ a.name < b.name)) := by
  unfold floatRankedBefore FloatOps.ne FloatOps.gt
  cases hx : A.value (a.calculateMean A exams) <;>
    cases hy : A.value (b.calculateMean A exams)
  · simp
  · simp
  · simp
  · rename_i u v
    by_cases huv : u = v
    · subst huv; simp
    · simp [huv]

theorem floatRankedBefore_false_iff {F : Type} (A : FloatOps F) (exams : List String)
    (a b : FloatApplicant F) (u v : WithBot (WithTop ℚ))
    (hu : A.value (a.calculateMean A exams) = some u)
    (hv : A.value (b.calculateMean A exams) = some v) :
    floatRankedBefore A exams a b = false ↔ (u < v ∨ (u = v ∧ b.name ≤ a.name)) := by
  rw [← Bool.not_eq_true, floatRankedBefore_iff]
  simp only [hu, hv, Option.some.injEq]
  constructor
  · intro h
    have h1 : ¬ (v < u ∨ (u = v ∧ a.name < b.name)) := fun hc => h ⟨u, v, rfl, rfl, hc⟩
    push_neg at h1
    rcases lt_or_eq_of_le h1.1 with h2 | h2
    · exact Or.inl h2
    · exact Or.inr ⟨h2, not_lt.mp (h1.2 h2)⟩
  · rintro h ⟨u1, v1, rfl, rfl, hc⟩
    rcases h with h | ⟨h1, h2⟩
    · rcases hc with hc | ⟨hc, _⟩
      · exact lt_asymm h hc
      · rw [hc] at h; exact lt_irrefl _ h
    · rcases hc with hc | ⟨_, hc⟩
      · rw [h1] at hc; exact lt_irrefl _ hc
      · exact not_lt.mpr h2 hc

theorem floatRankedBefore_nan_left {F : Type} (A : FloatOps F) (exams : List String)
    (a b : FloatApplicant F) (h : A.value (a.calculateMean A exams) = none) :
    floatRankedBefore A exams a b = false := by
  rw [← Bool.not_eq_true, floatRankedBefore_iff]
  rintro ⟨u, v, hu, _, _⟩
  rw [h] at hu
  exact Option.noConfusion hu

theorem floatRankedBefore_nan_right {F : Type} (A : FloatOps F) (exams : List String)
    (a b : FloatApplicant F) (h : A.value (b.calculateMean A exams) = none) :
    floatRankedBefore A exams a b = false := by
  rw [← Bool.not_eq_true, floatRankedBefore_iff]
  rintro ⟨u, v, _, hv, _⟩
  rw [h] at hv
  exact Option.noConfusion hv

theorem isNaN_eq_false_iff {F : Type} (A : FloatOps F) (x : F) :
    A.isNaN x = false ↔ ∃ u, A.value x = some u := by
  unfold FloatOps.isNaN
  cases A.value x <;> simp

theorem isNaN_eq_true_iff {F : Type} (A : FloatOps F) (x : F) :
    A.isNaN x = true ↔ A.value x = none := by
  unfold FloatOps.isNaN
  cases A.value x <;> simp

theorem floatLess_strictWeakOn {F : Type} (A : FloatOps F) (heap : Nat → FloatApplicant F)
    (exams : List String) (pool : List Nat)
    (hnan : ∀ p ∈ pool, A.isNaN ((heap p).calculateMean A exams) = false) :
    StrictWeakOn (Department.floatLess A heap exams) pool := by
  constructor
  · intro p hp q hq h
    obtain ⟨u, hu⟩ := (isNaN_eq_false_iff A _).mp (hnan p hp)
    obtain ⟨v, hv⟩ := (isNaN_eq_false_iff A _).mp (hnan q hq)
    unfold Department.floatLess at *
    rw [floatRankedBefore_iff] at h
    rw [floatRankedBefore_false_iff A exams _ _ v u hv hu]
    obtain ⟨u1, v1, hu1, hv1, hc⟩ := h
    rw [hu] at hu1; rw [hv] at hv1
    cases hu1; cases hv1
    rcases hc with hc | ⟨hc, hn⟩
    · exact Or.inl hc
    · exact Or.inr ⟨hc.symm, le_of_lt hn⟩
  · intro p hp q hq r hr h1 h2
    obtain ⟨u, hu⟩ := (isNaN_eq_false_iff A _).mp (hnan p hp)
    obtain ⟨v, hv⟩ := (isNaN_eq_false_iff A _).mp (hnan q hq)
    obtain ⟨w, hw⟩ := (isNaN_eq_false_iff A _).mp (hnan r hr)
    unfold Department.floatLess at *
    rw [floatRankedBefore_false_iff A exams _ _ u v hu hv] at h1
    rw [floatRankedBefore_false_iff A exams _ _ v w hv hw] at h2
    rw [floatRankedBefore_false_iff A exams _ _ u w hu hw]
    rcases h1 with h1 | ⟨h1, h1n⟩ <;> rcases h2 with h2 | ⟨h2, h2n⟩
    · exact Or.inl (lt_trans h1 h2)
    · exact Or.inl (h2 ▸ h1)
    · exact Or.inl (h1 ▸ h2)
    · exact Or.inr ⟨h1.trans h2, le_trans h2n h1n⟩

theorem floatLess_false_iff {F : Type} (A : FloatOps F) (heap : Nat → FloatApplicant F)
    (exams : List String) (p q : Nat)
    (hp : A.isNaN ((heap p).calculateMean A exams) = false)
    (hq : A.isNaN ((heap q).calculateMean A exams) = false) :
    Department.floatLess A heap exams q p = false ↔ FloatRanksNoLater A heap exams p q := by
  obtain ⟨u, hu⟩ := (isNaN_eq_false_iff A _).mp hp
  obtain ⟨v, hv⟩ := (isNaN_eq_false_iff A _).mp hq
  unfold Department.floatLess FloatRanksNoLater
  rw [floatRankedBefore_false_iff A exams _ _ v u hv hu, gt_eq_true_iff, ne_eq_false_iff]
  simp only [hu, hv, Option.some.injEq]
  constructor
  · rintro (h | ⟨h1, h2⟩)
    · exact Or.inl ⟨u, v, rfl, rfl, h⟩
    · exact Or.inr ⟨⟨u, rfl, h1⟩, h2⟩
  · rintro (⟨u1, v1, rfl, rfl, h⟩ | ⟨⟨u1, rfl, h1⟩, h2⟩)
    · exact Or.inl h
    · exact Or.inr ⟨h1, h2⟩

/-- Pools without a NaN score are ranked by every routine that meets the
contract on the elements of the slice. -/
theorem floatSort_ranked {F : Type} (S : SliceSorter) (hS : S.OrderedOn) (A : FloatOps F)
    (heap : Nat → FloatApplicant F) (exams : List String) (pool : List Nat)
    (hnan : ∀ p ∈ pool, A.isNaN ((heap p).calculateMean A exams) = false) :
    (S.sort (Department.floatLess A heap exams) pool).Pairwise
      (FloatRanksNoLater A heap exams) := by
  have hp := S.perm (Department.floatLess A heap exams) pool
  have h := hS (Department.floatLess A heap exams) pool
    (floatLess_strictWeakOn A heap exams pool hnan)
  refine List.Pairwise.imp_of_mem ?_ h
  intro a b ha hb hab
  exact (floatLess_false_iff A heap exams a b (hnan a (hp.subset ha))
    (hnan b (hp.subset hb))).mp hab

/-- Two rankings of the same pool coincide when no score is NaN and different
pool entries carry different names. -/
theorem float_ranked_unique {F : Type} (A : FloatOps F) (heap : Nat → FloatApplicant F)
    (exams : List String) (l1 l2 : List Nat)
    (hnames : ∀ p ∈ l1, ∀ q ∈ l1, (heap p).name = (heap q).name → p = q)
    (hperm : l1.Perm l2)
    (h1 : l1.Pairwise (FloatRanksNoLater A heap exams))
    (h2 : l2.Pairwise (FloatRanksNoLater A heap exams)) : l1 = l2 := by
  refine List.Perm.eq_of_sorted ?_ h1 h2 hperm
  intro a b ha hb hab hba
  apply hnames a ha b (hperm.symm.subset hb)
  unfold FloatRanksNoLater at hab hba
  rw [gt_eq_true_iff, ne_eq_false_iff] at hab hba
  rcases hab with ⟨u, v, hu, hv, h⟩ | ⟨⟨u, hu, hv⟩, hn⟩
  · rcases hba with ⟨v1, u1, hv1, hu1, h3⟩ | ⟨⟨v1, hv1, hu1⟩, _⟩
    · rw [hu] at hu1; rw [hv] at hv1; cases hu1; cases hv1
      exact absurd h (lt_asymm h3)
    · rw [hu] at hu1; rw [hv] at hv1; cases hu1; cases hv1
      exact absurd h (lt_irrefl _)
  · rcases hba with ⟨v1, u1, hv1, hu1, h3⟩ | ⟨_, hn2⟩
    · rw [hu] at hu1; rw [hv] at hv1; cases hu1; cases hv1
      exact absurd h3 (lt_irrefl _)
    · exact le_antisymm hn hn2

theorem float_sort_unique {F : Type} (S T : SliceSorter) (hS : S.OrderedOn) (hT : T.OrderedOn)
    (A : FloatOps F) (heap : Nat → FloatApplicant F) (exams : List String) (l1 l2 : List Nat)
    (hnames : ∀ p ∈ l1, ∀ q ∈ l1, (heap p).name = (heap q).name → p = q)
    (hnan : ∀ p ∈ l1, A.isNaN ((heap p).calculateMean A exams) = false)
    (hperm : l1.Perm l2) :
    S.sort (Department.floatLess A heap exams) l1
      = T.sort (Department.floatLess A heap exams) l2 := by
  have hp1 := S.perm (Department.floatLess A heap exams) l1
  have hp2 := T.perm (Department.floatLess A heap exams) l2
  refine float_ranked_unique A heap exams _ _ ?_ (hp1.trans (hperm.trans hp2.symm))
    (floatSort_ranked S hS A heap exams l1 hnan)
    (floatSort_ranked T hT A heap exams l2 (fun p hp => hnan p (hperm.symm.subset hp)))
  intro p hp q hq
  exact hnames p (hp1.subset hp) q (hp1.subset hq)

theorem insertLess_orderedOn {α : Type} (less : α → α → Bool) (all : List α)
    (hw : StrictWeakOn less all) (x : α) (hx : x ∈ all) (xs : List α)
    (hxs : ∀ y ∈ xs, y ∈ all) (hs : xs.Pairwise (fun a b => less b a = false)) :
    (insertLess less x xs).Pairwise (fun a b => less b a = false) := by
  induction xs with
  | nil => simp [insertLess]
  | cons y ys ih =>
    rw [List.pairwise_cons] at hs
    have hy : y ∈ all := hxs y (List.mem_cons_self _ _)
    have hys : ∀ z ∈ ys, z ∈ all := fun z hz => hxs z (List.mem_cons_of_mem _ hz)
    unfold insertLess
    split_ifs with h
    · refine List.Pairwise.cons ?_ (List.Pairwise.cons hs.1 hs.2)
      intro z hz
      rcases List.mem_cons.mp hz with rfl | hz
      · exact hw.asymm _ hx _ hy h
      · exact hw.negTrans z (hys z hz) y hy x hx (hs.1 z hz) (hw.asymm _ hx _ hy h)
    · refine List.Pairwise.cons ?_ (ih hys hs.2)
      intro z hz
      rcases List.mem_cons.mp ((insertLess_perm less x ys).subset hz) with rfl | hz
      · simpa using h
      · exact hs.1 z hz

theorem insertionSortLess_orderedOn {α : Type} (less : α → α → Bool) (all : List α)
    (hw : StrictWeakOn less all) (xs : List α) (hxs : ∀ y ∈ xs, y ∈ all) :
    (insertionSortLess less xs).Pairwise (fun a b => less b a = false) := by
  induction xs with
  | nil => exact List.Pairwise.nil
  | cons x xs ih =>
    have hrest : ∀ y ∈ xs, y ∈ all := fun y hy => hxs y (List.mem_cons_of_mem _ hy)
    exact insertLess_orderedOn less all hw x (hxs x (List.mem_cons_self _ _)) _
      (fun y hy => hrest y ((insertionSortLess_perm less xs).subset hy)) (ih hrest)

theorem insertionSorter_orderedOn : insertionSorter.OrderedOn :=
  fun less xs hw => insertionSortLess_orderedOn less xs hw xs (fun _ hy => hy)

theorem tieFloatHeap_nan (p : Nat) :
    (tieFloatHeap p).calculateMean float64Ops [] = Binary64.nan := by
  unfold tieFloatHeap
  split_ifs <;> decide!

theorem tieFloatHeap_unranked (p q : Nat) : ¬ FloatRanksNoLater float64Ops tieFloatHeap [] p q := by
  unfold FloatRanksNoLater
  rw [tieFloatHeap_nan p, tieFloatHeap_nan q]
  rintro (h | ⟨h, _⟩)
  · exact absurd h (by decide)
  · exact absurd h (by decide)

theorem tieFloatHeap_math (p : Nat) :
    (tieFloatHeap p).calculateMean float64Ops ["math"] = Binary64.finite 80 := by
  unfold tieFloatHeap
  split_ifs <;> decide!

theorem not_chain_of_perm_pair {R : Nat → Nat → Prop} (hR : ∀ p q, ¬ R p q) (l : List Nat)
    (hl : l.Perm [0, 1]) : ¬ l.Chain' R := by
  have hlen := hl.length_eq
  match l, hlen with
  | [a, b], _ =>
    intro h
    exact hR a b (List.chain'_pair.mp h)

theorem scanGrades_five {F : Type} (parseFloat : String → F × Option ParseError)
    (tuple : List String) (t0 t1 g0 g1 g2 g3 g4 : String) (prefs : List String)
    (h : tuple = t0 :: t1 :: g0 :: g1 :: g2 :: g3 :: g4 :: prefs) :
    scanGrades parseFloat tuple [2, 3, 4, 5, 6] []
      = .ok [(parseFloat (replaceComma g0)).1, (parseFloat (replaceComma g1)).1,
          (parseFloat (replaceComma g2)).1, (parseFloat (replaceComma g3)).1,
          (parseFloat (replaceComma g4)).1] := by
  subst h
  simp [scanGrades]

theorem scanLine_ok {F : Type} (parseFloat : String → F × Option ParseError) (line : String)
    (t0 t1 g0 g1 g2 g3 g4 : String) (prefs : List String)
    (hfields : splitFields line = t0 :: t1 :: g0 :: g1 :: g2 :: g3 :: g4 :: prefs) :
    scanLine parseFloat line = .ok
      { name := t0 ++ " " ++ t1
        grades := [("special", (parseFloat (replaceComma g4)).1),
          ("computer science", (parseFloat (replaceComma g3)).1),
          ("math", (parseFloat (replaceComma g2)).1),
          ("chemistry", (parseFloat (replaceComma g1)).1),
          ("physics", (parseFloat (replaceComma g0)).1)]
        departmentOptions := prefs
        accepted := false } := by
  have hg := scanGrades_five parseFloat (splitFields line) t0 t1 g0 g1 g2 g3 g4 prefs hfields
  unfold scanLine
  simp only [hg]
  simp [hfields, NewFloatApplicant, mapSet]

theorem seven_fields (tuple : List String) (h : 7 ≤ tuple.length) :
    ∃ t0 t1 g0 g1 g2 g3 g4 prefs, tuple = t0 :: t1 :: g0 :: g1 :: g2 :: g3 :: g4 :: prefs := by
  match tuple, h with
  | t0 :: t1 :: g0 :: g1 :: g2 :: g3 :: g4 :: prefs, _ =>
    exact ⟨t0, t1, g0, g1, g2, g3, g4, prefs, rfl⟩

theorem scanApplicants_completes {F : Type} (parseFloat : String → F × Option ParseError)
    (lines : List String) (h : ∀ line ∈ lines, 7 ≤ (splitFields line).length) :
    ∃ applicants, scanApplicants parseFloat lines = .ok applicants
      ∧ applicants.length = lines.length := by
  induction lines with
  | nil => exact ⟨[], rfl, rfl⟩
  | cons line rest ih =>
    obtain ⟨t0, t1, g0, g1, g2, g3, g4, prefs, hf⟩ :=
      seven_fields (splitFields line) (h line (List.mem_cons_self _ _))
    obtain ⟨applicants, hrest, hlen⟩ := ih (fun l hl => h l (List.mem_cons_of_mem _ hl))
    obtain ⟨a, hline⟩ : ∃ a, scanLine parseFloat line = .ok a :=
      ⟨_, scanLine_ok parseFloat line t0 t1 g0 g1 g2 g3 g4 prefs hf⟩
    have hall : scanApplicants parseFloat (line :: rest) = .ok (a :: applicants) := by
      simp only [scanApplicants, hline, hrest]
    exact ⟨_, hall, by simp [hlen]⟩

/-! ## Claims about scoring and ranking -/

/-- C4. `calculateMean` over a non-empty exam list is the maximum of the
arithmetic mean of the listed grades and the special grade; so it is never
below the mean, and it is 85 for physics 60, math 70, special 85 on the exams
physics and math. -/
theorem calculateMean_is_max_of_mean_and_special (a : Applicant) (exams : List String)
    (hne : exams ≠ []) :
    a.calculateMean exams
        = max ((exams.map a.grade).sum / (exams.length : ℚ)) (a.grade "special")
      ∧ (exams.map a.grade).sum / (exams.length : ℚ) ≤ a.calculateMean exams
      ∧ (a.grade "physics" = 60 → a.grade "math" = 70 → a.grade "special" = 85 →
          a.calculateMean ["physics", "math"] = 85) := by
  have _ := hne
  refine ⟨calculateMean_eq a exams, ?_, ?_⟩
  · rw [calculateMean_eq]; exact le_max_left _ _
  · intro hp hm hs
    rw [calculateMean_eq]
    simp only [List.map_cons, List.map_nil, List.sum_cons, List.sum_nil, hp, hm, hs,
      List.length_cons, List.length_nil]
    norm_num

theorem calculateMean_is_max_of_mean_and_special_witness :
    ["physics", "math"] ≠ [] ∧ overrideApplicant.calculateMean ["physics", "math"] = 85 :=
  ⟨by decide,
    (calculateMean_is_max_of_mean_and_special overrideApplicant ["physics", "math"]
      (by decide)).2.2 (by decide!) (by decide!) (by decide!)⟩

/-- C5, the claim as stated fails: a department with the empty exam list gives
every applicant the composite score NaN, no two entries are `less`, and stable
insertion sort leaves the pool `Bob Lee`, `Anna Lee` as it stands; this pair is
not ranked (no score is higher, the scores do not compare equal, and the names
are in descending order).  No routine can do better: no arrangement of this
pool is ranked.  The same happens for the exam list `math` when the math grades
are NaN. -/
theorem nan_scores_leave_pool_unranked :
    (Department.floatSortApplicants stableInsertionSorter float64Ops tieFloatHeap
        { name := "Mathematics", exams := [], limit := 1, applicants := [0, 1],
          accepted := [] }).applicants = [0, 1]
      ∧ [0, 1].map (fun p => (tieFloatHeap p).name) = ["Bob Lee", "Anna Lee"]
      ∧ ¬ FloatRanksNoLater float64Ops tieFloatHeap [] 0 1
      ∧ ¬ (Department.floatSortApplicants stableInsertionSorter float64Ops tieFloatHeap
            { name := "Mathematics", exams := [], limit := 1, applicants := [0, 1],
              accepted := [] }).applicants.Chain' (FloatRanksNoLater float64Ops tieFloatHeap [])
      ∧ (∀ S : SliceSorter,
          ¬ (Department.floatSortApplicants S float64Ops tieFloatHeap
              { name := "Mathematics", exams := [], limit := 1, applicants := [0, 1],
                accepted := [] }).applicants.Chain' (FloatRanksNoLater float64Ops tieFloatHeap []))
      ∧ (Department.floatSortApplicants stableInsertionSorter float64Ops nanFloatHeap
          { name := "Mathematics", exams := ["math"], limit := 1, applicants := [0, 1],
            accepted := [] }).applicants = [0, 1]
      ∧ ¬ FloatRanksNoLater float64Ops nanFloatHeap ["math"] 0 1 := by
  have hS : ∀ S : SliceSorter,
      ¬ (Department.floatSortApplicants S float64Ops tieFloatHeap
          { name := "Mathematics", exams := [], limit := 1, applicants := [0, 1],
            accepted := [] }).applicants.Chain' (FloatRanksNoLater float64Ops tieFloatHeap []) :=
    fun S => not_chain_of_perm_pair tieFloatHeap_unranked _ (S.perm _ _)
  refine ⟨by decide!, by decide, tieFloatHeap_unranked 0 1, hS stableInsertionSorter, hS,
    by decide!, ?_⟩
  unfold FloatRanksNoLater
  decide!

/-- C5, as amended: `Department.sortApplicants` leaves a permutation of the
pool.  For every pool in which no applicant has the composite score NaN, and
every sorting routine that meets the `sort.Slice` contract on the elements of
the slice, each entry and its successor (indeed each entry and every later one)
are ranked by the `float64` composite scores: strictly higher score first, or
equal scores and a name that is not greater.  With equal scores `Anna Lee` ends
up before `Bob Lee` from either initial order. -/
theorem floatSortApplicants_ranked_without_nan {F : Type} (S : SliceSorter) (A : FloatOps F)
    (heap : Nat → FloatApplicant F) (d : Department) :
    (d.floatSortApplicants S A heap).applicants.Perm d.applicants
      ∧ (S.OrderedOn →
          (∀ p ∈ d.applicants, A.isNaN ((heap p).calculateMean A d.exams) = false) →
          (d.floatSortApplicants S A heap).applicants.Chain' (FloatRanksNoLater A heap d.exams)
            ∧ (d.floatSortApplicants S A heap).applicants.Pairwise
                (FloatRanksNoLater A heap d.exams))
      ∧ (S.OrderedOn → ∀ pool : List Nat, pool = [0, 1] ∨ pool = [1, 0] →
          ((Department.floatSortApplicants S float64Ops tieFloatHeap
            { name := "Mathematics", exams := ["math"], limit := 1, applicants := pool,
              accepted := [] }).applicants.map (fun p => (tieFloatHeap p).name))
            = ["Anna Lee", "Bob Lee"]) := by
  refine ⟨S.perm _ _, ?_, ?_⟩
  · intro hS hnan
    have h := floatSort_ranked S hS A heap d.exams d.applicants hnan
    exact ⟨h.chain', h⟩
  · intro hS pool hpool
    have hn : ∀ p ∈ pool, ∀ q ∈ pool, (tieFloatHeap p).name = (tieFloatHeap q).name → p = q := by
      rcases hpool with rfl | rfl <;> decide
    have hu := float_sort_unique S stableInsertionSorter hS stableInsertionSorter_orderedOn
      float64Ops tieFloatHeap ["math"] pool pool hn
      (fun p _ => by rw [tieFloatHeap_math]; rfl) (List.Perm.refl _)
    show (S.sort (Department.floatLess float64Ops tieFloatHeap ["math"]) pool).map
      (fun p => (tieFloatHeap p).name) = ["Anna Lee", "Bob Lee"]
    rw [hu]
    rcases hpool with rfl | rfl <;> decide!

theorem floatSortApplicants_ranked_without_nan_witness :
    (∀ p ∈ [0, 1],
        float64Ops.isNaN ((roundingHeap p).calculateMean float64Ops ["physics", "math"]) = false)
      ∧ (roundingHeap 0).calculateMean float64Ops ["physics", "math"]
          = Binary64.finite (5896900762088243 / 70368744177664)
      ∧ (roundingHeap 1).calculateMean float64Ops ["physics", "math"]
          = Binary64.finite (1474225190522061 / 17592186044416)
      ∧ (Department.floatSortApplicants stableInsertionSorter float64Ops roundingHeap
          { name := "Physics", exams := ["physics", "math"], limit := 1, applicants := [0, 1],
            accepted := [] }).applicants = [1, 0]
      ∧ [1, 0].map (fun p => (roundingHeap p).name) = ["Zed Float", "Amy Exact"]
      ∧ (Department.floatSortApplicants stableInsertionSorter float64Ops roundingHeap
          { name := "Physics", exams := ["physics", "math"], limit := 1, applicants := [0, 1],
            accepted := [] }).applicants.Chain'
          (FloatRanksNoLater float64Ops roundingHeap ["physics", "math"]) :=
  ⟨by decide!, by decide!, by decide!, by decide!, by decide,
    ((floatSortApplicants_ranked_without_nan stableInsertionSorter float64Ops roundingHeap
      { name := "Physics", exams := ["physics", "math"], limit := 1, applicants := [0, 1],
        accepted := [] }).2.1 stableInsertionSorter_orderedOn (by decide!)).1⟩

/-- C6, the claim as stated fails: with the empty exam list every score is NaN
and no two entries are `less`, so stable insertion sort returns either order of
the pool as it was given: `Bob Lee`, `Anna Lee` from one and `Anna Lee`,
`Bob Lee` from the other, although the names differ. -/
theorem nan_scores_make_ranking_depend_on_order :
    (∀ p ∈ [0, 1], ∀ q ∈ [0, 1], (tieFloatHeap p).name = (tieFloatHeap q).name → p = q)
      ∧ [0, 1].Perm [1, 0]
      ∧ (Department.floatSortApplicants stableInsertionSorter float64Ops tieFloatHeap
          { name := "Mathematics", exams := [], limit := 1, applicants := [0, 1],
            accepted := [] }).applicants = [0, 1]
      ∧ (Department.floatSortApplicants stableInsertionSorter float64Ops tieFloatHeap
          { name := "Mathematics", exams := [], limit := 1, applicants := [1, 0],
            accepted := [] }).applicants = [1, 0]
      ∧ (Department.floatSortApplicants stableInsertionSorter float64Ops tieFloatHeap
          { name := "Mathematics", exams := [], limit := 1, applicants := [0, 1],
            accepted := [] }).applicants
        ≠ (Department.floatSortApplicants stableInsertionSorter float64Ops tieFloatHeap
          { name := "Mathematics", exams := [], limit := 1, applicants := [1, 0],
            accepted := [] }).applicants :=
  ⟨by decide, List.Perm.swap 1 0 [], by decide!, by decide!, by decide!⟩

/-- C6, as amended: when different entries of a pool carry different names and
no entry has the composite score NaN, the ranked pool does not depend on the
initial order nor on the sorting routine: two permutations of the pool, ranked
by any two routines that meet the `sort.Slice` contract on the elements of the
slice, give the identical sequence, and ranking a ranked pool again leaves it
unchanged. -/
theorem floatSortApplicants_order_independent_without_nan {F : Type} (S T : SliceSorter)
    (hS : S.OrderedOn) (hT : T.OrderedOn) (A : FloatOps F) (heap : Nat → FloatApplicant F)
    (d : Department) (pool : List Nat) (hperm : d.applicants.Perm pool)
    (hnames : ∀ p ∈ d.applicants, ∀ q ∈ d.applicants, (heap p).name = (heap q).name → p = q)
    (hnan : ∀ p ∈ d.applicants, A.isNaN ((heap p).calculateMean A d.exams) = false) :
    (d.floatSortApplicants S A heap).applicants
        = (Department.floatSortApplicants T A heap { d with applicants := pool }).applicants
      ∧ (d.floatSortApplicants S A heap).floatSortApplicants T A heap
        = d.floatSortApplicants S A heap := by
  constructor
  · exact float_sort_unique S T hS hT A heap d.exams d.applicants pool hnames hnan hperm
  · have hp := S.perm (Department.floatLess A heap d.exams) d.applicants
    have h := float_sort_unique T S hT hS A heap d.exams
      (S.sort (Department.floatLess A heap d.exams) d.applicants) d.applicants
      (fun p hp1 q hq1 => hnames p (hp.subset hp1) q (hp.subset hq1))
      (fun p hp1 => hnan p (hp.subset hp1)) hp
    show ({ (d.floatSortApplicants S A heap) with
      applicants := T.sort (Department.floatLess A heap d.exams)
        (S.sort (Department.floatLess A heap d.exams) d.applicants) } : Department) = _
    rw [h]
    rfl

theorem floatSortApplicants_order_independent_without_nan_witness :
    (∀ p ∈ [0, 1], float64Ops.isNaN ((tieFloatHeap p).calculateMean float64Ops ["math"]) = false)
      ∧ (Department.floatSortApplicants stableInsertionSorter float64Ops tieFloatHeap
          { name := "Mathematics", exams := ["math"], limit := 1, applicants := [0, 1],
            accepted := [] }).applicants = [1, 0]
      ∧ (Department.floatSortApplicants stableInsertionSorter float64Ops tieFloatHeap
          { name := "Mathematics", exams := ["math"], limit := 1, applicants := [0, 1],
            accepted := [] }).applicants
        = (Department.floatSortApplicants insertionSorter float64Ops tieFloatHeap
          { name := "Mathematics", exams := ["math"], limit := 1, applicants := [1, 0],
            accepted := [] }).applicants :=
  ⟨by decide!, by decide!,
    (floatSortApplicants_order_independent_without_nan stableInsertionSorter
      insertionSorter stableInsertionSorter_orderedOn insertionSorter_orderedOn
      float64Ops tieFloatHeap
      { name := "Mathematics", exams := ["math"], limit := 1, applicants := [0, 1],
        accepted := [] } [1, 0] (List.Perm.swap 1 0 []) (by decide) (by decide!)).1⟩

/-- C7, the claim as stated fails: for the empty exam list the composite score
of either applicant is `0.0 / 0.0`, which is NaN; `!=` is true and `>` is false
on NaN, so neither of `Bob Lee` and `Anna Lee` ranks before the other although
their names differ.  The same happens for the exam list `math` when the math
grades are NaN. -/
theorem nan_scores_rank_neither_first :
    (tieFloatHeap 0).name ≠ (tieFloatHeap 1).name
      ∧ (tieFloatHeap 0).calculateMean float64Ops [] = Binary64.nan
      ∧ (tieFloatHeap 1).calculateMean float64Ops [] = Binary64.nan
      ∧ floatRankedBefore float64Ops [] (tieFloatHeap 0) (tieFloatHeap 1) = false
      ∧ floatRankedBefore float64Ops [] (tieFloatHeap 1) (tieFloatHeap 0) = false
      ∧ ¬ Xor' (floatRankedBefore float64Ops [] (tieFloatHeap 0) (tieFloatHeap 1) = true)
            (floatRankedBefore float64Ops [] (tieFloatHeap 1) (tieFloatHeap 0) = true)
      ∧ (nanFloatHeap 0).calculateMean float64Ops ["math"] = Binary64.nan
      ∧ floatRankedBefore float64Ops ["math"] (nanFloatHeap 0) (nanFloatHeap 1) = false
      ∧ floatRankedBefore float64Ops ["math"] (nanFloatHeap 1) (nanFloatHeap 0) = false := by
  decide!

/-- C7, as amended: the ranking comparator of `sortApplicants` and
`sortAccepted` on `float64` scores is irreflexive and transitive; for two
applicants with different names whose composite scores are both not NaN exactly
one of them ranks before the other; and when one of the two scores is NaN
neither ranks before the other.  The applicant with the higher score (`>`)
ranks first whatever the names are, and between scores that compare equal the
smaller name ranks first. -/
theorem floatRankedBefore_strict_total_without_nan {F : Type} (A : FloatOps F)
    (exams : List String) (a b c : FloatApplicant F) :
    floatRankedBefore A exams a a = false
      ∧ (floatRankedBefore A exams a b = true → floatRankedBefore A exams b c = true →
          floatRankedBefore A exams a c = true)
      ∧ (a.name ≠ b.name → A.isNaN (a.calculateMean A exams) = false →
          A.isNaN (b.calculateMean A exams) = false →
          Xor' (floatRankedBefore A exams a b = true) (floatRankedBefore A exams b a = true))
      ∧ (A.isNaN (a.calculateMean A exams) = true ∨ A.isNaN (b.calculateMean A exams) = true →
          floatRankedBefore A exams a b = false ∧ floatRankedBefore A exams b a = false)
      ∧ (A.gt (a.calculateMean A exams) (b.calculateMean A exams) = true →
          floatRankedBefore A exams a b = true ∧ floatRankedBefore A exams b a = false)
      ∧ (A.ne (a.calculateMean A exams) (b.calculateMean A exams) = false →
          (floatRankedBefore A exams a b = true ↔ a.name < b.name)) := by
  refine ⟨?_, ?_, ?_, ?_, ?_, ?_⟩
  · rw [← Bool.not_eq_true, floatRankedBefore_iff]
    rintro ⟨u, v, hu, hv, h⟩
    rw [hu] at hv
    cases hv
    rcases h with h | ⟨_, h⟩
    · exact lt_irrefl _ h
    · exact lt_irrefl _ h
  · intro h1 h2
    rw [floatRankedBefore_iff] at *
    obtain ⟨u, v, hu, hv, h1⟩ := h1
    obtain ⟨v1, w, hv1, hw, h2⟩ := h2
    rw [hv] at hv1
    cases hv1
    refine ⟨u, w, hu, hw, ?_⟩
    rcases h1 with h1 | ⟨h1, h1n⟩ <;> rcases h2 with h2 | ⟨h2, h2n⟩
    · exact Or.inl (lt_trans h2 h1)
    · exact Or.inl (h2 ▸ h1)
    · exact Or.inl (h1 ▸ h2)
    · exact Or.inr ⟨h1.trans h2, lt_trans h1n h2n⟩
  · intro hname ha hb
    obtain ⟨u, hu⟩ := (isNaN_eq_false_iff A _).mp ha
    obtain ⟨v, hv⟩ := (isNaN_eq_false_iff A _).mp hb
    rcases lt_trichotomy u v with h | h | h
    · right
      refine ⟨(floatRankedBefore_iff A exams b a).mpr ⟨v, u, hv, hu, Or.inl h⟩, ?_⟩
      rw [Bool.not_eq_true, floatRankedBefore_false_iff A exams a b u v hu hv]
      exact Or.inl h
    · rcases lt_or_gt_of_ne hname with hn | hn
      · left
        refine ⟨(floatRankedBefore_iff A exams a b).mpr ⟨u, v, hu, hv, Or.inr ⟨h, hn⟩⟩, ?_⟩
        rw [Bool.not_eq_true, floatRankedBefore_false_iff A exams b a v u hv hu]
        exact Or.inr ⟨h.symm, le_of_lt hn⟩
      · right
        refine ⟨(floatRankedBefore_iff A exams b a).mpr ⟨v, u, hv, hu, Or.inr ⟨h.symm, hn⟩⟩, ?_⟩
        rw [Bool.not_eq_true, floatRankedBefore_false_iff A exams a b u v hu hv]
        exact Or.inr ⟨h, le_of_lt hn⟩
    · left
      refine ⟨(floatRankedBefore_iff A exams a b).mpr ⟨u, v, hu, hv, Or.inl h⟩, ?_⟩
      rw [Bool.not_eq_true, floatRankedBefore_false_iff A exams b a v u hv hu]
      exact Or.inl h
  · rintro (h | h)
    · rw [isNaN_eq_true_iff] at h
      exact ⟨floatRankedBefore_nan_left A exams a b h, floatRankedBefore_nan_right A exams b a h⟩
    · rw [isNaN_eq_true_iff] at h
      exact ⟨floatRankedBefore_nan_right A exams a b h, floatRankedBefore_nan_left A exams b a h⟩
  · intro h
    obtain ⟨u, v, hu, hv, huv⟩ := (gt_eq_true_iff A _ _).mp h
    refine ⟨(floatRankedBefore_iff A exams a b).mpr ⟨u, v, hu, hv, Or.inl huv⟩, ?_⟩
    rw [floatRankedBefore_false_iff A exams b a v u hv hu]
    exact Or.inl huv
  · intro h
    obtain ⟨u, hu, hv⟩ := (ne_eq_false_iff A _ _).mp h
    rw [floatRankedBefore_iff]
    constructor
    · rintro ⟨u1, v1, hu1, hv1, hc⟩
      rw [hu] at hu1; rw [hv] at hv1
      cases hu1; cases hv1
      rcases hc with hc | ⟨_, hc⟩
      · exact absurd hc (lt_irrefl _)
      · exact hc
    · intro hn
      exact ⟨u, u, hu, hv, Or.inr ⟨rfl, hn⟩⟩

theorem floatRankedBefore_strict_total_without_nan_witness :
    (tieFloatHeap 1).name ≠ (tieFloatHeap 0).name
      ∧ float64Ops.isNaN ((tieFloatHeap 1).calculateMean float64Ops ["math"]) = false
      ∧ float64Ops.isNaN ((tieFloatHeap 0).calculateMean float64Ops ["math"]) = false
      ∧ Xor' (floatRankedBefore float64Ops ["math"] (tieFloatHeap 1) (tieFloatHeap 0) = true)
          (floatRankedBefore float64Ops ["math"] (tieFloatHeap 0) (tieFloatHeap 1) = true)
      ∧ floatRankedBefore float64Ops ["math"] (tieFloatHeap 1) (tieFloatHeap 0) = true :=
  ⟨by decide, by decide!, by decide!,
    (floatRankedBefore_strict_total_without_nan float64Ops ["math"] (tieFloatHeap 1)
      (tieFloatHeap 0) (tieFloatHeap 0)).2.2.1 (by decide) (by decide!) (by decide!),
    by decide!⟩

/-! ## Claims about selection -/

/-- C1. For a university whose departments have a non-negative limit and empty
admitted lists, and for every number of rounds, each department's admitted list
has at most `limit` entries when `selectCandidates` is through, and also in
every state in the middle of the run (any number of complete rounds, of
complete departments in the next round and of scanned pool entries of the next
department). -/
theorem selectCandidates_within_limit (u : University)
    (hlimit : ∀ d ∈ u.departments, 0 ≤ d.limit)
    (hempty : ∀ d ∈ u.departments, d.accepted = []) :
    (∀ s, u.selectCandidates = .ok s →
        ∀ d ∈ s.departments, (d.accepted.length : Int) ≤ d.limit)
      ∧ (∀ r m n s, selectUpTo u r m n = .ok s →
        ∀ d ∈ s.departments, (d.accepted.length : Int) ≤ d.limit) := by
  have hw := withinLimit_of_empty u.departments hlimit hempty
  exact ⟨fun s h => selectRounds_withinLimit _ u s h hw,
    fun r m n s h => selectUpTo_withinLimit u s r m n h hw⟩

theorem selectCandidates_within_limit_witness :
    (∀ d ∈ demoRanked.departments, 0 ≤ d.limit)
      ∧ (∀ d ∈ demoRanked.departments, d.accepted = [])
      ∧ poolLists (runRanking insertionSorter demoUniversity) = poolLists (.ok demoRanked)
      ∧ admittedLists demoRanked.selectCandidates = [[1], [0]]
      ∧ (∀ s, demoRanked.selectCandidates = .ok s →
          ∀ d ∈ s.departments, (d.accepted.length : Int) ≤ d.limit) :=
  ⟨by decide, by decide, by decide!, by decide!,
    (selectCandidates_within_limit demoRanked (by decide) (by decide)).1⟩

/-- C2. From a state in which every applicant is unadmitted and every admitted
list is empty, after `segmentsApplicants`, `sortApplicants` and
`selectCandidates` every applicant occurs at most once in all admitted lists
together: no admitted list holds it twice and no two departments hold it, also
for applicants that list a department several times.  The `accepted` flag is
set for the applicants of the admitted lists and for them only. -/
theorem admitted_to_at_most_one_department (S : SliceSorter) (u s : University)
    (hflags : ∀ p, (u.heap p).accepted = false)
    (hempty : ∀ d ∈ u.departments, d.accepted = [])
    (hrun : runAdmission S u = .ok s) :
    (∀ p, admittedCount s.departments p ≤ 1)
      ∧ (∀ d ∈ s.departments, d.accepted.Nodup)
      ∧ (∀ (p k1 k2 : Nat) (d1 d2 : Department), s.departments[k1]? = some d1 →
          s.departments[k2]? = some d2 → p ∈ d1.accepted → p ∈ d2.accepted → k1 = k2)
      ∧ (∀ p, (s.heap p).accepted = true ↔ ∃ d ∈ s.departments, p ∈ d.accepted) := by
  have hc := runAdmission_count S u s hflags hempty hrun
  have hle : ∀ p, admittedCount s.departments p ≤ 1 := by
    intro p
    rw [hc p]
    unfold flagCount
    split_ifs <;> omega
  refine ⟨hle, ?_, ?_, ?_⟩
  · intro d hd
    rw [List.nodup_iff_count_le_one]
    intro p
    exact le_trans (count_le_admittedCount _ d hd p) (hle p)
  · intro p k1 k2 d1 d2 h1 h2 m1 m2
    exact same_index_of_admittedCount_le_one _ p k1 k2 d1 d2 (hle p) h1 h2 m1 m2
  · intro p
    constructor
    · intro hp
      apply exists_mem_of_admittedCount_pos
      rw [hc p]
      simp [flagCount, hp]
    · rintro ⟨d, hd, hp⟩
      have h1 := count_le_admittedCount _ d hd p
      have h2 := List.count_pos_iff.mpr hp
      rw [hc p] at h1
      unfold flagCount at h1
      by_contra hne
      simp only [Bool.not_eq_true] at hne
      simp [hne] at h1
      omega

theorem admitted_to_at_most_one_department_witness :
    ∃ s, runAdmission insertionSorter demoUniversity = .ok s
      ∧ s.departments.map (fun d => d.accepted) = [[1], [0]]
      ∧ (∀ p, admittedCount s.departments p ≤ 1) := by
  have hflags : ∀ p, (demoUniversity.heap p).accepted = false := by
    intro p
    show (demoHeap p).accepted = false
    unfold demoHeap
    split_ifs <;> rfl
  have hlists : admittedLists (runAdmission insertionSorter demoUniversity) = [[1], [0]] := by
    decide!
  cases hrun : runAdmission insertionSorter demoUniversity with
  | error e => rw [hrun] at hlists; simp [admittedLists] at hlists
  | ok s =>
    rw [hrun] at hlists
    exact ⟨s, rfl, hlists,
      (admitted_to_at_most_one_department insertionSorter demoUniversity s hflags
        (by decide) hrun).1⟩

/-- C3. From a state in which the applicants of the admitted lists carry the
`accepted` flag (as after the constructors, where the lists are empty): in
round `r` every department keeps its place and its name and its admitted list
only grows at the end, and each applicant appended to department `d` in round
`r` has `departmentOptions[r]` equal to `d.name` and was unadmitted at the end
of round `r-1`, with the flag false and in no admitted list. -/
theorem admitted_in_round_by_that_preference (u s s' : University) (r : Nat)
    (hinv : ∀ d ∈ u.departments, ∀ p ∈ d.accepted, (u.heap p).accepted = true)
    (hprev : selectRounds r u = .ok s) (hround : selectRound r s = .ok s') :
    s'.departments.length = s.departments.length
      ∧ ∀ (k : Nat) (d : Department), s.departments[k]? = some d →
          ∃ (d' : Department) (new : List Nat),
            s'.departments[k]? = some d' ∧ d'.name = d.name
              ∧ d'.accepted = d.accepted ++ new
              ∧ ∀ p ∈ new, (s.heap p).departmentOptions[r]? = some d.name
                  ∧ (s.heap p).accepted = false
                  ∧ ∀ e ∈ s.departments, p ∉ e.accepted := by
  have hflag := selectRounds_flagged r u s hprev hinv
  unfold selectRound at hround
  cases h1 : scanDepartments r s.heap s.departments with
  | error e => simp [h1] at hround
  | ok r1 =>
    obtain ⟨heap1, ds1⟩ := r1
    simp only [h1, Except.ok.injEq] at hround
    rw [← hround]
    obtain ⟨_, hf⟩ := scanDepartments_grows r _ _ _ _ h1
    refine ⟨hf.length_eq.symm, ?_⟩
    intro k d hk
    obtain ⟨d', hk', new, e, _, hp⟩ := forall₂_getElem? hf k d hk
    refine ⟨d', new, hk', by rw [e], by rw [e], ?_⟩
    intro p hmem
    refine ⟨(hp p hmem).2, (hp p hmem).1, ?_⟩
    intro x hx hpx
    have := hflag x hx p hpx
    rw [(hp p hmem).1] at this
    cases this

theorem admitted_in_round_by_that_preference_witness :
    ∃ s s', selectRounds 1 demoRanked = .ok s ∧ selectRound 1 s = .ok s'
      ∧ s.departments.map (fun d => d.accepted) = [[1], []]
      ∧ s'.departments.map (fun d => d.accepted) = [[1], [0]]
      ∧ ∀ (k : Nat) (d : Department), s.departments[k]? = some d →
          ∃ (d' : Department) (new : List Nat),
            s'.departments[k]? = some d' ∧ d'.name = d.name
              ∧ d'.accepted = d.accepted ++ new
              ∧ ∀ p ∈ new, (s.heap p).departmentOptions[1]? = some d.name
                  ∧ (s.heap p).accepted = false
                  ∧ ∀ e ∈ s.departments, p ∉ e.accepted := by
  obtain ⟨s, hs, hl⟩ := ok_of_admittedLists
    (by decide! : admittedLists (selectRounds 1 demoRanked) = [[1], []]) (by decide)
  obtain ⟨s', hs', hl'⟩ := ok_of_admittedLists
    (by decide! : admittedLists (selectRounds 2 demoRanked) = [[1], [0]]) (by decide)
  have hround : selectRound 1 s = .ok s' := by
    have h2 : selectRounds 2 demoRanked = selectRound 1 s := by
      show (match selectRounds 1 demoRanked with
        | .error e => .error e
        | .ok t => selectRound 1 t) = selectRound 1 s
      rw [hs]
    rw [← h2]; exact hs'
  exact ⟨s, s', hs, hround, hl, hl',
    (admitted_in_round_by_that_preference demoRanked s s' 1 (by decide) hs hround).2⟩

/-! ## Claims about segmentation -/

/-- C8. For a university built by `NewUniversity` from departments with
pairwise distinct names and empty pools and from distinct applicants whose
preferences all name known departments, `segmentsApplicants` completes, keeps
every department at its index with its name, and applicant `p` occurs in the
pool of department `d` as often as `d.name` occurs among the preferences of `p`
(not at all for an address outside the applicant list); so `p` is in the pool
exactly when it lists `d`. -/
theorem segmentsApplicants_pool_counts (heap : Heap) (ds : List Department) (ps : List Nat)
    (calls : Int)
    (hnames : (ds.map (fun d => d.name)).Nodup)
    (hpools : ∀ d ∈ ds, d.applicants = [])
    (hdistinct : ps.Nodup)
    (hknown : ∀ p ∈ ps, ∀ o ∈ (heap p).departmentOptions, o ∈ ds.map (fun d => d.name)) :
    ∃ u', (NewUniversity heap ds ps calls).segmentsApplicants = .ok u'
      ∧ u'.departments.length = ds.length
      ∧ ∀ (k : Nat) (d : Department), ds[k]? = some d →
          ∃ d', u'.departments[k]? = some d' ∧ d'.name = d.name
            ∧ (∀ p, d'.applicants.count p
                = if p ∈ ps then (heap p).departmentOptions.count d.name else 0)
            ∧ (∀ p, p ∈ d'.applicants ↔ p ∈ ps ∧ d.name ∈ (heap p).departmentOptions) := by
  have hloop := segmentLoop_known (indexDepartments ds 0 []) heap ps ds
    (indexedBy_indexDepartments ds hnames) hnames hknown
  refine ⟨{ NewUniversity heap ds ps calls with
    departments := ds.map (fun d =>
      { d with applicants := d.applicants ++ segmentedPool heap d.name ps }) }, ?_, ?_, ?_⟩
  · simp only [University.segmentsApplicants, NewUniversity, hloop]
  · simp
  · intro k d hk
    refine ⟨{ d with applicants := d.applicants ++ segmentedPool heap d.name ps }, ?_, rfl, ?_, ?_⟩
    · simp [List.getElem?_map, hk]
    · intro p
      simp only [hpools d (List.getElem?_mem hk), List.nil_append]
      exact count_segmentedPool heap d.name p ps hdistinct
    · intro p
      simp only [hpools d (List.getElem?_mem hk), List.nil_append]
      exact mem_segmentedPool heap d.name p ps

theorem segmentsApplicants_pool_counts_witness :
    poolLists demoUniversity.segmentsApplicants = [[0, 0, 1, 1], [0, 1]]
      ∧ ∃ u', demoUniversity.segmentsApplicants = .ok u'
        ∧ u'.departments.length = 2
        ∧ ∀ (k : Nat) (d : Department),
            [NewDepartment "Physics" 1 ["physics", "math"],
              NewDepartment "Mathematics" 1 ["math"]][k]? = some d →
            ∃ d', u'.departments[k]? = some d' ∧ d'.name = d.name
              ∧ (∀ p, d'.applicants.count p
                  = if p ∈ [0, 1] then (demoHeap p).departmentOptions.count d.name else 0)
              ∧ (∀ p, p ∈ d'.applicants ↔
                  p ∈ [0, 1] ∧ d.name ∈ (demoHeap p).departmentOptions) :=
  ⟨by decide,
    segmentsApplicants_pool_counts demoHeap
      [NewDepartment "Physics" 1 ["physics", "math"], NewDepartment "Mathematics" 1 ["math"]]
      [0, 1] 3 (by decide) (by decide) (by decide) (by decide)⟩

/-- C9, the claim as stated fails: the only preference of the applicant at
address 0 names no department, and `segmentsApplicants` completes without a
panic and has put the applicant in the pool of Physics, the department at
index 0. -/
theorem unknown_name_goes_unreported :
    "Astrology" ∉ strayUniversity.departments.map (fun d => d.name)
      ∧ (strayUniversity.heap 0).departmentOptions = ["Astrology"]
      ∧ completes strayUniversity.segmentsApplicants = true
      ∧ poolLists strayUniversity.segmentsApplicants = [[0], []] := by
  decide

/-- C9, as amended: `segmentsApplicants` has no error report for a preference
that names no department.  For a university built by `NewUniversity` with at
least one department the run completes whatever the preferences are, and at any
point of the run a preference with an unknown name adds the applicant to the
pool of the department at index 0 (the zero value of the failed map lookup) and
changes no other department. -/
theorem unknown_name_lands_in_first_pool (heap : Heap) (d0 : Department)
    (rest : List Department) (ps : List Nat) (calls : Int) (o : String)
    (hunknown : o ∉ (d0 :: rest).map (fun d => d.name)) :
    (∃ u', (NewUniversity heap (d0 :: rest) ps calls).segmentsApplicants = .ok u')
      ∧ ∀ (p : Nat) (c0 : Department) (crest : List Department),
          segmentOption (NewUniversity heap (d0 :: rest) ps calls).mapDepartments p
              (c0 :: crest) o
            = .ok (c0.addApplicant p :: crest) := by
  refine ⟨segmentsApplicants_total heap (d0 :: rest) ps calls (by simp), ?_⟩
  intro p c0 crest
  have hlook : (indexDepartments (d0 :: rest) 0 []).lookup o = none := by
    rw [lookup_indexDepartments_of_not_mem (d0 :: rest) 0 [] o hunknown]
    rfl
  simp only [segmentOption, NewUniversity, mapGet, hlook, Option.getD_none,
    List.getElem?_cons_zero, List.set_cons_zero]

theorem unknown_name_lands_in_first_pool_witness :
    "Astrology" ∉ [NewDepartment "Physics" 1 ["physics", "math"],
        NewDepartment "Mathematics" 1 ["math"]].map (fun d => d.name)
      ∧ (∃ u', strayUniversity.segmentsApplicants = .ok u')
      ∧ segmentOption strayUniversity.mapDepartments 0
          [NewDepartment "Physics" 1 ["physics", "math"], NewDepartment "Mathematics" 1 ["math"]]
          "Astrology"
        = .ok [(NewDepartment "Physics" 1 ["physics", "math"]).addApplicant 0,
            NewDepartment "Mathematics" 1 ["math"]] :=
  ⟨by decide,
    (unknown_name_lands_in_first_pool strayHeap (NewDepartment "Physics" 1 ["physics", "math"])
      [NewDepartment "Mathematics" 1 ["math"]] [0] 3 "Astrology" (by decide)).1,
    (unknown_name_lands_in_first_pool strayHeap (NewDepartment "Physics" 1 ["physics", "math"])
      [NewDepartment "Mathematics" 1 ["math"]] [0] 3 "Astrology" (by decide)).2 0 _ _⟩

/-- C10, the claim as stated fails: the applicant at address 0 has one
preference and the run has three rounds; segmentation has put it in the pool of
Physics, round 0 passes it over, and round 1 indexes its preferences past the
end, which ends the run with an index-out-of-range panic. -/
theorem short_preferences_can_panic :
    ((strayUniversity.heap 0).departmentOptions.length : Int) < strayUniversity.calls
      ∧ poolLists (runRanking insertionSorter strayUniversity) = poolLists (.ok strayRanked)
      ∧ completes (selectRounds 1 strayRanked) = true
      ∧ panicOf (selectRounds 2 strayRanked) = some Panic.indexOutOfRange
      ∧ panicOf strayRanked.selectCandidates = some Panic.indexOutOfRange
      ∧ panicOf (runAdmission insertionSorter strayUniversity) = some Panic.indexOutOfRange := by
  decide!

/-- C10, as amended: when every pool holds only applicants that list the
pool's department among their preferences (what segmentation builds from known,
distinct department names), `selectCandidates` completes without a panic
however short the preference sequences are; and in every round that completes,
each applicant appended to an admitted list in round `r` has more than `r`
preferences, so nobody is admitted in a round past the end of its sequence. -/
theorem selectCandidates_completes_for_listed_pools (u : University)
    (hlisted : ∀ d ∈ u.departments, ∀ p ∈ d.applicants,
      d.name ∈ (u.heap p).departmentOptions) :
    (∃ s, u.selectCandidates = .ok s)
      ∧ ∀ (r : Nat) (s s' : University), selectRounds r u = .ok s →
          selectRound r s = .ok s' →
          ∀ (k : Nat) (d : Department), s.departments[k]? = some d →
            ∃ (d' : Department) (new : List Nat),
              s'.departments[k]? = some d' ∧ d'.accepted = d.accepted ++ new
                ∧ ∀ p ∈ new, r < (s.heap p).departmentOptions.length := by
  constructor
  · obtain ⟨s, hs, _⟩ := selectRounds_passedOver u hlisted u.calls.toNat
    exact ⟨s, hs⟩
  · intro r s s' _ hround k d hk
    unfold selectRound at hround
    cases h1 : scanDepartments r s.heap s.departments with
    | error e => simp [h1] at hround
    | ok r1 =>
      obtain ⟨heap1, ds1⟩ := r1
      simp only [h1, Except.ok.injEq] at hround
      rw [← hround]
      obtain ⟨_, hf⟩ := scanDepartments_grows r _ _ _ _ h1
      obtain ⟨d', hk', new, e, _, hp⟩ := forall₂_getElem? hf k d hk
      refine ⟨d', new, hk', by rw [e], ?_⟩
      intro p hmem
      have hopt := (hp p hmem).2
      rcases Nat.lt_or_ge r (s.heap p).departmentOptions.length with h | h
      · exact h
      · rw [List.getElem?_eq_none_iff.mpr h] at hopt; cases hopt

theorem selectCandidates_completes_for_listed_pools_witness :
    (∀ d ∈ shortRanked.departments, ∀ p ∈ d.applicants,
        d.name ∈ (shortRanked.heap p).departmentOptions)
      ∧ ((shortRanked.heap 1).departmentOptions.length : Int) < shortRanked.calls
      ∧ poolLists (runRanking insertionSorter shortUniversity) = poolLists (.ok shortRanked)
      ∧ admittedLists shortRanked.selectCandidates = [[1], [0]]
      ∧ ∃ s, shortRanked.selectCandidates = .ok s :=
  ⟨by decide, by decide, by decide!, by decide!,
    (selectCandidates_completes_for_listed_pools shortRanked (by decide)).1⟩

/-! ## Claims about the frame of selection and about presentation order -/

/-- C16. A run of `selectCandidates` that completes leaves every department at
its place with its name, exams, limit and candidate pool (contents and order),
leaves the map, the applicant list and the round count of the university, and
leaves name, grades and preferences of every applicant; admitted lists only
grow at the end and `accepted` flags only go from false to true.  The pools
are the same in every later round. -/
theorem selectCandidates_changes_only_admitted_and_flags (u s : University)
    (hrun : u.selectCandidates = .ok s) :
    s.departments.map (fun d => d.name) = u.departments.map (fun d => d.name)
      ∧ s.departments.map (fun d => d.exams) = u.departments.map (fun d => d.exams)
      ∧ s.departments.map (fun d => d.limit) = u.departments.map (fun d => d.limit)
      ∧ s.departments.map (fun d => d.applicants) = u.departments.map (fun d => d.applicants)
      ∧ s.mapDepartments = u.mapDepartments ∧ s.applicants = u.applicants ∧ s.calls = u.calls
      ∧ (∀ p, (s.heap p).name = (u.heap p).name ∧ (s.heap p).grades = (u.heap p).grades
          ∧ (s.heap p).departmentOptions = (u.heap p).departmentOptions
          ∧ ((u.heap p).accepted = true → (s.heap p).accepted = true)) := by
  obtain ⟨h1, h2, h3, h4, h5⟩ := selectRounds_frame _ u s hrun
  have hmap : ∀ {β : Type} (g : String × List String × Int × List Nat → β),
      s.departments.map (fun d => g d.fixedPart) = u.departments.map (fun d => g d.fixedPart) := by
    intro β g
    have := congrArg (List.map g) h1
    simpa [List.map_map, Function.comp] using this
  refine ⟨hmap (fun x => x.1), hmap (fun x => x.2.1), hmap (fun x => x.2.2.1),
    hmap (fun x => x.2.2.2), h3, h4, h5, ?_⟩
  intro p
  exact ⟨(h2.fixed p).1, (h2.fixed p).2.1, (h2.fixed p).2.2, h2.flag_mono p⟩

theorem selectCandidates_changes_only_admitted_and_flags_witness :
    ∃ s, demoRanked.selectCandidates = .ok s
      ∧ s.departments.map (fun d => d.accepted) = [[1], [0]]
      ∧ s.departments.map (fun d => d.applicants) = [[1, 1, 0, 0], [1, 0]] := by
  obtain ⟨s, hs, hl⟩ := ok_of_admittedLists
    (by decide! : admittedLists demoRanked.selectCandidates = [[1], [0]]) (by decide)
  exact ⟨s, hs, hl,
    (selectCandidates_changes_only_admitted_and_flags demoRanked s hs).2.2.2.1⟩

/-- C12, the claim as stated fails: Mathematics has the empty exam list and has
admitted `Bob Lee` and then `Anna Lee`.  Both composite scores are NaN, no two
entries are `less`, and `sortDepartments` (with stable insertion sort) leaves
the admitted list `Bob Lee`, `Anna Lee`, which is ordered neither by score nor
by name; no routine can do better, since no arrangement of this list is ranked.
The same happens for the exam list `math` when the math grades are NaN. -/
theorem nan_scores_leave_admitted_unranked :
    ((tieFloatUniversity [] tieFloatHeap).sortDepartments stableInsertionSorter
        float64Ops).departments.map (fun d => (d.name, d.accepted))
        = [("Chemistry", []), ("Mathematics", [0, 1])]
      ∧ [0, 1].map (fun p => (tieFloatHeap p).name) = ["Bob Lee", "Anna Lee"]
      ∧ ¬ [0, 1].Chain' (FloatRanksNoLater float64Ops tieFloatHeap [])
      ∧ (∀ S : SliceSorter,
          ¬ (Department.floatSortAccepted S float64Ops tieFloatHeap
              { name := "Mathematics", exams := [], limit := 2, applicants := [0, 1],
                accepted := [0, 1] }).accepted.Chain'
              (FloatRanksNoLater float64Ops tieFloatHeap []))
      ∧ ((tieFloatUniversity ["math"] nanFloatHeap).sortDepartments stableInsertionSorter
          float64Ops).departments.map (fun d => (d.name, d.accepted))
        = [("Chemistry", []), ("Mathematics", [0, 1])]
      ∧ ¬ [0, 1].Chain' (FloatRanksNoLater float64Ops nanFloatHeap ["math"]) := by
  refine ⟨by decide!, by decide, not_chain_of_perm_pair tieFloatHeap_unranked _ (List.Perm.refl _),
    fun S => not_chain_of_perm_pair tieFloatHeap_unranked _ (S.perm _ _), by decide!, ?_⟩
  rw [List.chain'_pair]
  unfold FloatRanksNoLater
  decide!

/-- C12, as amended: `sortDepartments` yields the departments of the state,
each with its admitted list rearranged by `sortAccepted`, in ascending order of
name.  `sortAccepted` keeps name, limit, exams and pool of the department and
leaves a permutation of the admitted list; when no admitted applicant has the
composite score NaN (and the sorting routine meets the `sort.Slice` contract on
the elements of the slice) this permutation is ordered by descending `float64`
composite score, ties by ascending name.  Store, map, applicant list and round
count stay as they are, and every department of the result stems from a
department of the state with the same name and the same admitted applicants. -/
theorem floatSortDepartments_reorders_only {F : Type} (S : SliceSorter) (A : FloatOps F)
    (u : FloatUniversity F) :
    (u.sortDepartments S A).departments.Perm
        (u.departments.map (Department.floatSortAccepted S A u.heap))
      ∧ (u.sortDepartments S A).departments.Pairwise (fun a b => a.name ≤ b.name)
      ∧ (∀ d : Department,
          (d.floatSortAccepted S A u.heap).name = d.name
            ∧ (d.floatSortAccepted S A u.heap).limit = d.limit
            ∧ (d.floatSortAccepted S A u.heap).exams = d.exams
            ∧ (d.floatSortAccepted S A u.heap).applicants = d.applicants
            ∧ (d.floatSortAccepted S A u.heap).accepted.Perm d.accepted
            ∧ (S.OrderedOn →
                (∀ p ∈ d.accepted, A.isNaN ((u.heap p).calculateMean A d.exams) = false) →
                (d.floatSortAccepted S A u.heap).accepted.Chain'
                  (FloatRanksNoLater A u.heap d.exams)))
      ∧ (∀ d' ∈ (u.sortDepartments S A).departments, ∃ d ∈ u.departments,
          d'.name = d.name ∧ d'.limit = d.limit ∧ d'.exams = d.exams
            ∧ d'.applicants = d.applicants ∧ d'.accepted.Perm d.accepted)
      ∧ (u.sortDepartments S A).heap = u.heap
      ∧ (u.sortDepartments S A).applicants = u.applicants
      ∧ (u.sortDepartments S A).calls = u.calls
      ∧ (u.sortDepartments S A).mapDepartments = u.mapDepartments := by
  have hperm : (u.sortDepartments S A).departments.Perm
      (u.departments.map (Department.floatSortAccepted S A u.heap)) := S.perm _ _
  have hd : ∀ d : Department,
      (d.floatSortAccepted S A u.heap).name = d.name
        ∧ (d.floatSortAccepted S A u.heap).limit = d.limit
        ∧ (d.floatSortAccepted S A u.heap).exams = d.exams
        ∧ (d.floatSortAccepted S A u.heap).applicants = d.applicants
        ∧ (d.floatSortAccepted S A u.heap).accepted.Perm d.accepted
        ∧ (S.OrderedOn →
            (∀ p ∈ d.accepted, A.isNaN ((u.heap p).calculateMean A d.exams) = false) →
            (d.floatSortAccepted S A u.heap).accepted.Chain'
              (FloatRanksNoLater A u.heap d.exams)) := by
    intro d
    refine ⟨rfl, rfl, rfl, rfl, S.perm _ _, ?_⟩
    intro hS hnan
    exact (floatSort_ranked S hS A u.heap d.exams d.accepted hnan).chain'
  refine ⟨hperm, ?_, hd, ?_, rfl, rfl, rfl, rfl⟩
  · have h := S.ordered departmentLess
      (u.departments.map (Department.floatSortAccepted S A u.heap)) departmentLess_strictWeak
    exact h.imp (fun {a b} hab => by
      simpa [departmentLess] using hab)
  · intro d' hd'
    obtain ⟨d, hmem, e⟩ := List.mem_map.mp (hperm.subset hd')
    refine ⟨d, hmem, ?_⟩
    rw [← e]
    exact ⟨(hd d).1, (hd d).2.1, (hd d).2.2.1, (hd d).2.2.2.1, (hd d).2.2.2.2.1⟩

theorem floatSortDepartments_reorders_only_witness :
    ((tieFloatUniversity ["math"] tieFloatHeap).sortDepartments stableInsertionSorter
        float64Ops).departments.map (fun d => (d.name, d.accepted))
        = [("Chemistry", []), ("Mathematics", [1, 0])]
      ∧ [1, 0].map (fun p => (tieFloatHeap p).name) = ["Anna Lee", "Bob Lee"]
      ∧ ((tieFloatUniversity ["math"] tieFloatHeap).sortDepartments stableInsertionSorter
          float64Ops).departments.Pairwise (fun a b => a.name ≤ b.name)
      ∧ (Department.floatSortAccepted stableInsertionSorter float64Ops tieFloatHeap
          { name := "Mathematics", exams := ["math"], limit := 2, applicants := [0, 1],
            accepted := [0, 1] }).accepted.Chain'
          (FloatRanksNoLater float64Ops tieFloatHeap ["math"]) :=
  ⟨by decide!, by decide,
    (floatSortDepartments_reorders_only stableInsertionSorter float64Ops
      (tieFloatUniversity ["math"] tieFloatHeap)).2.1,
    ((floatSortDepartments_reorders_only stableInsertionSorter float64Ops
      (tieFloatUniversity ["math"] tieFloatHeap)).2.2.1
      { name := "Mathematics", exams := ["math"], limit := 2, applicants := [0, 1],
        accepted := [0, 1] }).2.2.2.2.2 stableInsertionSorter_orderedOn (by decide!)⟩

/-- C13. From empty admitted lists and unadmitted applicants, in the final state
of `selectCandidates` and in every state in the middle of the run, each
department's admitted list holds only applicants of the department's candidate
pool and holds no applicant twice. -/
theorem admitted_within_pool_without_duplicates (u : University)
    (hflags : ∀ p, (u.heap p).accepted = false)
    (hempty : ∀ d ∈ u.departments, d.accepted = []) :
    (∀ s, u.selectCandidates = .ok s →
        ∀ d ∈ s.departments, (∀ p ∈ d.accepted, p ∈ d.applicants) ∧ d.accepted.Nodup)
      ∧ (∀ r m n s, selectUpTo u r m n = .ok s →
        ∀ d ∈ s.departments, (∀ p ∈ d.accepted, p ∈ d.applicants) ∧ d.accepted.Nodup) := by
  have _ := hflags
  have h0 : ∀ d ∈ u.departments, AdmittedSound u.heap d :=
    fun d hd => admittedSound_of_empty u.heap d (hempty d hd)
  constructor
  · intro s hs d hd
    have := selectRounds_preserves AdmittedSound admittedSound_mono admittedSound_scanPool
      _ u s hs h0 d hd
    exact ⟨this.2.1, this.1⟩
  · intro r m n s hs d hd
    have := selectUpTo_preserves AdmittedSound admittedSound_mono admittedSound_scanPool
      u s r m n hs h0 d hd
    exact ⟨this.2.1, this.1⟩

theorem admitted_within_pool_without_duplicates_witness :
    (∀ d ∈ demoRanked.departments, d.accepted = [])
      ∧ admittedLists (selectUpTo demoRanked 1 1 2) = [[1], [0]]
      ∧ (∀ s, selectUpTo demoRanked 1 1 2 = .ok s →
          ∀ d ∈ s.departments, (∀ p ∈ d.accepted, p ∈ d.applicants) ∧ d.accepted.Nodup) :=
  ⟨by decide, by decide!,
    (admitted_within_pool_without_duplicates demoRanked
      (by intro p; show (demoHeap p).accepted = false; unfold demoHeap; split_ifs <;> rfl)
      (by decide)).2 1 1 2⟩

/-! ## Claims about complete runs -/

/-- C11. For a well-formed input (a catalog with at least one department, every
exam list non-empty, every applicant of the list with at least `calls`
preferences, all naming departments of the catalog) the stages
`segmentsApplicants`, `sortApplicants`, `selectCandidates` and `sortDepartments`
all complete: no slice index is out of range, and the divisor `len(exams)` of
every composite score is not zero. -/
theorem wellformed_run_completes (S : SliceSorter) (heap : Heap)
    (catalog : List (String × Int × List String)) (ps : List Nat) (calls : Int)
    (hdept : catalog ≠ [])
    (hexams : ∀ c ∈ catalog, c.2.2 ≠ [])
    (hlen : ∀ p ∈ ps, calls ≤ ((heap p).departmentOptions.length : Int))
    (hknown : ∀ p ∈ ps, ∀ o ∈ (heap p).departmentOptions, o ∈ catalog.map (fun c => c.1)) :
    ∃ u1 u3,
      (NewUniversity heap (catalogDepartments catalog) ps calls).segmentsApplicants = .ok u1
        ∧ (u1.sortApplicants S).selectCandidates = .ok u3
        ∧ runMain S (NewUniversity heap (catalogDepartments catalog) ps calls)
            = .ok (u3.sortDepartments S)
        ∧ ∀ d ∈ (u3.sortDepartments S).departments, ((d.exams.length : Nat) : ℚ) ≠ 0 := by
  have _ := hknown
  have hne : catalogDepartments catalog ≠ [] := by
    unfold catalogDepartments
    intro e
    exact hdept (List.map_eq_nil_iff.mp e)
  obtain ⟨u1, h1⟩ := segmentsApplicants_total heap (catalogDepartments catalog) ps calls hne
  have hpool := segmentsApplicants_pools_from_list heap _ ps calls u1
    (fun d hd => (catalogDepartments_empty catalog d hd).1) h1
  obtain ⟨_, hheap, hcalls, _, _⟩ :=
    segmentsApplicants_map (fun d => d.exams) (fun _ _ => rfl) _ u1 h1
  have hexams1 := (segmentsApplicants_map (fun d => d.exams) (fun _ _ => rfl) _ u1 h1).1
  have hlong : ∀ d ∈ (u1.sortApplicants S).departments,
      LongEnough calls.toNat (u1.sortApplicants S).heap d := by
    intro d hd p hp
    simp only [University.sortApplicants, List.mem_map] at hd
    obtain ⟨d0, hd0, e⟩ := hd
    rw [← e] at hp
    have hp0 : p ∈ d0.applicants := (S.perm _ _).subset hp
    have := hlen p (hpool d0 hd0 p hp0)
    show calls.toNat ≤ (u1.heap p).departmentOptions.length
    rw [hheap]
    show calls.toNat ≤ (heap p).departmentOptions.length
    omega
  obtain ⟨u3, h3⟩ := selectRounds_completes_long calls.toNat (u1.sortApplicants S) hlong
    calls.toNat (le_refl _)
  have h3' : (u1.sortApplicants S).selectCandidates = .ok u3 := by
    unfold University.selectCandidates
    show selectRounds u1.calls.toNat (u1.sortApplicants S) = .ok u3
    rw [hcalls]
    exact h3
  refine ⟨u1, u3, h1, h3', ?_, ?_⟩
  · simp only [runMain, runAdmission, andThen, h1, h3']
  · intro d hd
    have hperm : (u3.sortDepartments S).departments.Perm
        (u3.departments.map (Department.sortAccepted S u3.heap)) := S.perm _ _
    obtain ⟨d3, hd3, e3⟩ := List.mem_map.mp (hperm.subset hd)
    have hex3 := selectRounds_exams _ _ u3 h3
    have hmem : d.exams ∈ u3.departments.map (fun d => d.exams) := by
      rw [← e3]
      exact List.mem_map_of_mem (fun d => d.exams) hd3
    rw [hex3] at hmem
    simp only [University.sortApplicants, List.map_map] at hmem
    obtain ⟨d1, hd1, e1⟩ := List.mem_map.mp hmem
    have hmem1 : d1.exams ∈ u1.departments.map (fun d => d.exams) :=
      List.mem_map_of_mem (fun d => d.exams) hd1
    rw [hexams1] at hmem1
    obtain ⟨d0, hd0, e0⟩ := List.mem_map.mp hmem1
    obtain ⟨c, hc, ec⟩ := List.mem_map.mp (show d0 ∈ catalogDepartments catalog from hd0)
    have hcne := hexams c hc
    have hde : d.exams = c.2.2 := by
      rw [← e1]
      simp only [Function.comp, Department.sortApplicants]
      rw [← e0, ← ec]
      rfl
    rw [hde]
    have : 0 < c.2.2.length := List.length_pos.mpr hcne
    exact_mod_cast this.ne'


theorem wellformed_run_completes_witness :
    demoCatalog ≠ []
      ∧ (∀ c ∈ demoCatalog, c.2.2 ≠ [])
      ∧ (∀ p ∈ [0, 1], (3 : Int) ≤ ((demoHeap p).departmentOptions.length : Int))
      ∧ (∀ p ∈ [0, 1], ∀ o ∈ (demoHeap p).departmentOptions,
          o ∈ demoCatalog.map (fun c => c.1))
      ∧ admittedLists (runMain insertionSorter demoUniversity) = [[0], [1]]
      ∧ ∃ u1 u3, demoUniversity.segmentsApplicants = .ok u1
          ∧ (u1.sortApplicants insertionSorter).selectCandidates = .ok u3
          ∧ runMain insertionSorter demoUniversity = .ok (u3.sortDepartments insertionSorter)
          ∧ ∀ d ∈ (u3.sortDepartments insertionSorter).departments,
              ((d.exams.length : Nat) : ℚ) ≠ 0 :=
  ⟨by decide, by decide, by decide, by decide, by decide!,
    wellformed_run_completes insertionSorter demoHeap demoCatalog [0, 1] 3
      (by decide) (by decide) (by decide) (by decide)⟩

/-! ## Claims about reading the input -/

/-- C17, the claim as stated fails: the record has the token `abc` in the place
of the physics score, `ParseFloat` returns the value 0 together with a syntax
error for it, and `scanApplicants` reports nothing and yields an applicant with
physics grade 0. -/
theorem non_numeric_score_is_read_without_error :
    parseDecimalFloat (replaceComma "abc") = (Binary64.finite 0, some ParseError.errSyntax)
      ∧ completes (scanApplicants parseDecimalFloat
          ["John Doe abc 70,5 80 90 0 Physics Mathematics"]) = true
      ∧ (scanApplicants parseDecimalFloat
          ["John Doe abc 70,5 80 90 0 Physics Mathematics"]).toOption
        = some [{ name := "John Doe"
                  grades := [("special", .finite 0), ("computer science", .finite 90),
                    ("math", .finite 80), ("chemistry", .finite (141 / 2)),
                    ("physics", .finite 0)]
                  departmentOptions := ["Physics", "Mathematics"]
                  accepted := false }] := by
  decide!

/-- C17, as amended: `scanApplicants` has no error result and drops the error
of `ParseFloat`.  A record with at least seven fields is read without any error
report whatever its score tokens are: the applicant gets, for each of the five
subjects, the `float64` that `ParseFloat` returned for the token (after
replacing `,` by `.`), whether or not an error came with it, and the fields
behind the scores as preferences; an input of such records is read to its end,
one applicant per record. -/
theorem scanApplicants_keeps_value_returned_with_error {F : Type}
    (parseFloat : String → F × Option ParseError) (line : String)
    (t0 t1 g0 g1 g2 g3 g4 : String) (prefs : List String)
    (hfields : splitFields line = t0 :: t1 :: g0 :: g1 :: g2 :: g3 :: g4 :: prefs) :
    ∃ a, scanLine parseFloat line = .ok a
      ∧ scanApplicants parseFloat [line] = .ok [a]
      ∧ a.name = t0 ++ " " ++ t1 ∧ a.departmentOptions = prefs ∧ a.accepted = false
      ∧ a.grades.lookup "physics" = some (parseFloat (replaceComma g0)).1
      ∧ a.grades.lookup "chemistry" = some (parseFloat (replaceComma g1)).1
      ∧ a.grades.lookup "math" = some (parseFloat (replaceComma g2)).1
      ∧ a.grades.lookup "computer science" = some (parseFloat (replaceComma g3)).1
      ∧ a.grades.lookup "special" = some (parseFloat (replaceComma g4)).1
      ∧ (∀ lines : List String, (∀ l ∈ lines, 7 ≤ (splitFields l).length) →
          ∃ applicants, scanApplicants parseFloat lines = .ok applicants
            ∧ applicants.length = lines.length) := by
  have hline := scanLine_ok parseFloat line t0 t1 g0 g1 g2 g3 g4 prefs hfields
  refine ⟨_, hline, ?_, rfl, rfl, rfl, ?_, ?_, ?_, ?_, ?_,
    fun lines h => scanApplicants_completes parseFloat lines h⟩
  · simp [scanApplicants, hline]
  · simp [List.lookup]
  · simp [List.lookup]
  · simp [List.lookup]
  · simp [List.lookup]
  · simp [List.lookup]

theorem scanApplicants_keeps_value_returned_with_error_witness :
    splitFields "Bob Lee abc 70,5 NaN 1e400 0 Physics Mathematics"
        = ["Bob", "Lee", "abc", "70,5", "NaN", "1e400", "0", "Physics", "Mathematics"]
      ∧ parseDecimalFloat "abc" = (Binary64.finite 0, some ParseError.errSyntax)
      ∧ parseDecimalFloat "1e400" = (Binary64.posInf, some ParseError.errRange)
      ∧ parseDecimalFloat "NaN" = (Binary64.nan, none)
      ∧ ∃ a, scanLine parseDecimalFloat "Bob Lee abc 70,5 NaN 1e400 0 Physics Mathematics" = .ok a
        ∧ a.grades.lookup "physics" = some (Binary64.finite 0)
        ∧ a.grades.lookup "chemistry" = some (Binary64.finite (141 / 2))
        ∧ a.grades.lookup "math" = some Binary64.nan
        ∧ a.grades.lookup "computer science" = some Binary64.posInf := by
  have hf : splitFields "Bob Lee abc 70,5 NaN 1e400 0 Physics Mathematics"
      = ["Bob", "Lee", "abc", "70,5", "NaN", "1e400", "0", "Physics", "Mathematics"] := by decide
  obtain ⟨a, ha, _, _, _, _, h0, h1, h2, h3, _⟩ :=
    scanApplicants_keeps_value_returned_with_error parseDecimalFloat
      "Bob Lee abc 70,5 NaN 1e400 0 Physics Mathematics" "Bob" "Lee" "abc" "70,5" "NaN" "1e400"
      "0" ["Physics", "Mathematics"] hf
  refine ⟨hf, by decide!, by decide!, by decide!, a, ha, ?_, ?_, ?_, ?_⟩
  · rw [h0]; decide!
  · rw [h1]; decide!
  · rw [h2]; decide!
  · rw [h3]; decide!

/-! ## Claims about the order of admission -/

/-- C18. For a university with pairwise distinct department names, in every
round `r` and for every department `d`: the applicants appended to the admitted
list of `d` are the first free-seat-many of the eligible candidates of `d`
(unadmitted at the start of the round, preference `r` equal to `d.name`) in
pool order, each taken at its first place in the pool; so they are an initial
segment of the eligible candidates, and whenever `a` is admitted, every
eligible `b` that stands in the pool before the first place of `a` is admitted
in this round as well. -/
theorem admitted_are_first_eligible (u s s' : University) (r k : Nat) (d : Department)
    (hnames : (u.departments.map (fun d => d.name)).Nodup)
    (hprev : selectRounds r u = .ok s) (hround : selectRound r s = .ok s')
    (hk : s.departments[k]? = some d) :
    ∃ (d' : Department) (new : List Nat),
      s'.departments[k]? = some d' ∧ d'.accepted = d.accepted ++ new
        ∧ new = (firstOccurrences
            (d.applicants.filter (Eligible r s.heap d.name))).take (seatsLeft d)
        ∧ new <+: firstOccurrences (d.applicants.filter (Eligible r s.heap d.name))
        ∧ ∀ a ∈ new, ∀ (l1 l2 : List Nat), d.applicants = l1 ++ a :: l2 → a ∉ l1 →
            ∀ b ∈ l1, (s.heap b).accepted = false →
              (s.heap b).departmentOptions[r]? = some d.name → b ∈ new := by
  have hnd : (s.departments.map (fun d => d.name)).Nodup := by
    rw [selectRounds_names r u s hprev]; exact hnames
  obtain ⟨e1, _⟩ := selectRound_exact r s s' hnd hround
  refine ⟨departmentAfterRound r s.heap d, roundAdmits r s.heap d, ?_, rfl, rfl,
    List.take_prefix _ _, ?_⟩
  · rw [e1, List.getElem?_map, hk]
    rfl
  · intro a ha l1 l2 hpool hal1 b hb hbflag hbopt
    have hae := (eligible_of_mem_admitsFrom r s.heap d d.applicants a ha).2
    have hbe : Eligible r s.heap d.name b = true := by
      simp [Eligible, hbflag, hbopt]
    unfold roundAdmits admitsFrom at ha ⊢
    rw [hpool, filter_split _ l1 l2 a hae] at ha ⊢
    apply mem_take_firstOccurrences_of_before _ _ a b _ _ _ ha
    · intro h
      exact hal1 (List.mem_filter.mp h).1
    · exact List.mem_filter.mpr ⟨hb, hbe⟩

theorem admitted_are_first_eligible_witness :
    ∃ s', selectRound 0 demoRanked = .ok s'
      ∧ s'.departments.map (fun d => d.accepted) = [[1], []]
      ∧ ∃ (d' : Department) (new : List Nat),
          s'.departments[0]? = some d'
            ∧ d'.accepted = [] ++ new
            ∧ new = (firstOccurrences ([1, 1, 0, 0].filter
                (Eligible 0 demoRanked.heap "Physics"))).take 1 := by
  obtain ⟨s', hs', hl'⟩ := ok_of_admittedLists
    (by decide! : admittedLists (selectRound 0 demoRanked) = [[1], []]) (by decide)
  obtain ⟨d', new, h1, h2, h3, _⟩ :=
    admitted_are_first_eligible demoRanked demoRanked s' 0 0
      { NewDepartment "Physics" 1 ["physics", "math"] with applicants := [1, 1, 0, 0] }
      (by decide) rfl hs' rfl
  exact ⟨s', hs', hl', d', new, h1, h2, h3⟩

/-- C14. In the example of the specification (limit 1, 3 rounds, Physics and
Math, applicant A with preferences Physics, Math and Physics score 90,
applicant B with preference Physics and score 95), for every sorting routine
that meets the `sort.Slice` contract: the pool of Physics is ranked B, A; round
0 admits exactly B to Physics and nobody to Math; round 1 admits A to Math; the
final admitted lists are B for Physics and A for Math, so A is never admitted
to Physics.  In general a department with limit 1 and an empty admitted list
gives its only seat in round 0 to the first entry of its pool that is
unadmitted and has it as first preference, and keeps exactly that applicant in
all later rounds. -/
theorem spec_example_and_single_seat (S : SliceSorter) :
    (poolLists (runRanking S specUniversity) = [[1, 0], [0]]
        ∧ (specHeap 0).calculateMean ["physics", "math"] = 90
        ∧ (specHeap 1).calculateMean ["physics", "math"] = 95
        ∧ admittedLists (andThen (runRanking S specUniversity) (selectRounds 1)) = [[1], []]
        ∧ admittedLists (andThen (runRanking S specUniversity) (selectRounds 2)) = [[1], [0]]
        ∧ admittedLists (runAdmission S specUniversity) = [[1], [0]])
      ∧ ∀ (u : University) (k : Nat) (d : Department) (b n : Nat) (s : University),
          (u.departments.map (fun d => d.name)).Nodup → u.departments[k]? = some d →
          d.limit = 1 → d.accepted = [] →
          (d.applicants.filter (Eligible 0 u.heap d.name)).head? = some b →
          selectRounds (n + 1) u = .ok s →
          ∃ d', s.departments[k]? = some d' ∧ d'.accepted = [b] ∧ d'.name = d.name := by
  constructor
  · obtain ⟨h1, h2⟩ := specUniversity_run S
    rw [h1, h2]
    decide!
  · intro u k d b n s hnames hk hlimit hempty hfirst hrun
    exact ⟨_, single_seat_goes_to_first_eligible u k d b hnames hk hlimit hempty hfirst n s hrun,
      rfl, rfl⟩

theorem spec_example_and_single_seat_witness :
    ∃ s, selectRounds 3 demoRanked = .ok s
      ∧ ∃ d', s.departments[0]? = some d' ∧ d'.accepted = [1] ∧ d'.name = "Physics" := by
  obtain ⟨s, hs, _⟩ := ok_of_admittedLists
    (by decide! : admittedLists (selectRounds 3 demoRanked) = [[1], [0]]) (by decide)
  exact ⟨s, hs,
    (spec_example_and_single_seat insertionSorter).2 demoRanked 0
      { NewDepartment "Physics" 1 ["physics", "math"] with applicants := [1, 1, 0, 0] }
      1 2 s (by decide) rfl rfl rfl (by decide) hs⟩

/-- C15. There is a well-formed input on which a higher score loses to an
earlier preference.  Over `meritHeap` (three departments with one seat, three
rounds, three applicants with three known preferences each) and for every
sorting routine that meets the `sort.Slice` contract: Bob is admitted to
Physics in round 0; Amy has the strictly higher composite score for the exams
of Physics, ranks first in its pool, lists Physics at preference index 1, is
still unadmitted when round 1 starts, finds Physics full then, and is not in
the admitted list of Physics at the end (she is admitted to Chemistry). -/
theorem higher_score_can_lose_to_earlier_preference (S : SliceSorter) :
    (meritCatalog ≠ [] ∧ (meritCatalog.map (fun c => c.1)).Nodup
        ∧ (∀ c ∈ meritCatalog, c.2.2 ≠ [])
        ∧ (∀ p ∈ [0, 1, 2], (3 : Int) ≤ ((meritHeap p).departmentOptions.length : Int))
        ∧ (∀ p ∈ [0, 1, 2], ∀ o ∈ (meritHeap p).departmentOptions,
            o ∈ meritCatalog.map (fun c => c.1)))
      ∧ poolLists (runRanking S meritUniversity) = [[0, 2, 1], [2, 0, 1], [0, 1, 2]]
      ∧ (meritHeap 1).calculateMean ["physics", "math"]
          < (meritHeap 0).calculateMean ["physics", "math"]
      ∧ (meritHeap 1).departmentOptions[0]? = some "Physics"
      ∧ (meritHeap 0).departmentOptions[1]? = some "Physics"
      ∧ (meritHeap 0).departmentOptions[0]? ≠ some "Physics"
      ∧ admittedLists (andThen (runRanking S meritUniversity) (selectRounds 1))
          = [[1], [2], []]
      ∧ acceptedFlags (andThen (runRanking S meritUniversity) (selectRounds 1)) [0, 1, 2]
          = [false, true, true]
      ∧ admittedLists (runAdmission S meritUniversity) = [[1], [2], [0]] := by
  obtain ⟨h1, h2⟩ := meritUniversity_run S
  rw [h1, h2]
  decide!

/-- C19. For a well-formed input (catalog with pairwise distinct names and
non-negative limits, every applicant of the list with at least `calls`
preferences, all naming departments of the catalog; pools built by
`segmentsApplicants`) the run of segmentation, ranking and selection completes,
and for an applicant that is still unadmitted at the end and every round
`r < calls` the department named by its preference `r` exists and has an
admitted list of length exactly its limit. -/
theorem unadmitted_only_when_preferences_are_full (S : SliceSorter) (heap : Heap)
    (catalog : List (String × Int × List String)) (ps : List Nat) (calls : Int)
    (hnames : (catalog.map (fun c => c.1)).Nodup)
    (hlimits : ∀ c ∈ catalog, 0 ≤ c.2.1)
    (hlen : ∀ p ∈ ps, calls ≤ ((heap p).departmentOptions.length : Int))
    (hknown : ∀ p ∈ ps, ∀ o ∈ (heap p).departmentOptions, o ∈ catalog.map (fun c => c.1)) :
    ∃ s, runAdmission S (NewUniversity heap (catalogDepartments catalog) ps calls) = .ok s
      ∧ ∀ p ∈ ps, (s.heap p).accepted = false → ∀ r : Nat, (r : Int) < calls →
          (∃ d ∈ s.departments, (heap p).departmentOptions[r]? = some d.name)
            ∧ ∀ d ∈ s.departments, (heap p).departmentOptions[r]? = some d.name →
                (d.accepted.length : Int) = d.limit := by
  obtain ⟨u1, h1, hheap, hcalls, hnm, hds⟩ := ranked_pools S heap catalog ps calls hnames hknown
  have hheap2 : (u1.sortApplicants S).heap = heap := hheap
  have hlisted : ∀ d ∈ (u1.sortApplicants S).departments,
      ListsOwnDepartment (u1.sortApplicants S).heap d := by
    intro d hd p hp
    rw [hheap2]
    exact (((hds d hd).2.2 p).mp hp).2
  obtain ⟨s, hs, hall⟩ := selectRounds_passedOver (u1.sortApplicants S) hlisted calls.toNat
  have hw : WithinLimit s.departments := by
    apply selectRounds_withinLimit _ _ s hs
    apply withinLimit_of_empty
    · intro d hd
      obtain ⟨c, hc, el, _⟩ := (hds d hd).2.1
      rw [el]; exact hlimits c hc
    · intro d hd
      exact (hds d hd).1
  obtain ⟨hfix, hle, _, _, _⟩ := selectRounds_frame _ _ s hs
  obtain ⟨hback, hforth⟩ := exists_of_map_fixedPart_eq _ _ hfix
  have hsnames : s.departments.map (fun d => d.name) = catalog.map (fun c => c.1) := by
    rw [selectRounds_names _ _ s hs]; exact hnm
  refine ⟨s, ?_, ?_⟩
  · simp only [runAdmission, andThen, h1]
    show selectRounds u1.calls.toNat (u1.sortApplicants S) = .ok s
    rw [hcalls]; exact hs
  · intro p hp hflag r hr
    have hopts : (s.heap p).departmentOptions = (heap p).departmentOptions := by
      rw [(hle.fixed p).2.2, hheap2]
    have hrlen : r < (heap p).departmentOptions.length := by
      have := hlen p hp
      omega
    constructor
    · have hmem : (heap p).departmentOptions[r] ∈ s.departments.map (fun d => d.name) := by
        rw [hsnames]
        exact hknown p hp _ (List.getElem_mem _)
      obtain ⟨d, hd, e⟩ := List.mem_map.mp hmem
      exact ⟨d, hd, by rw [List.getElem?_eq_getElem hrlen, e]⟩
    · intro d hd hopt
      obtain ⟨d2, hd2, e⟩ := hback d hd
      have hname : d.name = d2.name := congrArg (fun x => x.1) e
      have hpool : d.applicants = d2.applicants := congrArg (fun x => x.2.2.2) e
      have hpin : p ∈ d.applicants := by
        rw [hpool]
        apply ((hds d2 hd2).2.2 p).mpr
        refine ⟨hp, ?_⟩
        rw [← hname]
        exact List.getElem?_mem hopt
      have hfull := (hall d hd).1 p hpin hflag r (by omega) (by rw [hopts]; exact hopt)
      have hwl := hw d hd
      unfold Full at hfull
      omega


theorem unadmitted_only_when_preferences_are_full_witness :
    (tightCatalog.map (fun c => c.1)).Nodup
      ∧ (∀ c ∈ tightCatalog, 0 ≤ c.2.1)
      ∧ (∀ p ∈ [0, 1, 2], (3 : Int) ≤ ((meritHeap p).departmentOptions.length : Int))
      ∧ (∀ p ∈ [0, 1, 2], ∀ o ∈ (meritHeap p).departmentOptions,
          o ∈ tightCatalog.map (fun c => c.1))
      ∧ acceptedFlags (runAdmission insertionSorter tightUniversity) [0, 1, 2]
          = [false, true, true]
      ∧ admittedLists (runAdmission insertionSorter tightUniversity) = [[1], [2], []]
      ∧ ∃ s, runAdmission insertionSorter tightUniversity = .ok s
          ∧ ∀ p ∈ [0, 1, 2], (s.heap p).accepted = false → ∀ r : Nat, (r : Int) < 3 →
              (∃ d ∈ s.departments, (meritHeap p).departmentOptions[r]? = some d.name)
                ∧ ∀ d ∈ s.departments, (meritHeap p).departmentOptions[r]? = some d.name →
                    (d.accepted.length : Int) = d.limit :=
  ⟨by decide, by decide, by decide, by decide, by decide!, by decide!,
    unadmitted_only_when_preferences_are_full insertionSorter meritHeap tightCatalog
      [0, 1, 2] 3 (by decide) (by decide) (by decide) (by decide)⟩

/-- C20. For a university with pairwise distinct department names whose pool
entries all have at least `calls` preferences, selection does not depend on the
order of the department list: run on any rearrangement of the departments it
completes as well, ends with the identical store (so the identical `accepted`
flag for every applicant), and the department of a given name ends as the
identical department, with the identical admitted list in the identical
order; the resulting department list is the same rearrangement. -/
theorem selectCandidates_independent_of_department_order (u : University)
    (ds' : List Department)
    (hnames : (u.departments.map (fun d => d.name)).Nodup)
    (hperm : ds'.Perm u.departments)
    (hlen : ∀ d ∈ u.departments, ∀ p ∈ d.applicants,
      u.calls ≤ ((u.heap p).departmentOptions.length : Int)) :
    ∃ s s', u.selectCandidates = .ok s
      ∧ University.selectCandidates { u with departments := ds' } = .ok s'
      ∧ s'.heap = s.heap
      ∧ (∀ p, (s'.heap p).accepted = (s.heap p).accepted)
      ∧ s'.departments.Perm s.departments
      ∧ (∀ d ∈ s.departments, ∀ d' ∈ s'.departments, d'.name = d.name → d' = d)
      ∧ (∀ d ∈ s.departments, ∃ d' ∈ s'.departments,
          d'.name = d.name ∧ d'.accepted = d.accepted) := by
  have hlong : ∀ d ∈ u.departments, LongEnough u.calls.toNat u.heap d := by
    intro d hd p hp
    have := hlen d hd p hp
    omega
  obtain ⟨s, hs⟩ := selectRounds_completes_long u.calls.toNat u hlong u.calls.toNat (le_refl _)
  obtain ⟨s', hs'⟩ := selectRounds_completes_long u.calls.toNat { u with departments := ds' }
    (fun d hd => hlong d (hperm.subset hd)) u.calls.toNat (le_refl _)
  obtain ⟨eh, G, eG, eG'⟩ :=
    selectRounds_order_independent u ds' hnames hperm u.calls.toNat s s' hs hs'
  have hp : s'.departments.Perm s.departments := by
    rw [eG, eG']; exact hperm.map G
  have hnd : (s.departments.map (fun d => d.name)).Nodup := by
    rw [selectRounds_names _ u s hs]; exact hnames
  refine ⟨s, s', hs, hs', eh, fun p => by rw [eh], hp, ?_, ?_⟩
  · intro d hd d' hd' hname
    exact List.inj_on_of_nodup_map hnd (hp.subset hd') hd hname
  · intro d hd
    exact ⟨d, hp.symm.subset hd, rfl, rfl⟩

theorem selectCandidates_independent_of_department_order_witness :
    admittedLists demoRanked.selectCandidates = [[1], [0]]
      ∧ admittedLists (University.selectCandidates
          { demoRanked with departments := demoRanked.departments.reverse }) = [[0], [1]]
      ∧ ∃ s s', demoRanked.selectCandidates = .ok s
          ∧ University.selectCandidates
              { demoRanked with departments := demoRanked.departments.reverse } = .ok s'
          ∧ s'.heap = s.heap
          ∧ (∀ p, (s'.heap p).accepted = (s.heap p).accepted)
          ∧ s'.departments.Perm s.departments
          ∧ (∀ d ∈ s.departments, ∀ d' ∈ s'.departments, d'.name = d.name → d' = d)
          ∧ (∀ d ∈ s.departments, ∃ d' ∈ s'.departments,
              d'.name = d.name ∧ d'.accepted = d.accepted) :=
  ⟨by decide!, by decide!,
    selectCandidates_independent_of_department_order demoRanked demoRanked.departments.reverse
      (by decide) (List.reverse_perm _) (by decide)⟩

end Admission
